import Mathlib

/-!
# Cache22: a path-addressed key/value store served over a line protocol

A shallow embedding of `tree.c` (the namespace store and its traversal
functions) and of the command handlers and dispatch loop of `cache22.c`.

Conventions of the embedding.

* A byte is a `Char`; a C string argument is the list of its bytes before the
  terminating NUL, so `strlen` is `List.length` and `strcmp(a, b) == 0` is
  `a = b`.
* The store is what is reachable from the static `root`: root's leaf chain
  (`root.n.east`) and the chain of nodes hanging off `root.n.west`.  The
  fields of `root` that no function ever writes (`tag`, `north`, `path`) are
  constants of the embedding.
* A `Node *` is the position of the node in the forward-link chain that starts
  at root (root is position 0); a `Leaf *` is a node position together with a
  position in that node's leaf chain.
* `create_node` overwrites `parent->west`; the nodes that were chained behind
  `parent` are no longer reachable from root and drop out of the state.
* A leaf's `value` is the whole allocated buffer, byte for byte.  `strlen` of
  a buffer that holds no NUL reads beyond the allocation, and a segment of 256
  bytes or more overruns `temp_path_segment`: both are a `Fault`, as is a
  failed `assert`.  `write(fd, value, size)` sends the first `size` bytes of
  the buffer; `size` never exceeds the allocation in a store these functions
  build (`reachable_sizes_fit`).
* Allocation is assumed to succeed (`create_node` and `create_leaf` never
  return a null pointer in the source either).
* What a handler writes to the client socket is returned as a list of bytes.
* `fork` gives the child a copy of the memory of the accepting process: a
  connection starts on a copy of the acceptor's store and owns it from then on.
-/

namespace Cache22

/-! ## C library helpers -/

/-- The terminating byte of a C string. -/
def NUL : Char := Char.ofNat 0

/-- The C string held at the start of a buffer: its bytes before the first NUL. -/
def cstr (b : List Char) : List Char := b.takeWhile (fun c => c ≠ NUL)

/-- Position of the first occurrence of `c`, as `strchr` finds it. -/
def strchr : List Char → Char → Option Nat
  | [], _ => none
  | x :: xs, c => if x = c then some 0 else (strchr xs c).map (fun i => i + 1)

/-- Contents of an `n`-byte destination after `strncpy(dst, src, n)`: the first
`n` bytes of the string at `src`, padded with NUL bytes up to `n`; there is no
terminator when the string has `n` bytes or more. -/
def strncpy (src : List Char) (n : Nat) : List Char :=
  (cstr src).take n ++ List.replicate (n - (cstr src).length) NUL

/-- String held by `dst` after `strncat(dst, src, n)`. -/
def strncat (dst src : List Char) (n : Nat) : List Char := dst ++ src.take n

/-- Length that `strlen` reports for the string in an allocated buffer, when
the terminator lies inside the allocation. -/
def strlen_buf (b : List Char) : Option Nat := strchr b NUL

/-- Whitespace of the C locale, as `isspace` and the scanf directives see it. -/
def isspace (c : Char) : Bool :=
  c = ' ' || c = '\t' || c = '\n' || c = Char.ofNat 11 || c = Char.ofNat 12 || c = '\r'

/-- Ways in which a call leaves defined behaviour or aborts. -/
inductive Fault where
  | out_of_bounds
  | assertion
  deriving DecidableEq, Repr

deriving instance DecidableEq for Except

/-! ## Data model (`tree.h`) -/

def TagRoot : Nat := 1
def TagNode : Nat := 2
def TagLeaf : Nat := 4

/-- A `Tree *`: either a node (by chain position) or a leaf (node position and
position in that node's leaf chain). -/
inductive TreePtr where
  | node (n : Nat)
  | leaf (n l : Nat)
  deriving DecidableEq, Repr

/-- The fields of `struct s_leaf`; `east` is the rest of the list the leaf sits in. -/
structure Leaf where
  tag : Nat
  west : TreePtr
  key : List Char
  value : List Char
  size : Nat
  deriving DecidableEq, Repr

/-- The fields of `struct s_node`; `west` is the rest of the chain the node sits in. -/
structure Node where
  tag : Nat
  north : Nat
  east : List Leaf
  path : List Char
  deriving DecidableEq, Repr

/-- The namespace store: the leaf chain of `root` and the node chain behind
`root.n.west`. -/
structure Store where
  east : List Leaf
  west : List Node
  deriving DecidableEq, Repr

/-- The static `root` node: tag `TagRoot | TagNode`, its own parent, path "/". -/
def Store.root (s : Store) : Node :=
  { tag := TagRoot ||| TagNode, north := 0, east := s.east, path := "/".toList }

/-- The forward-link chain from root, root first. -/
def Store.chain (s : Store) : List Node := s.root :: s.west

/-- Dereference of a node pointer. -/
def Store.nodeAt (s : Store) (n : Nat) : Node := (s.chain.get? n).getD s.root

/-- The store as statically initialised: root alone, without leaves. -/
def init_store : Store := { east := [], west := [] }

/-- Writes `f` of the leaf chain into the `east` side of the node at position `n`. -/
def Store.setEast (s : Store) (n : Nat) (f : List Leaf → List Leaf) : Store :=
  match n with
  | 0 => { s with east := f s.east }
  | k + 1 => { s with west := s.west.modify (fun nd => { nd with east := f nd.east }) k }

/-! ## Traversal and mutation (`tree.c`) -/

/-- The scan of `find_node_linear` over a chain: position of the first node
whose stored path equals `path`. -/
def find_node_in : List Node → List Char → Option Nat
  | [], _ => none
  | p :: rest, path =>
    if p.path = path then some 0 else (find_node_in rest path).map (fun i => i + 1)

def find_node_linear (s : Store) (path : List Char) : Option Nat :=
  find_node_in s.chain path

/-- The scan of `find_leaf_linear` over a leaf chain. -/
def find_leaf_in : List Leaf → List Char → Option Nat
  | [], _ => none
  | l :: rest, key =>
    if l.key = key then some 0 else (find_leaf_in rest key).map (fun i => i + 1)

def find_leaf_linear (s : Store) (path key : List Char) : Option (Nat × Nat) :=
  match find_node_linear s path with
  | none => none
  | some n => (find_leaf_in (s.nodeAt n).east key).map (fun l => (n, l))

/-- Dereference of a leaf pointer. -/
def Store.leafAt (s : Store) (p : Nat × Nat) : Option Leaf := (s.nodeAt p.1).east.get? p.2

/-- The value buffer of the leaf found, as `lookup_linear` returns it. -/
def lookup_linear (s : Store) (path key : List Char) : Option (List Char) :=
  match find_leaf_linear s path key with
  | none => none
  | some p => (s.leafAt p).map (fun l => l.value)

/-- `create_node(parent, path)`: the new node becomes `parent->west`, so the
chain ends with it; at most 255 bytes of the path are stored. -/
def create_node (s : Store) (parent : Nat) (path : List Char) : Store × Nat :=
  ({ s with west := s.west.take parent ++
      [{ tag := TagNode, north := parent, east := [], path := path.take 255 }] },
   parent + 1)

/-- The walk of `find_last_linear` over a leaf chain: position of the last leaf. -/
def find_last_in : List Leaf → Option Nat
  | [] => none
  | [_] => some 0
  | _ :: l :: rest => (find_last_in (l :: rest)).map (fun i => i + 1)

def find_last_linear (s : Store) (parent : Nat) : Option Nat :=
  find_last_in (s.nodeAt parent).east

/-- `create_leaf(parent, key, value, count)`: the new leaf is linked behind
the last leaf of the chain (or directly to the node), holds at most 127 bytes
of the key and a `count`-byte buffer filled by `strncpy`. -/
def create_leaf (s : Store) (parent : Nat) (key value : List Char) (count : Nat) :
    Store × (Nat × Nat) :=
  let l := find_last_linear s parent
  let new : Leaf :=
    { tag := TagLeaf
      west := match l with
        | none => TreePtr.node parent
        | some i => TreePtr.leaf parent i
      key := key.take 127
      value := strncpy value count
      size := count }
  match l with
  | none => (s.setEast parent (fun _ => [new]), (parent, 0))
  | some i => (s.setEast parent (fun e => e.take (i + 1) ++ [new]), (parent, i + 1))

/-! ## Command handlers (`cache22.c`) -/

/-- What a handler leaves behind: the store, the connection's continuation
flag, the bytes written to the client and the `int32` it returns. -/
structure Result where
  store : Store
  ccontinuation : Bool
  out : List Char
  status : Nat
  deriving DecidableEq, Repr

/-- The value of `return -1` in a function returning `int32` (unsigned). -/
def FAILURE : Nat := 2 ^ 32 - 1

def handle_hello (s : Store) (cc : Bool) (folder _args : List Char) : Except Fault Result :=
  .ok { store := s, ccontinuation := cc,
        out := "Server: Hello '".toList ++ folder ++ "'!\n".toList, status := 0 }

def handle_get (s : Store) (cc : Bool) (path key : List Char) : Except Fault Result :=
  if path.length = 0 ∨ key.length = 0 then
    .ok { store := s, ccontinuation := cc,
          out := "ERROR: GET command requires a path and a key. Usage: GET <path> <key>\n".toList,
          status := FAILURE }
  else
    match lookup_linear s path key with
    | some value =>
      -- write(cli->s, value, strlen(value))
      match strlen_buf value with
      | none => .error Fault.out_of_bounds
      | some n =>
        .ok { store := s, ccontinuation := cc,
              out := "VALUE: ".toList ++ value.take n ++ "\n".toList, status := 0 }
    | none =>
      .ok { store := s, ccontinuation := cc,
            out := "ERROR: Key '".toList ++ key ++ "' not found in path '".toList ++ path ++
              "'.\n".toList,
            status := 0 }

/-- The string work of one round of the `while` loop of `handle_put`: cut the
next segment off `walk` (the text at `path_walk_ptr`), append it to `sofar`
(`current_full_path_so_far`, a 256-byte array) and move `walk` behind the next
slash. Returns the new `sofar` and the new `walk`; an empty `walk` stands for
both a null `path_walk_ptr` and one at the terminator. -/
def next_segment (sofar walk : List Char) : Except Fault (List Char × List Char) :=
  let next_slash := strchr walk '/'
  let segment_len := match next_slash with
    | some i => i
    | none => walk.length
  -- char temp_path_segment[256]; temp_path_segment[segment_len] = 0
  if 256 ≤ segment_len then .error Fault.out_of_bounds
  else
    let temp_path_segment := walk.take segment_len
    let sofar1 :=
      if sofar.length > 1 ∨ sofar.head? ≠ some '/' then
        strncat sofar "/".toList (256 - sofar.length - 1)
      else sofar
    let sofar2 := strncat sofar1 temp_path_segment (256 - sofar1.length - 1)
    let walk1 := match next_slash with
      | some i => walk.drop (i + 1)
      | none => []
    .ok (sofar2, walk1)

/-- The `while` loop of `handle_put` that walks the path segment by segment,
looking up each accumulated path and creating the node when it is absent;
`cur` is `current_parent_node`.  Every round consumes at least one byte of
`walk`, so `fuel = walk.length` rounds are enough. -/
def put_walk : Nat → Store → Nat → List Char → List Char → Except Fault (Store × Nat)
  | 0, s, cur, _, _ => .ok (s, cur)
  | fuel + 1, s, cur, sofar, walk =>
    if walk = [] then .ok (s, cur)
    else
      match next_segment sofar walk with
      | .error f => .error f
      | .ok (sofar2, walk1) =>
        let next := match find_node_linear s sofar2 with
          | none => create_node s cur sofar2
          | some found => (s, found)
        put_walk fuel next.1 next.2 sofar2 walk1

/-- The accumulated paths that the loop of `handle_put` looks up, in order. -/
def put_trail : Nat → List Char → List Char → Except Fault (List (List Char))
  | 0, _, _ => .ok []
  | fuel + 1, sofar, walk =>
    if walk = [] then .ok []
    else
      match next_segment sofar walk with
      | .error f => .error f
      | .ok (sofar2, walk1) =>
        match put_trail fuel sofar2 walk1 with
        | .error f => .error f
        | .ok t => .ok (sofar2 :: t)

/-- The text `path_walk_ptr` starts at: behind the leading slash, if there is one. -/
def walk_start (full_path : List Char) : List Char :=
  if full_path.head? = some '/' then full_path.tail else full_path

/-- The first part of `handle_put`: the node the path resolves to, created on the way if needed. -/
def put_resolve (s : Store) (full_path : List Char) : Except Fault (Store × Nat) :=
  put_walk (walk_start full_path).length s 0 "/".toList (walk_start full_path)

/-- The last part of `handle_put`: update the leaf keyed `key` under the node's
path, or create it under `cur`. -/
def put_leaf (s : Store) (cc : Bool) (cur : Nat) (key value : List Char) (value_len : Nat) :
    Result :=
  let path := (s.nodeAt cur).path
  match find_leaf_linear s path key with
  | some existing_leaf =>
    -- malloc(value_len + 1), zero, strncpy(.., value, value_len), terminator
    { store := s.setEast existing_leaf.1 (fun e =>
        e.modify (fun l => { l with value := strncpy value value_len ++ [NUL],
                                    size := value_len }) existing_leaf.2),
      ccontinuation := cc,
      out := "OK: Key '".toList ++ key ++ "' updated in path '".toList ++ path ++ "'.\n".toList,
      status := 0 }
  | none =>
    { store := (create_leaf s cur key value value_len).1,
      ccontinuation := cc,
      out := "OK: Key '".toList ++ key ++ "' created in path '".toList ++ path ++ "'.\n".toList,
      status := 0 }

/-- `handle_put`: validation, split of the payload at the first `=`, path walk,
leaf update or creation. The branches for a null `new_node` and a failed
`malloc` are not taken: allocation succeeds. -/
def handle_put (s : Store) (cc : Bool) (full_path key_value_pair : List Char) :
    Except Fault Result :=
  if full_path.length = 0 ∨ key_value_pair.length = 0 then
    .ok { store := s, ccontinuation := cc,
          out := ("ERROR: PUT command requires a path and a key=value pair. " ++
                  "Usage: PUT <path> <key>=<value>\n").toList,
          status := FAILURE }
  else
    match strchr key_value_pair '=' with
    | none =>
      .ok { store := s, ccontinuation := cc,
            out := "ERROR: PUT value must be in key=value format.\n".toList,
            status := FAILURE }
    | some equal_sign =>
      let key := key_value_pair.take equal_sign
      let value := key_value_pair.drop (equal_sign + 1)
      -- int16 value_len = (int16)strlen(value)
      let value_len := value.length % 2 ^ 16
      if key.length = 0 ∨ value_len = 0 then
        .ok { store := s, ccontinuation := cc,
              out := "ERROR: Key or Value cannot be empty in PUT command.\n".toList,
              status := FAILURE }
      else
        match put_resolve s full_path with
        | .error f => .error f
        | .ok (s1, cur) => .ok (put_leaf s1 cc cur key value value_len)

def handle_cd (s : Store) (cc : Bool) (path _args : List Char) : Except Fault Result :=
  if path.length = 0 then
    .ok { store := s, ccontinuation := cc,
          out := "ERROR: CD command requires a path. Usage: CD <path>\n".toList,
          status := FAILURE }
  else
    match find_node_linear s path with
    | some target_node =>
      .ok { store := s, ccontinuation := cc,
            out := "OK: Changed context to node '".toList ++ (s.nodeAt target_node).path ++
              "' (not persistent per client yet).\n".toList,
            status := 0 }
    | none =>
      .ok { store := s, ccontinuation := cc,
            out := "ERROR: Path '".toList ++ path ++ "' not found.\n".toList, status := 0 }

/-- The `while` loop of `handle_ls` over a leaf chain; `write(fd, l->value,
l->size)` sends the first `size` bytes of the value buffer. -/
def ls_leaves : List Leaf → List Char
  | [] => []
  | l :: rest =>
    "  L: ".toList ++ l.key ++ " -> '".toList ++ l.value.take l.size ++ "'\n".toList ++
      ls_leaves rest

def handle_ls (s : Store) (cc : Bool) (path _args : List Char) : Except Fault Result :=
  let target_node := if path.length = 0 then some 0 else find_node_linear s path
  match target_node with
  | none =>
    .ok { store := s, ccontinuation := cc,
          out := "ERROR: Path '".toList ++ path ++ "' not found.\n".toList, status := FAILURE }
  | some n =>
    let head := "Listing contents of '".toList ++ (s.nodeAt n).path ++ "':\n".toList
    let l := (s.nodeAt n).east
    .ok { store := s, ccontinuation := cc,
          out := head ++ (if l = [] then " (No leaves found)\n".toList else ls_leaves l),
          status := 0 }

def handle_quit (s : Store) (_cc : Bool) (_folder _args : List Char) : Except Fault Result :=
  .ok { store := s, ccontinuation := false, out := "Server: Goodbye!\n".toList, status := 0 }

/-- `indent(n)`: two spaces per level, guarded by `assert(n<120)`. -/
def indent (n : Nat) : Except Fault (List Char) :=
  if n < 1 then .ok []
  else if ¬ n < 120 then .error Fault.assertion
  else .ok (List.replicate n "  ".toList).flatten

/-- The `Print` macro of `tree.h`: the string goes through a 256-byte buffer
whose length is then taken with `strlen`. -/
def Print (x : List Char) : Except Fault (List Char) :=
  if x.length < 256 then .ok x else .error Fault.out_of_bounds

/-- The inner loop of `print_tree_forward_leaves` over the leaves of one node. -/
def print_leaves (indentation : Nat) (path : List Char) : List Leaf → Except Fault (List Char)
  | [] => .ok []
  | l :: rest => do
    let a ← indent indentation
    let a ← Print a
    let b ← Print path
    let c ← Print "/".toList
    let d ← Print l.key
    let e ← Print " ->'".toList
    let f ← Print "'\n".toList
    let more ← print_leaves indentation path rest
    .ok (a ++ b ++ c ++ d ++ e ++ l.value.take l.size ++ f ++ more)

/-- The outer loop of `print_tree_forward_leaves` over the node chain;
`indentation` is an `int8`. -/
def print_nodes (indentation : Nat) : List Node → Except Fault (List Char)
  | [] => .ok []
  | n :: rest => do
    let a ← indent indentation
    let a ← Print a
    let b ← Print n.path
    let c ← Print "\n".toList
    let leaves ← print_leaves ((indentation + 1) % 256) n.path n.east
    let more ← print_nodes ((indentation + 1) % 256) rest
    .ok (a ++ b ++ c ++ leaves ++ more)

def print_tree_forward_leaves (s : Store) : Except Fault (List Char) :=
  print_nodes 0 s.chain

def handle_print_tree (s : Store) (cc : Bool) (_folder _args : List Char) : Except Fault Result :=
  match print_tree_forward_leaves s with
  | .error f => .error f
  | .ok tree =>
    .ok { store := s, ccontinuation := cc,
          out := "Server: Printing entire tree to your client (debug output)...\n".toList ++
            tree ++ "Server: Tree print complete.\n".toList,
          status := 0 }

/-! ## Command protocol (`childloop`) -/

/-- The type `Callback` of a command handler. -/
abbrev Callback := Store → Bool → List Char → List Char → Except Fault Result

/-- The dispatch table `handlers`. -/
def handlers : List (List Char × Callback) :=
  [ ("hello".toList, handle_hello),
    ("GET".toList, handle_get),
    ("PUT".toList, handle_put),
    ("CD".toList, handle_cd),
    ("LS".toList, handle_ls),
    ("QUIT".toList, handle_quit),
    ("PRINT_TREE".toList, handle_print_tree) ]

/-- The scan of `getcmd` over a table: the handler of the first entry whose name equals `cmd`. -/
def getcmd_in : List (List Char × Callback) → List Char → Option Callback
  | [], _ => none
  | h :: rest, cmd => if cmd = h.1 then some h.2 else getcmd_in rest cmd

def getcmd (cmd : List Char) : Option Callback := getcmd_in handlers cmd

/-- The scanf directive `%<width>s`: skips white space, then takes the bytes up
to the next white space, at most `width`; fails when nothing is left. Returns
the field and the unread input. -/
def scan_word (width : Nat) (input : List Char) : Option (List Char × List Char) :=
  let input := input.dropWhile isspace
  let field := (input.takeWhile (fun c => !isspace c)).take width
  if field = [] then none else some (field, input.drop field.length)

/-- The scanf directive `%<width>[^\n\r]`: takes the bytes up to the next
newline or carriage return, at most `width`; fails when there is none. -/
def scan_line (width : Nat) (input : List Char) : Option (List Char × List Char) :=
  let field := (input.takeWhile (fun c => c != '\n' && c != '\r')).take width
  if field = [] then none else some (field, input.drop field.length)

/-- The fields `cmd`, `folder`, `args` after
`sscanf(buf, "%255s %255s %255[^\n\r]s", cmd, folder, args)` and the zeroing of
the buffers that were not assigned. A blank in the format skips white space. -/
def parse_request (buf : List Char) : List Char × List Char × List Char :=
  match scan_word 255 buf with
  | none => ([], [], [])
  | some (cmd, rest1) =>
    match scan_word 255 (rest1.dropWhile isspace) with
    | none => (cmd, [], [])
    | some (folder, rest2) =>
      match scan_line 255 (rest2.dropWhile isspace) with
      | none => (cmd, folder, [])
      | some (args, _) => (cmd, folder, args)

/-- State of a connection after one round of the loop of `childloop`, with the
bytes written to the client in that round. -/
structure Round where
  store : Store
  ccontinuation : Bool
  out : List Char
  deriving DecidableEq, Repr

/-- One round of the loop of `childloop` for a `read` that returned the bytes
`bytes` (at least one, at most 255): parse, dispatch, prompt. -/
def childloop_step (s : Store) (bytes : List Char) : Except Fault Round :=
  let fields := parse_request (cstr bytes)
  let cmd := fields.1
  let folder := fields.2.1
  let args := fields.2.2
  if cmd.length = 0 then
    .ok { store := s, ccontinuation := true, out := "ERROR: Please enter a command.\n> ".toList }
  else
    match getcmd cmd with
    | some handler_func =>
      match handler_func s true folder args with
      | .error f => .error f
      | .ok r =>
        .ok { store := r.store, ccontinuation := r.ccontinuation, out := r.out ++ "> ".toList }
    | none =>
      .ok { store := s, ccontinuation := true,
            out := "ERROR: Unknown command '".toList ++ cmd ++ "'. Type QUIT to exit.\n".toList ++
              "> ".toList }

/-- The stores a connection can be in: the initial store, and what a round of
the command loop makes of such a store for a request of 1 to 255 bytes. -/
inductive Reachable : Store → Prop where
  | init : Reachable init_store
  | step (s : Store) (bytes : List Char) (r : Round) :
      Reachable s → bytes ≠ [] → bytes.length ≤ 255 → childloop_step s bytes = .ok r →
      Reachable r.store

/-! ## Definitions used to state the properties -/

/-- One round of the loop of `handle_put` on the store: look the accumulated
path up, create the node under `cur` when it is absent. -/
def visit (st : Store × Nat) (p : List Char) : Store × Nat :=
  match find_node_linear st.1 p with
  | none => create_node st.1 st.2 p
  | some found => (st.1, found)

/-- One line of the LS listing, as the specification words it. -/
def ls_line (l : Leaf) : List Char :=
  "  L: ".toList ++ l.key ++ " -> '".toList ++ l.value.take l.size ++ "'\n".toList

/-- The body of the LS listing, as the specification words it. -/
def ls_body (e : List Leaf) : List Char :=
  if e = [] then " (No leaves found)\n".toList else (e.map ls_line).flatten

/-- The accumulated path with the separator that the next segment is appended behind. -/
def with_slash (sofar : List Char) : List Char :=
  if sofar.length > 1 then sofar ++ "/".toList else sofar

/-- Paths that `handle_put` stores as they are written: a leading slash, and
behind it either nothing or a text that neither starts nor ends with a slash. -/
def AbsPath (p : List Char) : Prop :=
  p.head? = some '/' ∧
    (p.tail = [] ∨ (p.tail.head? ≠ some '/' ∧ p.tail.getLast? ≠ some '/'))

/-- The leaf that `create_leaf` allocates and fills. -/
def new_leaf (s : Store) (parent : Nat) (key value : List Char) (count : Nat) : Leaf :=
  { tag := TagLeaf
    west := match find_last_linear s parent with
      | none => TreePtr.node parent
      | some i => TreePtr.leaf parent i
    key := key.take 127
    value := strncpy value count
    size := count }

instance (p : List Char) : Decidable (AbsPath p) := by
  unfold AbsPath
  infer_instance

/-- Two leaf chains that differ by the one leaf a PUT writes: a leaf appended
at the end, or the leaf at one position replaced. -/
def OneLeafWritten (e e' : List Leaf) : Prop :=
  (∃ new, e' = e ++ [new]) ∨ (∃ i l, i < e.length ∧ e' = e.set i l)

/-- The store of a connection after the request `PUT /a/b k=v`. -/
def store_ab : Store :=
  { east := [],
    west := [{ tag := 2, north := 0, east := [], path := "/a".toList },
             { tag := 2, north := 1, path := "/a/b".toList,
               east := [{ tag := 4, west := TreePtr.node 2, key := "k".toList,
                          value := "v".toList, size := 1 }] }] }

/-- The store of a connection after `PUT /a/b k=v` and `PUT /a/b/c x=y`. -/
def store_abc : Store :=
  { east := [],
    west := [{ tag := 2, north := 0, east := [], path := "/a".toList },
             { tag := 2, north := 1, path := "/a/b".toList,
               east := [{ tag := 4, west := TreePtr.node 2, key := "k".toList,
                          value := "v".toList, size := 1 }] },
             { tag := 2, north := 2, path := "/a/b/c".toList,
               east := [{ tag := 4, west := TreePtr.node 3, key := "x".toList,
                          value := "y".toList, size := 1 }] }] }

/-- A key of 128 bytes, one more than a leaf stores. -/
def long_key : List Char := List.replicate 128 'k'

/-- The 127 bytes of `long_key` that a leaf stores. -/
def cut_key : List Char := List.replicate 127 'k'

/-- The request `PUT /a kk...k=x` with the key `long_key`: 138 bytes. -/
def long_key_request : List Char := "PUT /a ".toList ++ long_key ++ "=x\n".toList

/-- The store of a connection after `long_key_request`. -/
def store_long : Store :=
  { east := [],
    west := [{ tag := 2, north := 0, path := "/a".toList,
               east := [{ tag := 4, west := TreePtr.node 1, key := cut_key,
                          value := "x".toList, size := 1 }] }] }

/-- The store of a connection after `long_key_request` sent twice. -/
def store_dup : Store :=
  { east := [],
    west := [{ tag := 2, north := 0, path := "/a".toList,
               east := [{ tag := 4, west := TreePtr.node 1, key := cut_key,
                          value := "x".toList, size := 1 },
                        { tag := 4, west := TreePtr.leaf 1 0, key := cut_key,
                          value := "x".toList, size := 1 }] }] }

/-- Every leaf of the store has a value buffer of at least `size` bytes. -/
def SizesFit (s : Store) : Prop :=
  ∀ nd ∈ s.chain, ∀ l ∈ nd.east, l.size ≤ l.value.length

/-- The command names of the protocol, as the specification lists them. -/
def command_names : List (List Char) :=
  ["hello".toList, "GET".toList, "PUT".toList, "CD".toList, "LS".toList, "QUIT".toList,
   "PRINT_TREE".toList]

/-- The three fields of a request as the specification words them: the first
run of bytes that are not white space, the second such run, and what follows
the white space behind it up to the first newline or carriage return. -/
def request_fields (bytes : List Char) : List Char × List Char × List Char :=
  let b1 := (cstr bytes).dropWhile isspace
  let command := b1.takeWhile (fun c => !isspace c)
  let b2 := (b1.dropWhile (fun c => !isspace c)).dropWhile isspace
  let arg1 := b2.takeWhile (fun c => !isspace c)
  let b3 := (b2.dropWhile (fun c => !isspace c)).dropWhile isspace
  let arg2 := b3.takeWhile (fun c => c != '\n' && c != '\r')
  (command, arg1, arg2)

/-- The store that `tree_test_main` builds: `/Users`, `/Users/login` and the
two leaves `pushkar` and `manan` under it. -/
def tree_test_store : Store :=
  let n := create_node init_store 0 "/Users".toList
  let n2 := create_node n.1 n.2 "/Users/login".toList
  let l1 := create_leaf n2.1 n2.2 "pushkar".toList "abs77301aa".toList 10
  (create_leaf l1.1 n2.2 "manan".toList "aa098765467c".toList 12).1

/-- The accumulated path `b` extends `a` by one segment: a separator unless `a`
is the root path, then bytes without slash. -/
def Ext (a b : List Char) : Prop :=
  ∃ seg, '/' ∉ seg ∧ b = with_slash a ++ seg ∧ 1 < b.length

/-- The chain is a path list: each stored path extends the one before it by
one segment, starting from root's, and has at most 255 bytes. -/
def PathList (s : Store) : Prop :=
  List.Chain Ext "/".toList (s.west.map Node.path) ∧
    ∀ p ∈ s.west.map Node.path, p.length ≤ 255

/-- The leaves stored under a path: the leaf chain of the node the path
resolves to, empty when it resolves to none. -/
def leaves_under (s : Store) (p : List Char) : List Leaf :=
  match find_node_linear s p with
  | some n => (s.nodeAt n).east
  | none => []

/-- Stored keys fit the 128-byte key field of a leaf with its terminator. -/
def KeysFit (s : Store) : Prop :=
  ∀ nd ∈ s.chain, ∀ l ∈ nd.east, l.key.length ≤ 127

/-- The line of PRINT_TREE for the node at position `i` of the chain, as the
specification words it. -/
def node_line (i : Nat) (nd : Node) : List Char :=
  List.replicate (2 * i) ' ' ++ nd.path ++ "\n".toList

/-- The line of PRINT_TREE for a leaf of the node at position `i`, as the
specification words it. -/
def leaf_line (i : Nat) (nd : Node) (l : Leaf) : List Char :=
  List.replicate (2 * (i + 1)) ' ' ++ nd.path ++ "/".toList ++ l.key ++ " ->'".toList ++
    l.value.take l.size ++ "'\n".toList

/-- The text of PRINT_TREE for a chain whose first node stands at position `i`:
each node's line, followed by the lines of its leaves. -/
def tree_text (i : Nat) : List Node → List Char
  | [] => []
  | nd :: rest =>
    node_line i nd ++ (nd.east.map (leaf_line i nd)).flatten ++ tree_text (i + 1) rest

/-- The chain stays inside what `indent` accepts: every node stands at a
position below 120, a node with leaves at a position below 119. -/
def PrintFits (s : Store) : Prop :=
  ∀ i nd, s.chain[i]? = some nd → i < 120 ∧ (nd.east ≠ [] → i + 1 < 120)

instance (s : Store) : Decidable (PrintFits s) :=
  decidable_of_iff (∀ i ∈ List.range s.chain.length,
      ∀ nd, s.chain[i]? = some nd → i < 120 ∧ (nd.east ≠ [] → i + 1 < 120)) (by
    unfold PrintFits
    constructor
    · intro h i nd hi
      have hlt : i < s.chain.length := by
        by_contra hc
        rw [List.getElem?_eq_none (by omega)] at hi
        cases hi
      exact h i (List.mem_range.mpr hlt) nd hi
    · intro h i _ nd hi
      exact h i nd hi)

/-- A path of 120 segments, 240 bytes. -/
def deep_path : List Char := (List.replicate 120 "/a".toList).flatten

/-- The request `PUT /a/a/.../a k=v` for the path of 120 segments, 249 bytes. -/
def deep_request : List Char := "PUT ".toList ++ deep_path ++ " k=v\n".toList

/-- The store after a round of the loop; a round that does not return leaves none. -/
def store_after (s : Store) (bytes : List Char) : Store :=
  match childloop_step s bytes with
  | .ok r => r.store
  | .error _ => s

/-- The store of a connection after that request. -/
def deep_store : Store := store_after init_store deep_request

/-! ## The loop of `childloop` over the results of `read` -/

/-- What `read(cli->s, buf, 255)` hands to the loop of `childloop`. -/
inductive ReadResult where
  /-- The call returned these bytes, at least one. -/
  | data (bytes : List Char)
  /-- The call returned 0: the client closed the connection. -/
  | eof
  /-- The call returned -1 with `errno == EINTR`. -/
  | eintr
  /-- The call returned -1 with another `errno`. -/
  | failed
  deriving DecidableEq, Repr

/-- One iteration of `while (ccontinuation)` in `childloop`, entered with the
flag set: the store and the flag it leaves, and the bytes written to the client. -/
def childloop_round (s : Store) (rd : ReadResult) : Except Fault Round :=
  match rd with
  | .eof => .ok { store := s, ccontinuation := false, out := [] }
  | .failed => .ok { store := s, ccontinuation := false, out := [] }
  | .eintr => .ok { store := s, ccontinuation := true, out := [] }
  | .data bytes => childloop_step s bytes

/-- The loop of `childloop` over the results of its successive reads: it runs
while the flag is set; `out` collects the bytes written to the client, and the
flag of the result tells whether the loop is still running when the reads
listed are used up. -/
def childloop_run : Store → List ReadResult → Except Fault Round
  | s, [] => .ok { store := s, ccontinuation := true, out := [] }
  | s, rd :: rest =>
    match childloop_round s rd with
    | .error f => .error f
    | .ok r =>
      if r.ccontinuation then
        match childloop_run r.store rest with
        | .error f => .error f
        | .ok r2 => .ok { store := r2.store, ccontinuation := r2.ccontinuation,
                          out := r.out ++ r2.out }
      else .ok r

/-! ## Connections (`mainloop`) -/

/-- A child process serving one connection: its copy of the store, whether its
loop is still running, and the bytes it has written to the client. -/
structure Connection where
  store : Store
  running : Bool
  out : List Char
  deriving DecidableEq, Repr

/-- What the child writes before it enters `childloop`. -/
def greeting : List Char :=
  "100 Connected to Cache22 server.\n".toList ++
    "Type 'HELP' for commands, 'QUIT' to disconnect.\n> ".toList

/-- The child that `fork` creates: it holds a copy of the memory of the
accepting process, greets, and enters `childloop`. -/
def Connection.fresh (s : Store) : Connection :=
  { store := s, running := true, out := greeting }

/-- One iteration of the loop of a child for a result of `read`; a child whose
loop has ended, or that was aborted, has exited and serves nothing. -/
def Connection.serve (c : Connection) (rd : ReadResult) : Connection :=
  if c.running then
    match childloop_round c.store rd with
    | .ok r => { store := r.store, running := r.ccontinuation, out := c.out ++ r.out }
    | .error _ => { store := c.store, running := false, out := c.out }
  else c

/-- The accepting process with the store in its memory, and its children in
the order they were accepted. -/
structure Server where
  acceptor : Store
  connections : List Connection
  deriving DecidableEq, Repr

/-- What happens on the server: a client is accepted, or the child of one
connection gets a result from `read`. -/
inductive Event where
  | accept
  | read (conn : Nat) (rd : ReadResult)
  deriving DecidableEq, Repr

/-- `mainloop` for an accepted client: `fork`; the parent closes its copy of
the socket and returns, the child serves the connection and exits. -/
def mainloop (sv : Server) : Server :=
  { sv with connections := sv.connections ++ [Connection.fresh sv.acceptor] }

def Server.step (sv : Server) : Event → Server
  | .accept => mainloop sv
  | .read i rd => { sv with connections := sv.connections.modify (fun c => c.serve rd) i }

/-- The server when `main` enters its loop: the store is the static `root`. -/
def server_start : Server := { acceptor := init_store, connections := [] }

def Server.run (evs : List Event) : Server := evs.foldl Server.step server_start

/-! ## Further definitions used to state the properties -/

/-- The arguments of the calls of `indent` that the loops of
`print_tree_forward_leaves` make, in order, for a chain whose first node is
printed at `indentation`: one call per node, then one per leaf of the node at
the incremented `indentation`. -/
def indent_calls (indentation : Nat) : List Node → List Nat
  | [] => []
  | n :: rest =>
    indentation :: n.east.map (fun _ => (indentation + 1) % 256) ++
      indent_calls ((indentation + 1) % 256) rest

/-- Each node behind root has the node before it in the chain as its north. -/
def NorthChain (s : Store) : Prop :=
  ∀ i nd, s.chain[i + 1]? = some nd → nd.north = i

/-- The store of a connection after the request `PUT /a//b k=v`: the nodes
`/a`, `/a/` and `/a//b`. -/
def store_gap : Store := store_after init_store "PUT /a//b k=v\n".toList

theorem chain_setEast (s : Store) (n : Nat) (f : List Leaf → List Leaf) :
    (s.setEast n f).chain = s.chain.modify (fun nd => { nd with east := f nd.east }) n := by
  cases n with
  | zero => rfl
  | succ k => rfl

theorem map_path_modify (f : List Leaf → List Leaf) (n : Nat) (l : List Node) :
    (l.modify (fun nd => { nd with east := f nd.east }) n).map Node.path = l.map Node.path := by
  induction l generalizing n with
  | nil => simp
  | cons a l ih =>
    cases n with
    | zero => simp
    | succ k => simp [ih]

theorem paths_setEast (s : Store) (n : Nat) (f : List Leaf → List Leaf) :
    (s.setEast n f).chain.map Node.path = s.chain.map Node.path := by
  rw [chain_setEast, map_path_modify]

theorem find_node_in_congr {l l' : List Node} (h : l.map Node.path = l'.map Node.path)
    (p : List Char) : find_node_in l p = find_node_in l' p := by
  induction l generalizing l' with
  | nil =>
    cases l' with
    | nil => rfl
    | cons b l' => simp at h
  | cons a l ih =>
    cases l' with
    | nil => simp at h
    | cons b l' =>
      simp only [List.map_cons, List.cons.injEq] at h
      simp [find_node_in, h.1, ih h.2]

theorem find_node_linear_setEast (s : Store) (n : Nat) (f : List Leaf → List Leaf)
    (p : List Char) : find_node_linear (s.setEast n f) p = find_node_linear s p :=
  find_node_in_congr (paths_setEast s n f) p

theorem find_node_in_none {l : List Node} {p : List Char} :
    find_node_in l p = none ↔ p ∉ l.map Node.path := by
  induction l with
  | nil => simp [find_node_in]
  | cons a l ih =>
    by_cases h : a.path = p
    · simp [find_node_in, h]
    · have h' : ¬ p = a.path := fun e => h e.symm
      simp [find_node_in, h, h', ih]

theorem find_node_in_some {l : List Node} {p : List Char} {i : Nat}
    (h : find_node_in l p = some i) : ∃ nd, l[i]? = some nd ∧ nd.path = p := by
  induction l generalizing i with
  | nil => simp [find_node_in] at h
  | cons a l ih =>
    by_cases hp : a.path = p
    · simp [find_node_in, hp] at h
      subst h
      exact ⟨a, by simp, hp⟩
    · simp [find_node_in, hp] at h
      obtain ⟨j, hj, rfl⟩ := h
      obtain ⟨nd, h1, h2⟩ := ih hj
      exact ⟨nd, by simpa using h1, h2⟩

theorem find_node_in_lt {l : List Node} {p : List Char} {i : Nat}
    (h : find_node_in l p = some i) : i < l.length := by
  obtain ⟨nd, h1, _⟩ := find_node_in_some h
  by_contra hc
  rw [List.getElem?_eq_none (by omega)] at h1
  cases h1

theorem find_node_in_append_left {l l' : List Node} {p : List Char} {i : Nat}
    (h : find_node_in l p = some i) : find_node_in (l ++ l') p = some i := by
  induction l generalizing i with
  | nil => simp [find_node_in] at h
  | cons a l ih =>
    by_cases hp : a.path = p
    · simpa [find_node_in, hp] using h
    · simp [find_node_in, hp] at h ⊢
      obtain ⟨j, hj, rfl⟩ := h
      exact ⟨j, ih hj, rfl⟩

theorem find_node_in_append_right {l : List Node} {nd : Node} {p : List Char}
    (h : find_node_in l p = none) (hp : nd.path = p) :
    find_node_in (l ++ [nd]) p = some l.length := by
  induction l with
  | nil => simp [find_node_in, hp]
  | cons a l ih =>
    by_cases ha : a.path = p
    · simp [find_node_in, ha] at h
    · simp [find_node_in, ha] at h ⊢
      exact ih h

theorem find_node_in_take {l : List Node} {p : List Char} {i k : Nat}
    (h : find_node_in l p = some i) (hk : i < k) : find_node_in (l.take k) p = some i := by
  induction l generalizing i k with
  | nil => simp [find_node_in] at h
  | cons a l ih =>
    cases k with
    | zero => omega
    | succ k =>
      by_cases hp : a.path = p
      · simpa [find_node_in, hp] using h
      · simp [find_node_in, hp] at h ⊢
        obtain ⟨j, hj, rfl⟩ := h
        exact ⟨j, ih hj (by omega), rfl⟩

theorem chain_create_node (s : Store) (cur : Nat) (p : List Char) :
    (create_node s cur p).1.chain =
      s.chain.take (cur + 1) ++
        [{ tag := TagNode, north := cur, east := [], path := p.take 255 }] := by
  simp [create_node, Store.chain, Store.root]

theorem nodeAt_eq {s : Store} {n : Nat} {nd : Node} (h : s.chain[n]? = some nd) :
    s.nodeAt n = nd := by
  simp [Store.nodeAt, h]

theorem find_node_linear_path {s : Store} {p : List Char} {n : Nat}
    (h : find_node_linear s p = some n) : (s.nodeAt n).path = p := by
  obtain ⟨nd, h1, h2⟩ := find_node_in_some h
  rw [nodeAt_eq h1, h2]

theorem find_node_linear_lt {s : Store} {p : List Char} {n : Nat}
    (h : find_node_linear s p = some n) : n < s.chain.length :=
  find_node_in_lt h

/-! ### Rejected PUT, missing key, listing, read-only handlers -/

theorem strchr_eq_none {s : List Char} {c : Char} (h : c ∉ s) : strchr s c = none := by
  induction s with
  | nil => rfl
  | cons x xs ih =>
    have hx : x ≠ c := fun e => h (by simp [e])
    have hxs : c ∉ xs := fun e => h (by simp [e])
    simp [strchr, hx, ih hxs]

theorem strchr_append {k : List Char} {c : Char} (v : List Char) (h : c ∉ k) :
    strchr (k ++ c :: v) c = some k.length := by
  induction k with
  | nil => simp [strchr]
  | cons x xs ih =>
    have hx : x ≠ c := fun e => h (by simp [e])
    have hxs : c ∉ xs := fun e => h (by simp [e])
    simp [strchr, hx, ih hxs]

/-- Claim C3 (rejected PUT is atomic): when the path is empty, the payload is
empty, the payload holds no `=`, nothing stands before the first `=`, or
nothing stands behind it, `handle_put` writes one line that starts with
`ERROR: `, returns the failure status, and hands back the store and the
continuation flag exactly as it got them. -/
theorem rejected_put_leaves_store (s : Store) (cc : Bool) (p kv : List Char)
    (h : p = [] ∨ kv = [] ∨ '=' ∉ kv ∨ (∃ v, kv = '=' :: v) ∨ (∃ k, '=' ∉ k ∧ kv = k ++ ['='])) :
    ∃ msg, handle_put s cc p kv =
      .ok { store := s, ccontinuation := cc,
            out := "ERROR: ".toList ++ msg ++ "\n".toList, status := FAILURE } := by
  by_cases h0 : p.length = 0 ∨ kv.length = 0
  · refine ⟨("PUT command requires a path and a key=value pair. " ++
        "Usage: PUT <path> <key>=<value>").toList, ?_⟩
    rw [handle_put, if_pos h0]
    rfl
  · have hp : p ≠ [] := fun e => h0 (Or.inl (by simp [e]))
    have hkv : kv ≠ [] := fun e => h0 (Or.inr (by simp [e]))
    rcases h with h | h | h | ⟨v, rfl⟩ | ⟨k, hk, rfl⟩
    · exact absurd h hp
    · exact absurd h hkv
    · refine ⟨"PUT value must be in key=value format.".toList, ?_⟩
      rw [handle_put, if_neg h0, strchr_eq_none h]
      rfl
    · refine ⟨"Key or Value cannot be empty in PUT command.".toList, ?_⟩
      rw [handle_put, if_neg h0]
      simp [strchr]
    · refine ⟨"Key or Value cannot be empty in PUT command.".toList, ?_⟩
      rw [handle_put, if_neg h0, strchr_append [] hk]
      simp

/-- Claim C3 at the malformed request `PUT /a/b novalue` on the initial store. -/
theorem rejected_put_leaves_store_witness :
    ∃ msg, handle_put init_store true "/a/b".toList "novalue".toList =
      .ok { store := init_store, ccontinuation := true,
            out := "ERROR: ".toList ++ msg ++ "\n".toList, status := FAILURE } :=
  rejected_put_leaves_store init_store true "/a/b".toList "novalue".toList
    (Or.inr (Or.inr (Or.inl (by decide))))

/-- Claim C8 (missing key or path): for a non-empty path and key for which
`find_leaf_linear` finds nothing, `handle_get` completes, writes exactly
`ERROR: Key '<k>' not found in path '<p>'.` and a newline, returns 0, and
leaves the store and the continuation flag as they were. -/
theorem get_missing_reports_not_found (s : Store) (cc : Bool) (p k : List Char)
    (hp : p ≠ []) (hk : k ≠ []) (h : find_leaf_linear s p k = none) :
    handle_get s cc p k =
      .ok { store := s, ccontinuation := cc,
            out := "ERROR: Key '".toList ++ k ++ "' not found in path '".toList ++ p ++
              "'.\n".toList,
            status := 0 } := by
  have h0 : ¬ (p.length = 0 ∨ k.length = 0) := by
    simp [hp, hk]
  rw [handle_get, if_neg h0]
  simp [lookup_linear, h]

/-- Claim C8 at `GET /a/b nosuch` on a store that holds `/a/b` with the one key `k`. -/
theorem get_missing_reports_not_found_witness :
    handle_get store_ab true "/a/b".toList "nosuch".toList =
      .ok { store := store_ab, ccontinuation := true,
            out := "ERROR: Key 'nosuch' not found in path '/a/b'.\n".toList,
            status := 0 } :=
  get_missing_reports_not_found store_ab true "/a/b".toList "nosuch".toList
    (by decide) (by decide) (by decide)

theorem ls_leaves_eq (e : List Leaf) : ls_leaves e = (e.map ls_line).flatten := by
  induction e with
  | nil => rfl
  | cons l rest ih => simp [ls_leaves, ls_line, ih]

/-- Claim C10 (LS output): with an empty path `handle_ls` lists root, with a
non-empty path the node `find_node_linear` returns; when there is none it
writes `ERROR: Path '<path>' not found.`; otherwise it writes the heading
`Listing contents of '<node path>':` followed by ` (No leaves found)` exactly
when the leaf chain is empty, and else by one line `  L: <key> -> '<value>'`
per leaf, in chain order, `<value>` being the first `size` bytes of the
leaf's value buffer. The store is handed back unchanged. -/
theorem ls_lists_every_leaf (s : Store) (cc : Bool) (path args : List Char) :
    (path = [] →
      handle_ls s cc path args =
        .ok { store := s, ccontinuation := cc,
              out := "Listing contents of '".toList ++ s.root.path ++ "':\n".toList ++
                ls_body s.root.east,
              status := 0 }) ∧
    (path ≠ [] → find_node_linear s path = none →
      handle_ls s cc path args =
        .ok { store := s, ccontinuation := cc,
              out := "ERROR: Path '".toList ++ path ++ "' not found.\n".toList,
              status := FAILURE }) ∧
    (∀ n, path ≠ [] → find_node_linear s path = some n →
      handle_ls s cc path args =
        .ok { store := s, ccontinuation := cc,
              out := "Listing contents of '".toList ++ (s.nodeAt n).path ++ "':\n".toList ++
                ls_body (s.nodeAt n).east,
              status := 0 }) ∧
    (∀ e : List Leaf, ls_body e = " (No leaves found)\n".toList ↔ e = []) := by
  refine ⟨?_, ?_, ?_, ?_⟩
  · intro h
    subst h
    simp [handle_ls, ls_body, ls_leaves_eq, Store.nodeAt, Store.chain]
  · intro h hn
    have h0 : ¬ path.length = 0 := by simpa using h
    simp [handle_ls, h0, hn]
  · intro n h hn
    have h0 : ¬ path.length = 0 := by simpa using h
    simp [handle_ls, h0, hn, ls_body, ls_leaves_eq]
  · intro e
    constructor
    · intro h
      cases e with
      | nil => rfl
      | cons l rest =>
        exfalso
        simp [ls_body, ls_line] at h
    · intro h
      simp [ls_body, h]

theorem handle_get_store {s : Store} {cc : Bool} {a b : List Char} {r : Result}
    (h : handle_get s cc a b = .ok r) : r.store = s ∧ r.ccontinuation = cc := by
  unfold handle_get at h
  split at h
  · cases h; exact ⟨rfl, rfl⟩
  · split at h
    · split at h
      · cases h
      · cases h; exact ⟨rfl, rfl⟩
    · cases h; exact ⟨rfl, rfl⟩

theorem handle_get_cases (s : Store) (cc : Bool) (a b : List Char) :
    handle_get s cc a b = .error Fault.out_of_bounds ∨ ∃ r, handle_get s cc a b = .ok r := by
  unfold handle_get
  split
  · exact Or.inr ⟨_, rfl⟩
  · split
    · split
      · exact Or.inl rfl
      · exact Or.inr ⟨_, rfl⟩
    · exact Or.inr ⟨_, rfl⟩

/-- The handlers that only read: `hello`, `CD`, `LS` and `QUIT` always return and
hand back the store they got; `PRINT_TREE` and `GET` hand back the store they
got whenever they return (`GET` returns unless it reads past a value buffer);
and a `GET` repeated on the state the first one left writes the same bytes
and returns the same status. -/
theorem read_handlers_keep_store (s : Store) (cc : Bool) (a b : List Char) :
    (∃ r, handle_hello s cc a b = .ok r ∧ r.store = s) ∧
    (∃ r, handle_cd s cc a b = .ok r ∧ r.store = s) ∧
    (∃ r, handle_ls s cc a b = .ok r ∧ r.store = s) ∧
    (∃ r, handle_quit s cc a b = .ok r ∧ r.store = s) ∧
    (∀ r, handle_print_tree s cc a b = .ok r → r.store = s) ∧
    (handle_get s cc a b = .error Fault.out_of_bounds ∨ ∃ r, handle_get s cc a b = .ok r) ∧
    (∀ r, handle_get s cc a b = .ok r →
      r.store = s ∧ handle_get r.store r.ccontinuation a b = .ok r) := by
  refine ⟨⟨_, rfl, rfl⟩, ?_, ?_, ⟨_, rfl, rfl⟩, ?_, handle_get_cases s cc a b, ?_⟩
  · unfold handle_cd
    split
    · exact ⟨_, rfl, rfl⟩
    · split
      · exact ⟨_, rfl, rfl⟩
      · exact ⟨_, rfl, rfl⟩
  · dsimp only [handle_ls]
    generalize (if a.length = 0 then some 0 else find_node_linear s a) = t
    cases t
    · exact ⟨_, rfl, rfl⟩
    · exact ⟨_, rfl, rfl⟩
  · intro r h
    unfold handle_print_tree at h
    split at h
    · cases h
    · cases h; rfl
  · intro r h
    obtain ⟨h1, h2⟩ := handle_get_store h
    refine ⟨h1, ?_⟩
    rw [h1, h2, h]

/-! ### The path walk of `handle_put` -/

theorem put_walk_eq_foldl (fuel : Nat) (s : Store) (cur : Nat) (sofar walk : List Char) :
    put_walk fuel s cur sofar walk =
      (put_trail fuel sofar walk).map (fun t => t.foldl visit (s, cur)) := by
  induction fuel generalizing s cur sofar walk with
  | zero => rfl
  | succ fuel ih =>
    rw [put_walk, put_trail]
    split
    · rfl
    · cases hseg : next_segment sofar walk with
      | error f => rfl
      | ok r =>
        obtain ⟨sofar2, walk1⟩ := r
        simp only []
        rw [ih]
        cases put_trail fuel sofar2 walk1 with
        | error f => rfl
        | ok t => rfl

theorem next_segment_length {sofar walk sofar2 walk1 : List Char}
    (h : next_segment sofar walk = .ok (sofar2, walk1)) (hs : sofar.length ≤ 255) :
    sofar2.length ≤ 255 := by
  unfold next_segment at h
  simp only [] at h
  split at h
  · cases h
  · simp only [Except.ok.injEq, Prod.mk.injEq] at h
    rw [← h.1]
    have h1 : ("/".toList).length = 1 := rfl
    simp only [strncat, List.length_append, List.length_take]
    split
    · simp only [List.length_append, List.length_take, h1]
      omega
    · omega

theorem strchr_lt {s : List Char} {c : Char} {i : Nat} (h : strchr s c = some i) :
    i < s.length := by
  induction s generalizing i with
  | nil => simp [strchr] at h
  | cons x xs ih =>
    by_cases hx : x = c
    · simp [strchr, hx] at h
      subst h
      simp
    · simp [strchr, hx] at h
      obtain ⟨j, hj, rfl⟩ := h
      have := ih hj
      simp
      omega

theorem next_segment_walk {sofar walk sofar2 walk1 : List Char}
    (h : next_segment sofar walk = .ok (sofar2, walk1)) (hw : walk ≠ []) :
    walk1.length < walk.length := by
  unfold next_segment at h
  simp only [] at h
  split at h
  · cases h
  · simp only [Except.ok.injEq, Prod.mk.injEq] at h
    rw [← h.2]
    have hpos : 0 < walk.length := List.length_pos.mpr hw
    cases hc : strchr walk '/' with
    | none => simpa using hpos
    | some i =>
      have := strchr_lt hc
      simp only [List.length_drop]
      omega

/-- Fuel beyond the length of the remaining path changes nothing: the loop has ended by then. -/
theorem put_trail_fuel (fuel : Nat) (sofar walk : List Char) (h : walk.length ≤ fuel) :
    put_trail fuel sofar walk = put_trail walk.length sofar walk := by
  induction fuel using Nat.strong_induction_on generalizing sofar walk with
  | _ fuel ih =>
    cases fuel with
    | zero =>
      have : walk.length = 0 := by omega
      rw [this]
    | succ fuel =>
      cases walk with
      | nil => simp [put_trail]
      | cons c w =>
        rw [List.length_cons, put_trail, put_trail]
        simp only [reduceCtorEq, if_false]
        cases hseg : next_segment sofar (c :: w) with
        | error f => rfl
        | ok r =>
          obtain ⟨sofar2, walk1⟩ := r
          have hlt := next_segment_walk hseg (by simp)
          simp only [List.length_cons] at hlt h
          simp only []
          rw [ih fuel (by omega) sofar2 walk1 (by omega),
            ih w.length (by omega) sofar2 walk1 (by omega)]

theorem put_trail_length {fuel : Nat} {sofar walk : List Char} {t : List (List Char)}
    (h : put_trail fuel sofar walk = .ok t) (hs : sofar.length ≤ 255) :
    ∀ p ∈ t, p.length ≤ 255 := by
  induction fuel generalizing sofar walk t with
  | zero =>
    simp [put_trail] at h
    subst h
    simp
  | succ fuel ih =>
    rw [put_trail] at h
    split at h
    · cases h; simp
    · cases hseg : next_segment sofar walk with
      | error f => rw [hseg] at h; cases h
      | ok r =>
        obtain ⟨sofar2, walk1⟩ := r
        rw [hseg] at h
        simp only [] at h
        have h2 := next_segment_length hseg hs
        cases ht : put_trail fuel sofar2 walk1 with
        | error f => rw [ht] at h; cases h
        | ok t1 =>
          rw [ht] at h
          cases h
          intro p hp
          rcases List.mem_cons.mp hp with rfl | hp
          · exact h2
          · exact ih ht h2 p hp

theorem put_resolve_eq (s : Store) (p : List Char) :
    put_resolve s p =
      (put_trail (walk_start p).length "/".toList (walk_start p)).map
        (fun t => t.foldl visit (s, 0)) :=
  put_walk_eq_foldl _ s 0 _ _

/-! ### Only PUT changes the store -/

/-- The request `PUT /a/b k=v` takes the initial store to `store_ab`. -/
theorem reachable_store_ab : Reachable store_ab :=
  Reachable.step init_store "PUT /a/b k=v\n".toList
    { store := store_ab, ccontinuation := true,
      out := "OK: Key 'k' created in path '/a/b'.\n> ".toList }
    Reachable.init (by decide) (by decide) (by decide)

theorem paths_create_node (s : Store) (cur : Nat) (p : List Char) (hp : p.length ≤ 255) :
    (create_node s cur p).1.chain.map Node.path =
      (s.chain.map Node.path).take (cur + 1) ++ [p] := by
  rw [chain_create_node]
  simp [List.map_take, List.take_of_length_le hp]

theorem paths_create_leaf (s : Store) (n : Nat) (k v : List Char) (c : Nat) :
    (create_leaf s n k v c).1.chain.map Node.path = s.chain.map Node.path := by
  unfold create_leaf
  simp only []
  split <;> exact paths_setEast _ _ _

theorem paths_put_leaf (s : Store) (cc : Bool) (cur : Nat) (k v : List Char) (c : Nat) :
    (put_leaf s cc cur k v c).store.chain.map Node.path = s.chain.map Node.path := by
  unfold put_leaf
  simp only []
  split
  · exact paths_setEast _ _ _
  · exact paths_create_leaf _ _ _ _ _

theorem visit_nodup {st : Store × Nat} {p : List Char} (hp : p.length ≤ 255)
    (h : (st.1.chain.map Node.path).Nodup) : ((visit st p).1.chain.map Node.path).Nodup := by
  unfold visit
  cases hf : find_node_linear st.1 p with
  | some found => exact h
  | none =>
    simp only []
    rw [paths_create_node _ _ _ hp]
    have hnot : p ∉ st.1.chain.map Node.path := find_node_in_none.mp hf
    rw [List.nodup_append]
    refine ⟨(List.take_sublist _ _).nodup h, List.nodup_singleton _, ?_⟩
    intro x hx hx'
    rw [List.mem_singleton] at hx'
    subst hx'
    exact hnot (List.mem_of_mem_take hx)

theorem foldl_visit_nodup (t : List (List Char)) (st : Store × Nat)
    (ht : ∀ p ∈ t, p.length ≤ 255) (h : (st.1.chain.map Node.path).Nodup) :
    ((t.foldl visit st).1.chain.map Node.path).Nodup := by
  induction t generalizing st with
  | nil => exact h
  | cons p t ih =>
    rw [List.foldl_cons]
    exact ih _ (fun q hq => ht q (List.mem_cons_of_mem _ hq))
      (visit_nodup (ht p (List.mem_cons_self _ _)) h)

/-- A PUT that returns was either rejected, leaving the store as it was, or
resolved its path and wrote the leaf. -/
theorem handle_put_ok {s : Store} {cc : Bool} {p kv : List Char} {r : Result}
    (h : handle_put s cc p kv = .ok r) :
    (r.store = s ∧ r.status = FAILURE) ∨
    ∃ t k v c, put_trail (walk_start p).length "/".toList (walk_start p) = .ok t ∧
      r = put_leaf (t.foldl visit (s, 0)).1 cc (t.foldl visit (s, 0)).2 k v c := by
  unfold handle_put at h
  split at h
  · cases h; exact Or.inl ⟨rfl, rfl⟩
  · split at h
    · cases h; exact Or.inl ⟨rfl, rfl⟩
    · simp only [] at h
      split at h
      · cases h; exact Or.inl ⟨rfl, rfl⟩
      · rw [put_resolve_eq] at h
        cases ht : put_trail (walk_start p).length "/".toList (walk_start p) with
        | error f => rw [ht] at h; cases h
        | ok t =>
          rw [ht] at h
          simp only [Except.map] at h
          cases h
          exact Or.inr ⟨t, _, _, _, rfl, rfl⟩

theorem handle_put_nodup {s : Store} {cc : Bool} {p kv : List Char} {r : Result}
    (h : handle_put s cc p kv = .ok r) (hs : (s.chain.map Node.path).Nodup) :
    (r.store.chain.map Node.path).Nodup := by
  rcases handle_put_ok h with ⟨h1, _⟩ | ⟨t, k, v, c, ht, rfl⟩
  · rw [h1]; exact hs
  · rw [paths_put_leaf]
    exact foldl_visit_nodup t (s, 0) (put_trail_length ht (by decide)) hs

theorem getcmd_cases {cmd : List Char} {h : Callback} (hc : getcmd cmd = some h) :
    h = handle_hello ∨ h = handle_get ∨ h = handle_put ∨ h = handle_cd ∨ h = handle_ls ∨
      h = handle_quit ∨ h = handle_print_tree := by
  simp only [getcmd, handlers, getcmd_in] at hc
  repeat' split at hc
  all_goals (cases hc <;> simp)

theorem handle_cd_store {s : Store} {cc : Bool} {a b : List Char} {r : Result}
    (h : handle_cd s cc a b = .ok r) : r.store = s := by
  unfold handle_cd at h
  split at h
  · cases h; rfl
  · split at h <;> (cases h; rfl)

theorem handle_ls_store {s : Store} {cc : Bool} {a b : List Char} {r : Result}
    (h : handle_ls s cc a b = .ok r) : r.store = s := by
  dsimp only [handle_ls] at h
  generalize (if a.length = 0 then some 0 else find_node_linear s a) = t at h
  cases t <;> (cases h; rfl)

theorem handle_print_tree_store {s : Store} {cc : Bool} {a b : List Char} {r : Result}
    (h : handle_print_tree s cc a b = .ok r) : r.store = s := by
  unfold handle_print_tree at h
  split at h
  · cases h
  · cases h; rfl

/-- A round of the command loop leaves the store alone or is a PUT on it. -/
theorem childloop_step_store {s : Store} {bytes : List Char} {r : Round}
    (h : childloop_step s bytes = .ok r) :
    r.store = s ∨ ∃ p kv r', handle_put s true p kv = .ok r' ∧ r.store = r'.store := by
  unfold childloop_step at h
  simp only [] at h
  split at h
  · cases h; exact Or.inl rfl
  · split at h
    · rename_i hf hc
      split at h
      · cases h
      · rename_i r' hr
        cases h
        simp only []
        rcases getcmd_cases hc with e | e | e | e | e | e | e <;> subst e
        · cases hr; exact Or.inl rfl
        · exact Or.inl (handle_get_store hr).1
        · exact Or.inr ⟨_, _, _, hr, rfl⟩
        · exact Or.inl (handle_cd_store hr)
        · exact Or.inl (handle_ls_store hr)
        · cases hr; exact Or.inl rfl
        · exact Or.inl (handle_print_tree_store hr)
    · cases h; exact Or.inl rfl

theorem reachable_nodup_paths {s : Store} (h : Reachable s) :
    (s.chain.map Node.path).Nodup := by
  induction h with
  | init => decide
  | step s bytes r _ _ _ hstep ih =>
    rcases childloop_step_store hstep with e | ⟨p, kv, r', hput, e⟩
    · rw [e]; exact ih
    · rw [e]; exact handle_put_nodup hput ih

/-- Claim C7 (path uniqueness): in every store reachable from the initial store
by rounds of the command loop, the stored paths of the nodes of the chain
from root are pairwise distinct, so the node `find_node_linear` returns for a
path is the only node of the chain with that stored path. -/
theorem reachable_paths_distinct (s : Store) (h : Reachable s) :
    (s.chain.map Node.path).Nodup ∧
    ∀ p i j nd, find_node_linear s p = some i → s.chain[j]? = some nd → nd.path = p → j = i := by
  have hnd : (s.chain.map Node.path).Nodup := reachable_nodup_paths h
  refine ⟨hnd, ?_⟩
  intro p i j nd hi hj hp
  obtain ⟨ndi, h1, h2⟩ := find_node_in_some hi
  by_contra hne
  have hlt : i < j ∨ j < i := by omega
  have hil : i < (s.chain.map Node.path).length := by
    simpa using find_node_in_lt hi
  have hjl : j < (s.chain.map Node.path).length := by
    by_contra hc
    simp only [List.length_map, not_lt] at hc
    rw [List.getElem?_eq_none hc] at hj
    cases hj
  have e1 : (s.chain.map Node.path)[i]? = some p := by simp [h1, h2]
  have e2 : (s.chain.map Node.path)[j]? = some p := by simp [hj, hp]
  rcases hlt with hlt | hlt
  · exact List.nodup_iff_getElem?_ne_getElem?.mp hnd i j hlt hjl (e1.trans e2.symm)
  · exact List.nodup_iff_getElem?_ne_getElem?.mp hnd j i hlt hil (e2.trans e1.symm)

/-- Claim C7 at the store a connection holds after `PUT /a/b k=v`. -/
theorem reachable_paths_distinct_witness :
    (store_ab.chain.map Node.path).Nodup ∧
    ∀ p i j nd, find_node_linear store_ab p = some i → store_ab.chain[j]? = some nd →
      nd.path = p → j = i :=
  reachable_paths_distinct store_ab reachable_store_ab

/-! ### The accumulated paths of a well-formed path -/

theorem strchr_split {s : List Char} {c : Char} {i : Nat} (h : strchr s c = some i) :
    s = s.take i ++ c :: s.drop (i + 1) ∧ c ∉ s.take i := by
  induction s generalizing i with
  | nil => simp [strchr] at h
  | cons x xs ih =>
    by_cases hx : x = c
    · simp [strchr, hx] at h
      subst h
      simp [hx]
    · simp [strchr, hx] at h
      obtain ⟨j, hj, rfl⟩ := h
      obtain ⟨h1, h2⟩ := ih hj
      refine ⟨?_, ?_⟩
      · simp only [List.take_succ_cons, List.drop_succ_cons, List.cons_append]
        rw [← h1]
      · simp only [List.take_succ_cons, List.mem_cons, not_or]
        exact ⟨fun e => hx e.symm, h2⟩

theorem with_slash_root : with_slash "/".toList = "/".toList := rfl

theorem with_slash_long {sofar : List Char} (h : sofar.length > 1) :
    with_slash sofar = sofar ++ "/".toList := by
  simp [with_slash, h]

theorem next_segment_last {sofar walk : List Char} (hw : walk.length < 256)
    (hs : (sofar = "/".toList) ∨ sofar.length > 1)
    (hlen : (with_slash sofar ++ walk).length ≤ 255) (hc : strchr walk '/' = none) :
    next_segment sofar walk = .ok (with_slash sofar ++ walk, []) := by
  unfold next_segment
  simp only [hc]
  rw [if_neg (by omega)]
  simp only [List.take_length, Except.ok.injEq, Prod.mk.injEq, and_true]
  rcases hs with rfl | hs
  · simp only [with_slash, strncat] at hlen ⊢
    simp at hlen ⊢
    omega
  · simp only [with_slash, hs, if_true, List.length_append] at hlen ⊢
    have h1 : ("/".toList).length = 1 := rfl
    rw [h1] at hlen
    simp only [strncat, hs, true_or, if_true]
    rw [List.take_of_length_le (l := "/".toList) (by rw [h1]; omega)]
    rw [List.take_of_length_le (l := walk)
      (by simp only [List.length_append, h1]; omega)]

theorem next_segment_slash {sofar walk : List Char} {i : Nat}
    (hs : (sofar = "/".toList) ∨ sofar.length > 1)
    (hlen : (with_slash sofar ++ walk).length ≤ 255) (hc : strchr walk '/' = some i) :
    next_segment sofar walk = .ok (with_slash sofar ++ walk.take i, walk.drop (i + 1)) := by
  have hi := strchr_lt hc
  have hwl : walk.length ≤ 255 := by
    simp only [List.length_append] at hlen; omega
  unfold next_segment
  simp only [hc]
  rw [if_neg (by omega)]
  simp only [Except.ok.injEq, Prod.mk.injEq, and_true]
  have h1 : ("/".toList).length = 1 := rfl
  rcases hs with rfl | hs
  · simp only [with_slash, strncat] at hlen ⊢
    simp at hlen ⊢
    omega
  · simp only [with_slash, hs, if_true, List.length_append] at hlen ⊢
    rw [h1] at hlen
    simp only [strncat, hs, true_or, if_true]
    rw [List.take_of_length_le (l := "/".toList) (by rw [h1]; omega)]
    rw [List.take_of_length_le (l := walk.take i)
      (by simp only [List.length_append, List.length_take, h1]; omega)]

theorem put_trail_last (fuel : Nat) (sofar walk : List Char) (hf : walk.length ≤ fuel)
    (hw : walk ≠ []) (hl : walk.getLast? ≠ some '/')
    (hs : (sofar = "/".toList ∧ walk.head? ≠ some '/') ∨ sofar.length > 1)
    (hlen : (with_slash sofar ++ walk).length ≤ 255) :
    ∃ t, put_trail fuel sofar walk = .ok t ∧ t.getLast? = some (with_slash sofar ++ walk) := by
  induction fuel generalizing sofar walk with
  | zero =>
    exfalso
    exact hw (List.length_eq_zero.mp (by omega))
  | succ fuel ih =>
    have hs' : (sofar = "/".toList) ∨ sofar.length > 1 := hs.imp (fun h => h.1) id
    have hwl : walk.length ≤ 255 := by
      simp only [List.length_append] at hlen; omega
    rw [put_trail, if_neg hw]
    cases hc : strchr walk '/' with
    | none =>
      rw [next_segment_last (by omega) hs' hlen hc]
      refine ⟨[with_slash sofar ++ walk], ?_, rfl⟩
      cases fuel <;> simp [put_trail]
    | some i =>
      rw [next_segment_slash hs' hlen hc]
      obtain ⟨hsplit, hnot⟩ := strchr_split hc
      have hi := strchr_lt hc
      -- the text behind the slash
      have hrest : walk.drop (i + 1) ≠ [] := by
        intro e
        rw [e] at hsplit
        apply hl
        rw [hsplit]
        simp
      have hrl : (walk.drop (i + 1)).getLast? ≠ some '/' := by
        intro e
        apply hl
        rw [hsplit, List.getLast?_append, List.getLast?_cons]
        rw [List.getLast?_eq_getLast _ hrest] at e ⊢
        simpa using e
      have hlong : (with_slash sofar ++ walk.take i).length > 1 := by
        rcases hs with ⟨rfl, hh⟩ | hs
        · have : walk.take i ≠ [] := by
            intro e
            rw [e] at hsplit
            apply hh
            rw [hsplit]
            rfl
          have := List.length_pos.mpr this
          rw [with_slash_root, List.length_append]
          have h1 : ("/".toList).length = 1 := rfl
          omega
        · rw [with_slash_long hs]
          simp only [List.length_append]
          omega
      have hlen2 : (with_slash (with_slash sofar ++ walk.take i) ++ walk.drop (i + 1)).length
          ≤ 255 := by
        have e : (with_slash sofar ++ walk).length =
            (with_slash sofar).length + ((walk.take i).length + (1 + (walk.drop (i + 1)).length)) := by
          conv_lhs => rw [hsplit]
          simp only [List.length_append, List.length_cons]
          omega
        rw [e] at hlen
        have h1 : ("/".toList).length = 1 := rfl
        rw [with_slash_long hlong]
        simp only [List.length_append, h1]
        omega
      obtain ⟨t, ht, hlast⟩ := ih (with_slash sofar ++ walk.take i) (walk.drop (i + 1))
        (by simp only [List.length_drop]; omega) hrest hrl (Or.inr hlong) hlen2
      refine ⟨(with_slash sofar ++ walk.take i) :: t, ?_, ?_⟩
      · simp only [ht]
      · rw [List.getLast?_cons, hlast]
        simp only [Option.getD_some, Option.some.injEq]
        rw [with_slash_long hlong]
        conv_rhs => rw [hsplit]
        simp

/-- The accumulated paths that PUT looks up for a well-formed path of at most 255 bytes end with the path itself. -/
theorem put_trail_abs {p : List Char} (hp : AbsPath p) (hlen : p.length ≤ 255) :
    ∃ t, put_trail (walk_start p).length "/".toList (walk_start p) = .ok t ∧
      t.getLast?.getD "/".toList = p := by
  obtain ⟨hhead, htail⟩ := hp
  cases p with
  | nil => simp at hhead
  | cons c rest =>
    simp only [List.head?_cons, Option.some.injEq] at hhead
    subst hhead
    simp only [List.tail_cons] at htail
    have hws : walk_start ('/' :: rest) = rest := by simp [walk_start]
    rw [hws]
    rcases htail with rfl | ⟨h1, h2⟩
    · exact ⟨[], rfl, rfl⟩
    · by_cases hne : rest = []
      · subst hne
        exact ⟨[], rfl, rfl⟩
      · obtain ⟨t, ht, hlast⟩ := put_trail_last rest.length "/".toList rest (le_refl _) hne h2
          (Or.inl ⟨rfl, h1⟩) (by rw [with_slash_root]; simpa using hlen)
        refine ⟨t, ht, ?_⟩
        rw [hlast, with_slash_root]
        rfl

/-! ### Where PUT stores the leaf -/

theorem chain_length_create_node {s : Store} {cur : Nat} (p : List Char)
    (h : cur < s.chain.length) : (create_node s cur p).1.chain.length = cur + 2 := by
  rw [chain_create_node]
  simp only [List.length_append, List.length_take, List.length_singleton]
  omega

theorem find_node_linear_create_node {s : Store} {cur : Nat} {p : List Char}
    (hcur : cur < s.chain.length) (hp : p.length ≤ 255) (hf : find_node_linear s p = none) :
    find_node_linear (create_node s cur p).1 p = some (cur + 1) := by
  unfold find_node_linear
  rw [chain_create_node]
  have hnot : p ∉ s.chain.map Node.path := find_node_in_none.mp hf
  have h1 : find_node_in (s.chain.take (cur + 1)) p = none := by
    rw [find_node_in_none, List.map_take]
    exact fun e => hnot (List.mem_of_mem_take e)
  have h2 := @find_node_in_append_right (s.chain.take (cur + 1))
    { tag := TagNode, north := cur, east := [], path := p.take 255 } p h1
    (List.take_of_length_le hp)
  rw [h2]
  simp only [List.length_take, Option.some.injEq]
  omega

/-- After visiting a path, the node it stands at is the one the path resolves to. -/
theorem visit_find {st : Store × Nat} {p : List Char} (hp : p.length ≤ 255)
    (hcur : st.2 < st.1.chain.length) :
    find_node_linear (visit st p).1 p = some (visit st p).2 := by
  unfold visit
  cases hf : find_node_linear st.1 p with
  | some found => exact hf
  | none => exact find_node_linear_create_node hcur hp hf

theorem foldl_visit_find (t : List (List Char)) (st : Store × Nat) (p0 : List Char)
    (ht : ∀ p ∈ t, p.length ≤ 255) (h : find_node_linear st.1 p0 = some st.2) :
    find_node_linear (t.foldl visit st).1 (t.getLast?.getD p0) = some (t.foldl visit st).2 := by
  induction t generalizing st p0 with
  | nil => exact h
  | cons p t ih =>
    rw [List.foldl_cons, List.getLast?_cons]
    exact ih (visit st p) p (fun q hq => ht q (List.mem_cons_of_mem _ hq))
      (visit_find (ht p (List.mem_cons_self _ _)) (find_node_linear_lt h))

theorem find_node_linear_root (s : Store) : find_node_linear s "/".toList = some 0 := by
  simp [find_node_linear, Store.chain, find_node_in, Store.root]

theorem nodeAt_setEast_same {s : Store} {n : Nat} (f : List Leaf → List Leaf)
    (h : n < s.chain.length) :
    (s.setEast n f).nodeAt n = { s.nodeAt n with east := f (s.nodeAt n).east } := by
  have hn : s.chain[n]? = some (s.chain[n]) := List.getElem?_eq_getElem h
  rw [nodeAt_eq hn]
  apply nodeAt_eq
  rw [chain_setEast, List.getElem?_modify, hn]
  simp

theorem nodeAt_setEast_other {s : Store} {n m : Nat} (f : List Leaf → List Leaf)
    (h : n ≠ m) (hm : m < s.chain.length) : (s.setEast n f).nodeAt m = s.nodeAt m := by
  have hn : s.chain[m]? = some (s.chain[m]) := List.getElem?_eq_getElem hm
  rw [nodeAt_eq hn]
  apply nodeAt_eq
  rw [chain_setEast, List.getElem?_modify, hn]
  simp [h]

theorem modify_congr {α : Type} (f g : α → α) (l : List α) (n : Nat)
    (h : ∀ a, l[n]? = some a → f a = g a) : l.modify f n = l.modify g n := by
  induction l generalizing n with
  | nil => simp
  | cons a l ih =>
    cases n with
    | zero => simp [h a (by simp)]
    | succ k =>
      simp only [List.modify_succ_cons, List.cons.injEq, true_and]
      exact ih k (fun b hb => h b (by simpa using hb))

theorem setEast_congr {s : Store} {n : Nat} (f g : List Leaf → List Leaf)
    (hn : n < s.chain.length) (h : f (s.nodeAt n).east = g (s.nodeAt n).east) :
    s.setEast n f = s.setEast n g := by
  cases n with
  | zero =>
    simp only [Store.setEast]
    have : (s.nodeAt 0).east = s.east := rfl
    rw [this] at h
    rw [h]
  | succ k =>
    simp only [Store.setEast]
    congr 1
    apply modify_congr
    intro a ha
    have : s.nodeAt (k + 1) = a := nodeAt_eq (by simpa [Store.chain] using ha)
    rw [this] at h
    rw [h]

theorem find_leaf_in_some {e : List Leaf} {k : List Char} {i : Nat}
    (h : find_leaf_in e k = some i) : ∃ l, e[i]? = some l ∧ l.key = k := by
  induction e generalizing i with
  | nil => simp [find_leaf_in] at h
  | cons a e ih =>
    by_cases hk : a.key = k
    · simp [find_leaf_in, hk] at h
      subst h
      exact ⟨a, by simp, hk⟩
    · simp [find_leaf_in, hk] at h
      obtain ⟨j, hj, rfl⟩ := h
      obtain ⟨l, h1, h2⟩ := ih hj
      exact ⟨l, by simpa using h1, h2⟩

theorem find_last_in_some {e : List Leaf} {i : Nat} (h : find_last_in e = some i) :
    i + 1 = e.length := by
  induction e generalizing i with
  | nil => simp [find_last_in] at h
  | cons a e ih =>
    cases e with
    | nil =>
      simp [find_last_in] at h
      subst h
      rfl
    | cons b e =>
      simp [find_last_in] at h
      obtain ⟨j, hj, rfl⟩ := h
      have := ih hj
      simp only [List.length_cons] at this ⊢
      omega

theorem find_last_in_none {e : List Leaf} (h : find_last_in e = none) : e = [] := by
  cases e with
  | nil => rfl
  | cons a e =>
    exfalso
    induction e generalizing a with
    | nil => simp [find_last_in] at h
    | cons b e ih =>
      simp [find_last_in] at h
      exact ih b h

theorem create_leaf_eq (s : Store) (n : Nat) (k v : List Char) (c : Nat)
    (hn : n < s.chain.length) :
    (create_leaf s n k v c).1 = s.setEast n (fun e => e ++ [new_leaf s n k v c]) := by
  unfold create_leaf
  simp only []
  cases hl : find_last_linear s n with
  | none =>
    simp only []
    apply setEast_congr _ _ hn
    have he : (s.nodeAt n).east = [] := find_last_in_none hl
    simp [he, new_leaf, hl]
  | some i =>
    simp only []
    apply setEast_congr _ _ hn
    have he : i + 1 = (s.nodeAt n).east.length := find_last_in_some hl
    simp [he, new_leaf, hl]

theorem abs_path_ne_nil {p : List Char} (hp : AbsPath p) : p ≠ [] := by
  intro e
  subst e
  simp [AbsPath] at hp

theorem modify_eq_set {α : Type} {l : List α} {i : Nat} {a : α} (f : α → α)
    (h : l[i]? = some a) : l.modify f i = l.set i (f a) := by
  induction l generalizing i with
  | nil => simp at h
  | cons b l ih =>
    cases i with
    | zero =>
      simp at h
      subst h
      rfl
    | succ j =>
      simp only [List.modify_succ_cons, List.set_cons_succ, List.cons.injEq, true_and]
      exact ih (by simpa using h)

/-- An accepted PUT: the payload splits at the first `=`, the path is resolved, the leaf written. -/
theorem handle_put_accepted (s : Store) (cc : Bool) (p k v : List Char) (hp : p ≠ [])
    (hk : k ≠ []) (hke : '=' ∉ k) (hv : v.length % 2 ^ 16 ≠ 0) :
    handle_put s cc p (k ++ '=' :: v) =
      match put_resolve s p with
      | .error f => .error f
      | .ok (s1, cur) => .ok (put_leaf s1 cc cur k v (v.length % 2 ^ 16)) := by
  have h0 : ¬ (p.length = 0 ∨ (k ++ '=' :: v).length = 0) := by
    simp [hp]
  have h1 : ¬ (k.length = 0 ∨ v.length % 2 ^ 16 = 0) := by
    rintro (h | h)
    · exact hk (List.length_eq_zero.mp h)
    · exact hv h
  have e1 : List.take k.length (k ++ '=' :: v) = k := by simp
  have e2 : List.drop (k.length + 1) (k ++ '=' :: v) = v := by
    rw [← List.drop_drop]
    simp
  rw [handle_put, if_neg h0, strchr_append v hke]
  simp only [e1, e2]
  simp only [if_neg h1]

/-- What `put_leaf` does to the node its path resolves to. -/
theorem put_leaf_writes {s1 : Store} {n : Nat} {p : List Char} (cc : Bool) (k v : List Char)
    (c : Nat) (hfind : find_node_linear s1 p = some n) :
    (put_leaf s1 cc n k v c).status = 0 ∧
    (put_leaf s1 cc n k v c).ccontinuation = cc ∧
    ((∃ i l, find_leaf_in (s1.nodeAt n).east k = some i ∧ (s1.nodeAt n).east[i]? = some l ∧
        l.key = k ∧
        (put_leaf s1 cc n k v c).store =
          s1.setEast n (fun e => e.set i { l with value := strncpy v c ++ [NUL], size := c }) ∧
        (put_leaf s1 cc n k v c).out =
          "OK: Key '".toList ++ k ++ "' updated in path '".toList ++ p ++ "'.\n".toList) ∨
     (find_leaf_in (s1.nodeAt n).east k = none ∧
        (put_leaf s1 cc n k v c).store = s1.setEast n (fun e => e ++ [new_leaf s1 n k v c]) ∧
        (put_leaf s1 cc n k v c).out =
          "OK: Key '".toList ++ k ++ "' created in path '".toList ++ p ++ "'.\n".toList)) := by
  have hpath : (s1.nodeAt n).path = p := find_node_linear_path hfind
  have hn : n < s1.chain.length := find_node_linear_lt hfind
  cases hl : find_leaf_in (s1.nodeAt n).east k with
  | none =>
    have e : put_leaf s1 cc n k v c =
        { store := (create_leaf s1 n k v c).1, ccontinuation := cc,
          out := "OK: Key '".toList ++ k ++ "' created in path '".toList ++ p ++ "'.\n".toList,
          status := 0 } := by
      simp [put_leaf, hpath, find_leaf_linear, hfind, hl]
    rw [e]
    exact ⟨rfl, rfl, Or.inr ⟨rfl, create_leaf_eq s1 n k v c hn, rfl⟩⟩
  | some i =>
    obtain ⟨l, hl1, hl2⟩ := find_leaf_in_some hl
    have e : put_leaf s1 cc n k v c =
        { store := s1.setEast n (fun e =>
            e.modify (fun l => { l with value := strncpy v c ++ [NUL], size := c }) i),
          ccontinuation := cc,
          out := "OK: Key '".toList ++ k ++ "' updated in path '".toList ++ p ++ "'.\n".toList,
          status := 0 } := by
      simp [put_leaf, hpath, find_leaf_linear, hfind, hl]
    rw [e]
    refine ⟨rfl, rfl, Or.inl ⟨i, l, rfl, hl1, hl2, ?_, rfl⟩⟩
    apply setEast_congr _ _ hn
    exact modify_eq_set _ hl1

/-! ### C4: the node a PUT resolves its path to -/

/-- Claim C4, amended (the node a PUT resolves its path to): for a path of at
most 255 bytes that starts with a slash and behind it is empty or neither
starts nor ends with a slash, and a payload `k=v` with a non-empty key and a
value whose 16-bit length is not zero, `handle_put` succeeds; the node its
path walk ends at, under which the leaf is stored, has the path as its stored
path, and `find_node_linear` of the path returns that node after the PUT. -/
theorem put_stores_under_well_formed_path (s : Store) (cc : Bool) (p k v : List Char)
    (hp : AbsPath p) (hlen : p.length ≤ 255) (hk : k ≠ []) (hke : '=' ∉ k)
    (hv : v.length % 2 ^ 16 ≠ 0) :
    ∃ s1 n r, put_resolve s p = .ok (s1, n) ∧
      handle_put s cc p (k ++ '=' :: v) = .ok r ∧
      r = put_leaf s1 cc n k v (v.length % 2 ^ 16) ∧ r.status = 0 ∧
      (r.store.nodeAt n).path = p ∧ find_node_linear r.store p = some n ∧
      ∃ l ∈ (r.store.nodeAt n).east,
        (l.key = k ∨ l.key = k.take 127) ∧ l.size = v.length % 2 ^ 16 := by
  obtain ⟨t, ht, hlast⟩ := put_trail_abs hp hlen
  have hres : put_resolve s p = .ok (t.foldl visit (s, 0)) := by
    rw [put_resolve_eq, ht]
    rfl
  have hfind : find_node_linear (t.foldl visit (s, 0)).1 p = some (t.foldl visit (s, 0)).2 := by
    have := foldl_visit_find t (s, 0) "/".toList (put_trail_length ht (by decide))
      (find_node_linear_root s)
    rwa [hlast] at this
  generalize t.foldl visit (s, 0) = st at hres hfind
  obtain ⟨s1, n⟩ := st
  simp only [] at hfind
  have hn : n < s1.chain.length := find_node_linear_lt hfind
  refine ⟨s1, n, put_leaf s1 cc n k v (v.length % 2 ^ 16), hres, ?_, rfl, ?_⟩
  · rw [handle_put_accepted s cc p k v (abs_path_ne_nil hp) hk hke hv, hres]
  · obtain ⟨hst, _, hw⟩ := put_leaf_writes cc k v (v.length % 2 ^ 16) hfind
    refine ⟨hst, ?_⟩
    rcases hw with ⟨i, l, _, hl1, hl2, hstore, _⟩ | ⟨_, hstore, _⟩
    · rw [hstore]
      refine ⟨?_, ?_, ?_⟩
      · rw [nodeAt_setEast_same _ hn]
        exact find_node_linear_path hfind
      · rw [find_node_linear_setEast]
        exact hfind
      · rw [nodeAt_setEast_same _ hn]
        refine ⟨{ l with value := strncpy v (v.length % 2 ^ 16) ++ [NUL],
                         size := v.length % 2 ^ 16 }, ?_, Or.inl hl2, rfl⟩
        simp only []
        have hi : i < (s1.nodeAt n).east.length := by
          by_contra hc
          rw [List.getElem?_eq_none (by omega)] at hl1
          cases hl1
        exact List.mem_iff_getElem?.mpr ⟨i, by simp [List.getElem?_set, hi]⟩
    · rw [hstore]
      refine ⟨?_, ?_, ?_⟩
      · rw [nodeAt_setEast_same _ hn]
        exact find_node_linear_path hfind
      · rw [find_node_linear_setEast]
        exact hfind
      · rw [nodeAt_setEast_same _ hn]
        exact ⟨new_leaf s1 n k v (v.length % 2 ^ 16), by simp, Or.inr rfl, rfl⟩

/-- Claim C4, amended, at `PUT /a/b k=v1` on the initial store. -/
theorem put_stores_under_well_formed_path_witness :
    ∃ s1 n r, put_resolve init_store "/a/b".toList = .ok (s1, n) ∧
      handle_put init_store true "/a/b".toList ("k".toList ++ '=' :: "v1".toList) = .ok r ∧
      r = put_leaf s1 true n "k".toList "v1".toList ("v1".toList.length % 2 ^ 16) ∧
      r.status = 0 ∧
      (r.store.nodeAt n).path = "/a/b".toList ∧
      find_node_linear r.store "/a/b".toList = some n ∧
      ∃ l ∈ (r.store.nodeAt n).east,
        (l.key = "k".toList ∨ l.key = "k".toList.take 127) ∧
          l.size = "v1".toList.length % 2 ^ 16 :=
  put_stores_under_well_formed_path init_store true "/a/b".toList "k".toList "v1".toList
    (by decide) (by decide) (by decide) (by decide) (by decide)

/-- Claim C4 as stated fails for a path without leading slash: `PUT a k=v` on
the initial store is accepted, its path walk ends at position 1, the node
there has the stored path `/a` and holds the leaf, and `find_node_linear` of
`a` finds nothing after the PUT. -/
theorem put_relative_path_stores_elsewhere :
    put_resolve init_store "a".toList =
      .ok ({ east := [], west := [{ tag := 2, north := 0, east := [], path := "/a".toList }] }, 1) ∧
    (handle_put init_store true "a".toList "k=v".toList).map
        (fun r => (r.status, (r.store.nodeAt 1).path, (r.store.nodeAt 1).east.map Leaf.key,
          find_node_linear r.store "a".toList)) =
      .ok (0, "/a".toList, ["k".toList], none) := by
  decide

/-! ### C5: which nodes survive a PUT -/

/-- Visiting paths that all resolve creates no node. -/
theorem foldl_visit_found (t : List (List Char)) (s : Store) (cur : Nat)
    (h : ∀ q ∈ t, find_node_linear s q ≠ none) : (t.foldl visit (s, cur)).1 = s := by
  induction t generalizing cur with
  | nil => rfl
  | cons p t ih =>
    rw [List.foldl_cons]
    cases hf : find_node_linear s p with
    | none => exact absurd hf (h p (List.mem_cons_self _ _))
    | some n =>
      have e : visit (s, cur) p = (s, n) := by simp [visit, hf]
      rw [e]
      exact ih n (fun q hq => h q (List.mem_cons_of_mem _ hq))

theorem find_node_in_ge_of_not_mem {l l' : List Node} {p : List Char} {m : Nat}
    (hl : find_node_in l p = none) (h : find_node_in (l ++ l') p = some m) : l.length ≤ m := by
  induction l generalizing m with
  | nil => simp
  | cons a l ih =>
    by_cases ha : a.path = p
    · simp [find_node_in, ha] at hl
    · simp [find_node_in, ha] at hl h
      obtain ⟨j, hj, rfl⟩ := h
      have := ih hl hj
      simp only [List.length_cons]
      omega

/-- Visiting a path that the old chain does not hold keeps the old chain in
front, as long as the walk stands at its last node or behind it. -/
theorem visit_extends {s : Store} {st : Store × Nat} {p : List Char}
    (hchain : ∃ news, st.1.chain = s.chain ++ news) (hcur : s.chain.length ≤ st.2 + 1)
    (hlt : st.2 < st.1.chain.length) (hp : find_node_linear s p = none) :
    (∃ news, (visit st p).1.chain = s.chain ++ news) ∧
      s.chain.length ≤ (visit st p).2 + 1 ∧ (visit st p).2 < (visit st p).1.chain.length := by
  obtain ⟨news, hnews⟩ := hchain
  unfold visit
  cases hf : find_node_linear st.1 p with
  | some m =>
    simp only []
    refine ⟨⟨news, hnews⟩, ?_, find_node_linear_lt hf⟩
    unfold find_node_linear at hf hp
    rw [hnews] at hf
    have := find_node_in_ge_of_not_mem hp hf
    omega
  | none =>
    simp only []
    refine ⟨?_, ?_, ?_⟩
    · refine ⟨news.take (st.2 + 1 - s.chain.length) ++
        [{ tag := TagNode, north := st.2, east := [], path := p.take 255 }], ?_⟩
      rw [chain_create_node, hnews, List.take_append_eq_append_take,
        List.take_of_length_le hcur, List.append_assoc]
    · simp only [create_node]; omega
    · rw [chain_length_create_node p hlt]
      simp only [create_node]; omega

theorem foldl_visit_extends {s : Store} (t : List (List Char)) (st : Store × Nat)
    (hchain : ∃ news, st.1.chain = s.chain ++ news) (hcur : s.chain.length ≤ st.2 + 1)
    (hlt : st.2 < st.1.chain.length) (hp : ∀ q ∈ t, find_node_linear s q = none) :
    ∃ news, (t.foldl visit st).1.chain = s.chain ++ news := by
  induction t generalizing st with
  | nil => exact hchain
  | cons p t ih =>
    rw [List.foldl_cons]
    obtain ⟨h1, h2, h3⟩ := visit_extends hchain hcur hlt (hp p (List.mem_cons_self _ _))
    exact ih _ h1 h2 h3 (fun q hq => hp q (List.mem_cons_of_mem _ hq))

theorem nodeAt_append {s s1 : Store} {news : List Node} {j : Nat}
    (h : s1.chain = s.chain ++ news) (hj : j < s.chain.length) : s1.nodeAt j = s.nodeAt j := by
  have hn : s.chain[j]? = some (s.chain[j]) := List.getElem?_eq_getElem hj
  rw [nodeAt_eq hn]
  apply nodeAt_eq
  rw [h, List.getElem?_append_left hj, hn]

/-- Claim C5, amended (nodes stay unless a PUT cuts the chain): take an accepted
PUT whose accumulated paths resolve up to some point (`t1`) and are absent
from there on (`t2`), the last resolved one being the last node of the chain
when one is absent, so that new nodes are attached at the end of the chain.
Then every path that `find_node_linear` resolves before the PUT resolves to
the same position after it; the node there is unchanged, except for the one
node the PUT writes its leaf under, which keeps path, tag and parent and whose
leaf chain differs by that one leaf (appended, or replaced in place). -/
theorem put_keeps_nodes_unless_it_cuts (s : Store) (cc : Bool) (p kv : List Char)
    (r : Result) (t1 t2 : List (List Char))
    (hput : handle_put s cc p kv = .ok r) (hacc : r.status = 0)
    (ht : put_trail (walk_start p).length "/".toList (walk_start p) = .ok (t1 ++ t2))
    (h1 : ∀ q ∈ t1, find_node_linear s q ≠ none)
    (h2 : ∀ q ∈ t2, find_node_linear s q = none)
    (h3 : t2 ≠ [] → find_node_linear s (t1.getLast?.getD "/".toList) = some s.west.length) :
    ∃ target, ∀ q j, find_node_linear s q = some j →
      find_node_linear r.store q = some j ∧
      (j ≠ target → r.store.nodeAt j = s.nodeAt j) ∧
      (j = target →
        (r.store.nodeAt j).path = q ∧ (r.store.nodeAt j).tag = (s.nodeAt j).tag ∧
        (r.store.nodeAt j).north = (s.nodeAt j).north ∧
        OneLeafWritten (s.nodeAt j).east (r.store.nodeAt j).east) := by
  rcases handle_put_ok hput with ⟨_, hfail⟩ | ⟨t', k, v, c, ht', hr⟩
  · rw [hacc] at hfail
    exact absurd hfail (by decide)
  · rw [ht] at ht'
    cases ht'
    have hlen := put_trail_length ht (by decide)
    have hfind := foldl_visit_find (t1 ++ t2) (s, 0) "/".toList hlen (find_node_linear_root s)
    -- the chain after the walk starts with the chain before it
    have hchain : ∃ news, ((t1 ++ t2).foldl visit (s, 0)).1.chain = s.chain ++ news := by
      rw [List.foldl_append]
      have hs1 : (t1.foldl visit (s, 0)).1 = s := foldl_visit_found t1 s 0 h1
      have hf1 := foldl_visit_find t1 (s, 0) "/".toList
        (fun q hq => hlen q (List.mem_append_left _ hq)) (find_node_linear_root s)
      rw [hs1] at hf1
      by_cases ht2 : t2 = []
      · subst ht2
        exact ⟨[], by simp [hs1]⟩
      · have hlast := h3 ht2
        rw [hf1] at hlast
        apply foldl_visit_extends t2 _ ⟨[], by simp [hs1]⟩ _ _ h2
        · simp only [Option.some.injEq] at hlast
          rw [hlast]
          simp [Store.chain]
        · rw [hs1]
          exact find_node_linear_lt hf1
    generalize (t1 ++ t2).foldl visit (s, 0) = st at hr hfind hchain
    obtain ⟨s1, n⟩ := st
    simp only [] at hr hfind hchain
    obtain ⟨news, hnews⟩ := hchain
    have hn : n < s1.chain.length := find_node_linear_lt hfind
    obtain ⟨_, _, hw⟩ := put_leaf_writes cc k v c hfind
    rw [← hr] at hw
    refine ⟨n, ?_⟩
    intro q j hq
    have hj : j < s.chain.length := find_node_linear_lt hq
    have hj1 : j < s1.chain.length := by
      rw [hnews, List.length_append]; omega
    have hq1 : find_node_linear s1 q = some j := by
      unfold find_node_linear
      rw [hnews]
      exact find_node_in_append_left hq
    have hnode : s1.nodeAt j = s.nodeAt j := nodeAt_append hnews hj
    have key : ∀ f : List Leaf → List Leaf, r.store = s1.setEast n f →
        OneLeafWritten (s1.nodeAt n).east (f (s1.nodeAt n).east) →
        find_node_linear r.store q = some j ∧
        (j ≠ n → r.store.nodeAt j = s.nodeAt j) ∧
        (j = n →
          (r.store.nodeAt j).path = q ∧ (r.store.nodeAt j).tag = (s.nodeAt j).tag ∧
          (r.store.nodeAt j).north = (s.nodeAt j).north ∧
          OneLeafWritten (s.nodeAt j).east (r.store.nodeAt j).east) := by
      intro f hstore hone
      rw [hstore]
      refine ⟨?_, ?_, ?_⟩
      · rw [find_node_linear_setEast]; exact hq1
      · intro hne
        rw [nodeAt_setEast_other f (fun e => hne e.symm) hj1, hnode]
      · intro e
        subst e
        rw [nodeAt_setEast_same f hj1, ← hnode]
        exact ⟨find_node_linear_path hq1, rfl, rfl, hone⟩
    rcases hw with ⟨i, l, _, hl1, _, hstore, _⟩ | ⟨_, hstore, _⟩
    · refine key _ hstore (Or.inr ⟨i, _, ?_, rfl⟩)
      by_contra hc
      rw [List.getElem?_eq_none (by omega)] at hl1
      cases hl1
    · exact key _ hstore (Or.inl ⟨_, rfl⟩)

/-- Claim C5, amended, at `PUT /a/b/c x=y` on the store left by `PUT /a/b k=v`. -/
theorem put_keeps_nodes_unless_it_cuts_witness :
    ∃ target, ∀ q j, find_node_linear store_ab q = some j →
      find_node_linear store_abc q = some j ∧
      (j ≠ target → store_abc.nodeAt j = store_ab.nodeAt j) ∧
      (j = target →
        (store_abc.nodeAt j).path = q ∧ (store_abc.nodeAt j).tag = (store_ab.nodeAt j).tag ∧
        (store_abc.nodeAt j).north = (store_ab.nodeAt j).north ∧
        OneLeafWritten (store_ab.nodeAt j).east (store_abc.nodeAt j).east) :=
  put_keeps_nodes_unless_it_cuts store_ab true "/a/b/c".toList "x=y".toList
    { store := store_abc, ccontinuation := true,
      out := "OK: Key 'x' created in path '/a/b/c'.\n".toList, status := 0 }
    ["/a".toList, "/a/b".toList] ["/a/b/c".toList]
    (by decide) rfl (by decide) (by decide) (by decide) (by decide)

/-- Claim C5 as stated fails: in the store reached by `PUT /a/b k=v` the path
`/a/b` resolves (position 2); the accepted `PUT /a/c x=y` attaches `/a/c` to
`/a`, whose forward link it overwrites, and `/a/b` resolves no more. -/
theorem put_sibling_drops_node :
    Reachable store_ab ∧ find_node_linear store_ab "/a/b".toList = some 2 ∧
    (handle_put store_ab true "/a/c".toList "x=y".toList).map
        (fun r => (r.status, find_node_linear r.store "/a/b".toList,
          r.store.chain.map Node.path)) =
      .ok (0, none, ["/".toList, "/a".toList, "/a/c".toList]) :=
  ⟨reachable_store_ab, by decide, by decide⟩

/-! ### Concrete sessions -/

set_option maxRecDepth 100000 in
theorem reachable_store_long : Reachable store_long :=
  Reachable.step init_store long_key_request
    { store := store_long, ccontinuation := true,
      out := "OK: Key '".toList ++ long_key ++ "' created in path '/a'.\n> ".toList }
    Reachable.init (by decide) (by decide) (by decide)

set_option maxRecDepth 100000 in
theorem reachable_store_dup : Reachable store_dup :=
  Reachable.step store_long long_key_request
    { store := store_dup, ccontinuation := true,
      out := "OK: Key '".toList ++ long_key ++ "' created in path '/a'.\n> ".toList }
    reachable_store_long (by decide) (by decide) (by decide)

set_option maxRecDepth 100000 in
/-- Claim C6 (key uniqueness among siblings) fails in the code: the request
`PUT /a <128 times k>=x`, 138 bytes, sent twice from the initial store, gives
a reachable store whose node `/a` has two leaves with the same stored key,
the first 127 bytes of the key sent. -/
theorem long_key_twice_duplicates_key :
    long_key_request.length = 138 ∧
    (childloop_step init_store long_key_request).map (fun r => r.store) = .ok store_long ∧
    (childloop_step store_long long_key_request).map (fun r => r.store) = .ok store_dup ∧
    Reachable store_dup ∧
    (store_dup.nodeAt 1).east.map Leaf.key = [cut_key, cut_key] ∧
    ¬ ((store_dup.nodeAt 1).east.map Leaf.key).Nodup :=
  ⟨by decide, by decide, by decide, reachable_store_dup, by decide, by decide⟩

set_option maxRecDepth 100000 in
/-- Claim C2 (update semantics) fails in the code on a reachable store: in the
store left by the two long-key requests, `PUT /a k=v1` then `PUT /a k=v2` with
the 127-byte key `k` that the leaves store both succeed, and node `/a` then
has two leaves keyed `k`, the first with value `v2`, the second still `x`. -/
theorem update_leaves_duplicate_behind :
    Reachable store_dup ∧ cut_key.length = 127 ∧
    ((handle_put store_dup true "/a".toList (cut_key ++ "=v1".toList)).bind
        (fun r1 => handle_put r1.store true "/a".toList (cut_key ++ "=v2".toList))).map
      (fun r2 => (r2.status,
        ((r2.store.nodeAt 1).east.filter (fun l => l.key = cut_key)).map
          (fun l => (l.value, l.size)))) =
      .ok (0, [("v2".toList ++ [NUL], 2), ("x".toList, 1)]) :=
  ⟨reachable_store_dup, by decide, by decide⟩

/-- Claim C1 (write-then-read) fails in the code: on the initial store
`PUT /a k=abcdefghijklmnopqrstuvwx` succeeds and `create_leaf` stores the 24
bytes of the value in a 24-byte buffer without terminator; the `GET /a k` that
follows takes `strlen` of that buffer and reads past its end. -/
theorem get_after_creating_put_reads_past_value :
    Reachable init_store ∧
    (handle_put init_store true "/a".toList "k=abcdefghijklmnopqrstuvwx".toList).map
        (fun r => (r.status, lookup_linear r.store "/a".toList "k".toList)) =
      .ok (0, some "abcdefghijklmnopqrstuvwx".toList) ∧
    (handle_put init_store true "/a".toList "k=abcdefghijklmnopqrstuvwx".toList).bind
        (fun r => handle_get r.store r.ccontinuation "/a".toList "k".toList) =
      .error Fault.out_of_bounds :=
  ⟨Reachable.init, by decide, by decide⟩

/-! ### Value buffers hold at least `size` bytes -/

theorem strncpy_length (src : List Char) (n : Nat) : (strncpy src n).length = n := by
  simp only [strncpy, List.length_append, List.length_take, List.length_replicate]
  omega

theorem mem_modify {α : Type} {f : α → α} {l : List α} {n : Nat} {a : α}
    (h : a ∈ l.modify f n) : a ∈ l ∨ ∃ b ∈ l, a = f b := by
  induction l generalizing n with
  | nil => simp at h
  | cons x l ih =>
    cases n with
    | zero =>
      simp only [List.modify_zero_cons, List.mem_cons] at h
      rcases h with h | h
      · exact Or.inr ⟨x, List.mem_cons_self _ _, h⟩
      · exact Or.inl (List.mem_cons_of_mem _ h)
    | succ k =>
      simp only [List.modify_succ_cons, List.mem_cons] at h
      rcases h with h | h
      · exact Or.inl (h ▸ List.mem_cons_self _ _)
      · rcases ih h with h | ⟨b, hb, e⟩
        · exact Or.inl (List.mem_cons_of_mem _ h)
        · exact Or.inr ⟨b, List.mem_cons_of_mem _ hb, e⟩

theorem sizesFit_setEast {s : Store} {n : Nat} {f : List Leaf → List Leaf} (h : SizesFit s)
    (hf : ∀ e : List Leaf, (∀ l ∈ e, l.size ≤ l.value.length) →
      ∀ l ∈ f e, l.size ≤ l.value.length) : SizesFit (s.setEast n f) := by
  intro nd hnd l hl
  rw [chain_setEast] at hnd
  rcases mem_modify hnd with hnd | ⟨b, hb, rfl⟩
  · exact h nd hnd l hl
  · exact hf b.east (h b hb) l hl

theorem sizesFit_visit {st : Store × Nat} (p : List Char) (h : SizesFit st.1) :
    SizesFit (visit st p).1 := by
  unfold visit
  cases find_node_linear st.1 p with
  | some found => exact h
  | none =>
    intro nd hnd l hl
    simp only [] at hnd
    rw [chain_create_node, List.mem_append] at hnd
    rcases hnd with hnd | hnd
    · exact h nd (List.mem_of_mem_take hnd) l hl
    · rw [List.mem_singleton] at hnd
      subst hnd
      simp at hl

theorem sizesFit_foldl (t : List (List Char)) (st : Store × Nat) (h : SizesFit st.1) :
    SizesFit (t.foldl visit st).1 := by
  induction t generalizing st with
  | nil => exact h
  | cons p t ih => exact ih _ (sizesFit_visit p h)

theorem sizesFit_handle_put {s : Store} {cc : Bool} {p kv : List Char} {r : Result}
    (hput : handle_put s cc p kv = .ok r) (h : SizesFit s) : SizesFit r.store := by
  rcases handle_put_ok hput with ⟨h1, _⟩ | ⟨t, k, v, c, ht, rfl⟩
  · rw [h1]; exact h
  · have hfind := foldl_visit_find t (s, 0) "/".toList (put_trail_length ht (by decide))
      (find_node_linear_root s)
    have hfit := sizesFit_foldl t (s, 0) h
    obtain ⟨_, _, hw⟩ := put_leaf_writes cc k v c hfind
    rcases hw with ⟨i, l, _, _, _, hstore, _⟩ | ⟨_, hstore, _⟩
    · rw [hstore]
      apply sizesFit_setEast hfit
      intro e he l' hl'
      rcases List.mem_or_eq_of_mem_set hl' with hl' | rfl
      · exact he l' hl'
      · simp [strncpy_length]
    · rw [hstore]
      apply sizesFit_setEast hfit
      intro e he l' hl'
      rw [List.mem_append, List.mem_singleton] at hl'
      rcases hl' with hl' | rfl
      · exact he l' hl'
      · simp [new_leaf, strncpy_length]

/-- In every reachable store a leaf's `size` bytes lie inside its value buffer. -/
theorem reachable_sizes_fit {s : Store} (h : Reachable s) : SizesFit s := by
  induction h with
  | init =>
    intro nd hnd l hl
    simp [init_store, Store.chain, Store.root] at hnd
    subst hnd
    simp at hl
  | step s bytes r _ _ _ hstep ih =>
    rcases childloop_step_store hstep with e | ⟨p, kv, r', hput, e⟩
    · rw [e]; exact ih
    · rw [e]; exact sizesFit_handle_put hput ih

/-! ### Node lookup and dispatch -/

theorem find_node_in_first {l : List Node} {p : List Char} {i : Nat}
    (h : find_node_in l p = some i) : ∀ j nd, j < i → l[j]? = some nd → nd.path ≠ p := by
  induction l generalizing i with
  | nil => simp [find_node_in] at h
  | cons a l ih =>
    by_cases hp : a.path = p
    · simp [find_node_in, hp] at h
      subst h
      intro j nd hj
      omega
    · simp [find_node_in, hp] at h
      obtain ⟨k, hk, rfl⟩ := h
      intro j nd hj hnd
      cases j with
      | zero =>
        simp at hnd
        subst hnd
        exact hp
      | succ j =>
        exact ih hk j nd (by omega) (by simpa using hnd)

theorem find_node_in_of_first {l : List Node} {p : List Char} {i : Nat} {nd : Node}
    (hi : l[i]? = some nd) (hp : nd.path = p)
    (hfirst : ∀ j nd', j < i → l[j]? = some nd' → nd'.path ≠ p) :
    find_node_in l p = some i := by
  induction l generalizing i with
  | nil => simp at hi
  | cons a l ih =>
    cases i with
    | zero =>
      simp at hi
      subst hi
      simp [find_node_in, hp]
    | succ i =>
      have ha : a.path ≠ p := hfirst 0 a (by omega) (by simp)
      simp only [find_node_in, ha, if_false, Option.map_eq_some']
      refine ⟨i, ih (by simpa using hi) ?_, rfl⟩
      intro j nd' hj hnd'
      exact hfirst (j + 1) nd' (by omega) (by simpa using hnd')

/-- Claim C20 (first match): `find_node_linear` returns position `i` exactly
when the node at position `i` of the chain from root has the given stored
path and no node before it has; it finds nothing exactly when no node of the
chain has that stored path; and for the path `/` it returns root, the node at
position 0, in every store. -/
theorem find_node_linear_first_match (s : Store) (path : List Char) :
    (∀ i, find_node_linear s path = some i ↔
      (∃ nd, s.chain[i]? = some nd ∧ nd.path = path) ∧
        ∀ j nd, j < i → s.chain[j]? = some nd → nd.path ≠ path) ∧
    (find_node_linear s path = none ↔ ∀ nd ∈ s.chain, nd.path ≠ path) ∧
    find_node_linear s "/".toList = some 0 ∧ s.chain[0]? = some s.root := by
  refine ⟨?_, ?_, find_node_linear_root s, by simp [Store.chain]⟩
  · intro i
    constructor
    · intro h
      exact ⟨find_node_in_some h, find_node_in_first h⟩
    · rintro ⟨⟨nd, h1, h2⟩, h3⟩
      exact find_node_in_of_first h1 h2 h3
  · unfold find_node_linear
    rw [find_node_in_none]
    simp only [List.mem_map, not_exists, not_and]

theorem getcmd_isSome (cmd : List Char) : (getcmd cmd).isSome ↔ cmd ∈ command_names := by
  simp only [getcmd, handlers, getcmd_in, command_names, List.mem_cons, List.mem_singleton,
    List.not_mem_nil, or_false]
  constructor
  · intro h
    repeat' split at h
    all_goals first
      | (simp at h; done)
      | simp [*]
  · intro h
    rcases h with h | h | h | h | h | h | h <;> subst h <;> decide

theorem getcmd_none {cmd : List Char} (h : cmd ∉ command_names) : getcmd cmd = none := by
  have := getcmd_isSome cmd
  cases hc : getcmd cmd with
  | none => rfl
  | some f =>
    rw [hc] at this
    exact absurd (this.mp rfl) h

/-- Claim C13 (case-sensitive dispatch): `getcmd` returns a handler exactly for
the seven command names, byte for byte, and then the handler registered for
that name; `get`, `HELLO` and `HELP` have none; and for a request whose
command field is non-empty and not one of the names, a round of the loop
leaves the store as it is and writes the unknown-command line and the prompt. -/
theorem dispatch_is_case_sensitive (cmd : List Char) :
    ((getcmd cmd).isSome ↔ cmd ∈ command_names) ∧
    (getcmd "hello".toList = some handle_hello ∧ getcmd "GET".toList = some handle_get ∧
      getcmd "PUT".toList = some handle_put ∧ getcmd "CD".toList = some handle_cd ∧
      getcmd "LS".toList = some handle_ls ∧ getcmd "QUIT".toList = some handle_quit ∧
      getcmd "PRINT_TREE".toList = some handle_print_tree) ∧
    (getcmd "get".toList = none ∧ getcmd "HELLO".toList = none ∧
      getcmd "HELP".toList = none) ∧
    (cmd ≠ [] → cmd ∉ command_names →
      ∀ (s : Store) (bytes : List Char), (parse_request (cstr bytes)).1 = cmd →
        childloop_step s bytes =
          .ok { store := s, ccontinuation := true,
                out := "ERROR: Unknown command '".toList ++ cmd ++
                  "'. Type QUIT to exit.\n".toList ++ "> ".toList }) := by
  refine ⟨getcmd_isSome cmd, ⟨rfl, rfl, rfl, rfl, rfl, rfl, rfl⟩,
    ⟨getcmd_none (by decide), getcmd_none (by decide), getcmd_none (by decide)⟩, ?_⟩
  intro hne hnot s bytes hparse
  have h0 : ¬ cmd.length = 0 := fun e => hne (List.length_eq_zero.mp e)
  unfold childloop_step
  simp only [hparse, h0, if_false, getcmd_none hnot]

/-! ### Request tokenization -/

theorem drop_takeWhile_length {α : Type} (p : α → Bool) (l : List α) :
    l.drop (l.takeWhile p).length = l.dropWhile p := by
  induction l with
  | nil => rfl
  | cons a l ih =>
    by_cases h : p a
    · simp [List.takeWhile_cons, List.dropWhile_cons, h, ih]
    · simp [List.takeWhile_cons, List.dropWhile_cons, h]

theorem takeWhile_length_le {α : Type} (p : α → Bool) (l : List α) :
    (l.takeWhile p).length ≤ l.length := by
  induction l with
  | nil => simp
  | cons a l ih =>
    by_cases h : p a
    · simp [List.takeWhile_cons, h]; omega
    · simp [List.takeWhile_cons, h]

theorem dropWhile_length_le {α : Type} (p : α → Bool) (l : List α) :
    (l.dropWhile p).length ≤ l.length := by
  induction l with
  | nil => simp
  | cons a l ih =>
    by_cases h : p a
    · simp [List.dropWhile_cons, h]; omega
    · simp [List.dropWhile_cons, h]

theorem dropWhile_dropWhile {α : Type} (p : α → Bool) (l : List α) :
    (l.dropWhile p).dropWhile p = l.dropWhile p := by
  induction l with
  | nil => rfl
  | cons a l ih =>
    by_cases h : p a
    · simp [List.dropWhile_cons, h, ih]
    · simp [List.dropWhile_cons, h]

theorem takeWhile_not_dropWhile_nil {α : Type} (p : α → Bool) (l : List α)
    (h : (l.dropWhile p).takeWhile (fun c => !p c) = []) : l.dropWhile p = [] := by
  induction l with
  | nil => rfl
  | cons a l ih =>
    by_cases hp : p a
    · simp only [List.dropWhile_cons, hp, if_true] at h ⊢
      exact ih h
    · simp [List.dropWhile_cons, List.takeWhile_cons, hp] at h

/-- The directive `%255s` on an input of at most 255 bytes. -/
theorem scan_word_short (input : List Char) (h : input.length ≤ 255) :
    scan_word 255 input =
      if (input.dropWhile isspace).takeWhile (fun c => !isspace c) = [] then none
      else some ((input.dropWhile isspace).takeWhile (fun c => !isspace c),
                 (input.dropWhile isspace).dropWhile (fun c => !isspace c)) := by
  have h1 := dropWhile_length_le isspace input
  have h2 := takeWhile_length_le (fun c => !isspace c) (input.dropWhile isspace)
  unfold scan_word
  simp only []
  rw [List.take_of_length_le (by omega), drop_takeWhile_length]

/-- The directive `%255[^\n\r]` on an input of at most 255 bytes. -/
theorem scan_line_short (input : List Char) (h : input.length ≤ 255) :
    scan_line 255 input =
      if input.takeWhile (fun c => c != '\n' && c != '\r') = [] then none
      else some (input.takeWhile (fun c => c != '\n' && c != '\r'),
                 input.dropWhile (fun c => c != '\n' && c != '\r')) := by
  have h2 := takeWhile_length_le (fun c => c != '\n' && c != '\r') input
  unfold scan_line
  simp only []
  rw [List.take_of_length_le (by omega), drop_takeWhile_length]

theorem cstr_length_le (b : List Char) : (cstr b).length ≤ b.length :=
  takeWhile_length_le _ b

/-- Claim C14 (request tokenization): for a request of at most 255 bytes, the
fields that `sscanf` and the zeroing of unassigned buffers leave in `cmd`,
`folder` and `args` are the first run of non-white-space bytes, the second
such run, and the bytes behind the white space that follows it up to the first
newline or carriage return; a field the request lacks is empty. -/
theorem parse_request_fields (bytes : List Char) (h : bytes.length ≤ 255) :
    parse_request (cstr bytes) = request_fields bytes := by
  have hc := cstr_length_le bytes
  have h1 := dropWhile_length_le isspace (cstr bytes)
  have h2 := dropWhile_length_le (fun c => !isspace c) ((cstr bytes).dropWhile isspace)
  have h3 := dropWhile_length_le isspace
    (((cstr bytes).dropWhile isspace).dropWhile (fun c => !isspace c))
  have h4 := dropWhile_length_le (fun c => !isspace c)
    ((((cstr bytes).dropWhile isspace).dropWhile (fun c => !isspace c)).dropWhile isspace)
  have h5 := dropWhile_length_le isspace
    (((((cstr bytes).dropWhile isspace).dropWhile (fun c => !isspace c)).dropWhile
      isspace).dropWhile (fun c => !isspace c))
  unfold parse_request request_fields
  simp only []
  rw [scan_word_short _ (by omega)]
  by_cases hcmd : ((cstr bytes).dropWhile isspace).takeWhile (fun c => !isspace c) = []
  · have hb1 := takeWhile_not_dropWhile_nil isspace (cstr bytes) hcmd
    rw [if_pos hcmd]
    simp [hb1]
  · rw [if_neg hcmd]
    simp only []
    rw [scan_word_short _ (by omega), dropWhile_dropWhile]
    by_cases harg : ((((cstr bytes).dropWhile isspace).dropWhile
        (fun c => !isspace c)).dropWhile isspace).takeWhile (fun c => !isspace c) = []
    · have hb2 := takeWhile_not_dropWhile_nil isspace _ harg
      rw [if_pos harg]
      simp [hb2]
    · rw [if_neg harg]
      simp only []
      rw [scan_line_short _ (by omega)]
      generalize (((((cstr bytes).dropWhile isspace).dropWhile
          (fun c => !isspace c)).dropWhile isspace).dropWhile
            (fun c => !isspace c)).dropWhile isspace = b3
      by_cases hx : b3.takeWhile (fun c => c != '\n' && c != '\r') = []
      · rw [if_pos hx]
        simp [hx]
      · rw [if_neg hx]

/-- Claim C14 at a three-field request with blanks and a tab in the last field. -/
theorem parse_request_fields_witness :
    parse_request (cstr "PUT /a/b  k=v w\tx\r\n".toList) =
      request_fields "PUT /a/b  k=v w\tx\r\n".toList ∧
    request_fields "PUT /a/b  k=v w\tx\r\n".toList =
      ("PUT".toList, "/a/b".toList, "k=v w\tx".toList) ∧
    request_fields "LS\n".toList = ("LS".toList, [], []) :=
  ⟨parse_request_fields "PUT /a/b  k=v w\tx\r\n".toList (by decide), by decide, by decide⟩

/-! ### The payload of a PUT -/

theorem cstr_of_not_mem {b : List Char} (h : NUL ∉ b) : cstr b = b := by
  unfold cstr
  rw [List.takeWhile_eq_self_iff]
  intro c hc
  simp only [ne_eq, decide_eq_true_eq]
  intro e
  exact h (e ▸ hc)

theorem strncpy_exact {v : List Char} (h : NUL ∉ v) : strncpy v v.length = v := by
  simp [strncpy, cstr_of_not_mem h]

theorem next_segment_ok (sofar : List Char) {walk : List Char} (h : walk.length ≤ 255) :
    ∃ r, next_segment sofar walk = .ok r := by
  unfold next_segment
  simp only []
  split
  · rename_i hc
    exfalso
    cases hs : strchr walk '/' with
    | none => rw [hs] at hc; simp only [] at hc; omega
    | some i =>
      rw [hs] at hc
      have := strchr_lt hs
      simp only [] at hc
      omega
  · exact ⟨_, rfl⟩

/-- The path walk of a PUT does not overrun its segment buffer when the path
has at most 255 bytes. -/
theorem put_trail_ok (fuel : Nat) (sofar : List Char) {walk : List Char}
    (h : walk.length ≤ 255) : ∃ t, put_trail fuel sofar walk = .ok t := by
  induction fuel generalizing sofar walk with
  | zero => exact ⟨[], rfl⟩
  | succ fuel ih =>
    rw [put_trail]
    by_cases hw : walk = []
    · exact ⟨[], by simp [hw]⟩
    · rw [if_neg hw]
      obtain ⟨⟨sofar2, walk1⟩, hr⟩ := next_segment_ok sofar h
      have hlt := next_segment_walk hr hw
      obtain ⟨t, ht⟩ := @ih sofar2 walk1 (by omega)
      exact ⟨sofar2 :: t, by simp [hr, ht]⟩

theorem walk_start_length_le (p : List Char) : (walk_start p).length ≤ p.length := by
  unfold walk_start
  split
  · simp
  · exact le_refl _

/-- A PUT with a path of at most 255 bytes resolves it: the walk ends at the
node that the last accumulated path, or `/`, resolves to. -/
theorem put_resolve_ok (s : Store) {p : List Char} (hp : p.length ≤ 255) :
    ∃ t s1 n, put_trail (walk_start p).length "/".toList (walk_start p) = .ok t ∧
      put_resolve s p = .ok (s1, n) ∧ (s1, n) = t.foldl visit (s, 0) ∧
      find_node_linear s1 (t.getLast?.getD "/".toList) = some n := by
  obtain ⟨t, ht⟩ := @put_trail_ok (walk_start p).length "/".toList (walk_start p)
    (by have := walk_start_length_le p; omega)
  have hres : put_resolve s p = .ok (t.foldl visit (s, 0)) := by
    rw [put_resolve_eq, ht]
    rfl
  have hfind := foldl_visit_find t (s, 0) "/".toList (put_trail_length ht (by decide))
    (find_node_linear_root s)
  exact ⟨t, (t.foldl visit (s, 0)).1, (t.foldl visit (s, 0)).2, ht, hres, rfl, hfind⟩

/-- Claim C17 (payload split): for a non-empty path of at most 255 bytes and a
payload of at most 255 bytes with a non-empty key `k` without `=` before the
first `=` and a non-empty value `v` behind it, `handle_put` resolves the path
and writes the leaf with exactly `k` as key and `v`, further `=` included, as
value: the node the walk ends at then has a leaf keyed `k` (cut to 127 bytes
when it is created) whose `size` bytes are `v`. -/
theorem put_splits_at_first_equal_sign (s : Store) (cc : Bool) (p k v : List Char)
    (hp : p ≠ []) (hpl : p.length ≤ 255) (hk : k ≠ []) (hke : '=' ∉ k) (hv : v ≠ [])
    (hnul : NUL ∉ v) (hlen : (k ++ '=' :: v).length ≤ 255) :
    ∃ s1 cur r, put_resolve s p = .ok (s1, cur) ∧
      handle_put s cc p (k ++ '=' :: v) = .ok r ∧
      r = put_leaf s1 cc cur k v v.length ∧ r.status = 0 ∧
      ∃ l ∈ (r.store.nodeAt cur).east,
        (l.key = k ∨ l.key = k.take 127) ∧ l.size = v.length ∧ l.value.take l.size = v := by
  have hvl : v.length % 2 ^ 16 = v.length := by
    simp only [List.length_append, List.length_cons] at hlen
    exact Nat.mod_eq_of_lt (by omega)
  have hv0 : v.length % 2 ^ 16 ≠ 0 := by
    rw [hvl]
    exact fun e => hv (List.length_eq_zero.mp e)
  obtain ⟨t, s1, n, _, hres, _, hfind⟩ := put_resolve_ok s hpl
  have hn : n < s1.chain.length := find_node_linear_lt hfind
  refine ⟨s1, n, put_leaf s1 cc n k v v.length, hres, ?_, rfl, ?_⟩
  · rw [handle_put_accepted s cc p k v hp hk hke hv0, hres, hvl]
  · obtain ⟨hst, _, hw⟩ := put_leaf_writes cc k v v.length hfind
    refine ⟨hst, ?_⟩
    rcases hw with ⟨i, l, _, hl1, hl2, hstore, _⟩ | ⟨_, hstore, _⟩
    · rw [hstore, nodeAt_setEast_same _ hn]
      refine ⟨{ l with value := strncpy v v.length ++ [NUL], size := v.length }, ?_,
        Or.inl hl2, rfl, ?_⟩
      · have hi : i < (s1.nodeAt n).east.length := by
          by_contra hc
          rw [List.getElem?_eq_none (by omega)] at hl1
          cases hl1
        exact List.mem_iff_getElem?.mpr ⟨i, by simp [List.getElem?_set, hi]⟩
      · simp [strncpy_exact hnul]
    · rw [hstore, nodeAt_setEast_same _ hn]
      refine ⟨new_leaf s1 n k v v.length, by simp, Or.inr rfl, rfl, ?_⟩
      simp [new_leaf, strncpy_exact hnul]

/-- Claim C17 at `PUT /p k=a=b` on the initial store: the value stored under `k` is `a=b`. -/
theorem put_splits_at_first_equal_sign_witness :
    (∃ s1 cur r, put_resolve init_store "/p".toList = .ok (s1, cur) ∧
      handle_put init_store true "/p".toList ("k".toList ++ '=' :: "a=b".toList) = .ok r ∧
      r = put_leaf s1 true cur "k".toList "a=b".toList "a=b".toList.length ∧ r.status = 0 ∧
      ∃ l ∈ (r.store.nodeAt cur).east,
        (l.key = "k".toList ∨ l.key = "k".toList.take 127) ∧ l.size = "a=b".toList.length ∧
          l.value.take l.size = "a=b".toList) ∧
    (handle_put init_store true "/p".toList "k=a=b".toList).map
        (fun r => lookup_linear r.store "/p".toList "k".toList) = .ok (some "a=b".toList) :=
  ⟨put_splits_at_first_equal_sign init_store true "/p".toList "k".toList "a=b".toList
    (by decide) (by decide) (by decide) (by decide) (by decide) (by decide) (by decide),
   by decide⟩

/-! ### Lookup after `create_leaf` -/

theorem find_leaf_in_append_left {e e' : List Leaf} {k : List Char} {i : Nat}
    (h : find_leaf_in e k = some i) : find_leaf_in (e ++ e') k = some i := by
  induction e generalizing i with
  | nil => simp [find_leaf_in] at h
  | cons a e ih =>
    by_cases hk : a.key = k
    · simpa [find_leaf_in, hk] using h
    · simp [find_leaf_in, hk] at h ⊢
      obtain ⟨j, hj, rfl⟩ := h
      exact ⟨j, ih hj, rfl⟩

theorem find_leaf_in_append_new {e : List Leaf} {k : List Char} (l : Leaf)
    (h : find_leaf_in e k = none) :
    find_leaf_in (e ++ [l]) k = if l.key = k then some e.length else none := by
  induction e with
  | nil => simp [find_leaf_in]
  | cons a e ih =>
    by_cases hk : a.key = k
    · simp [find_leaf_in, hk] at h
    · simp [find_leaf_in, hk] at h ⊢
      rw [ih h]
      split <;> simp

theorem find_leaf_in_lt {e : List Leaf} {k : List Char} {i : Nat}
    (h : find_leaf_in e k = some i) : i < e.length := by
  obtain ⟨l, hl, _⟩ := find_leaf_in_some h
  by_contra hc
  rw [List.getElem?_eq_none (by omega)] at hl
  cases hl

/-- `lookup_linear` in terms of the leaf chain of the node the path resolves to. -/
theorem lookup_linear_eq {s : Store} {path : List Char} {n : Nat}
    (h : find_node_linear s path = some n) (key : List Char) :
    lookup_linear s path key =
      (find_leaf_in (s.nodeAt n).east key).bind
        (fun i => ((s.nodeAt n).east.get? i).map (fun l => l.value)) := by
  unfold lookup_linear find_leaf_linear
  rw [h]
  cases hf : find_leaf_in (s.nodeAt n).east key with
  | none => simp [hf]
  | some i => simp [hf, Store.leafAt]

/-- Claim C18 (lookup after create): for a node that its own stored path
resolves to, a key of at most 127 bytes that the node has no leaf for, and a
value of at least one byte, none of them NUL, `lookup_linear` of the node's
path and the key returns the value after `create_leaf`, and for every other
key it returns what it returned before. -/
theorem lookup_after_create_leaf (s : Store) (n : Nat) (k v : List Char)
    (hn : find_node_linear s (s.nodeAt n).path = some n) (hk : k.length ≤ 127)
    (hnone : find_leaf_in (s.nodeAt n).east k = none) (_hv : 1 ≤ v.length) (hnul : NUL ∉ v) :
    lookup_linear (create_leaf s n k v v.length).1 (s.nodeAt n).path k = some v ∧
    ∀ k', k' ≠ k →
      lookup_linear (create_leaf s n k v v.length).1 (s.nodeAt n).path k' =
        lookup_linear s (s.nodeAt n).path k' := by
  have hlt : n < s.chain.length := find_node_linear_lt hn
  have hfind : find_node_linear (create_leaf s n k v v.length).1 (s.nodeAt n).path = some n := by
    rw [create_leaf_eq s n k v v.length hlt, find_node_linear_setEast]
    exact hn
  have heast : ((create_leaf s n k v v.length).1.nodeAt n).east =
      (s.nodeAt n).east ++ [new_leaf s n k v v.length] := by
    rw [create_leaf_eq s n k v v.length hlt, nodeAt_setEast_same _ hlt]
  have hkey : (new_leaf s n k v v.length).key = k := by
    simp [new_leaf, List.take_of_length_le hk]
  rw [lookup_linear_eq hfind, heast]
  refine ⟨?_, ?_⟩
  · rw [find_leaf_in_append_new _ hnone, if_pos hkey]
    simp [new_leaf, strncpy_exact hnul]
  · intro k' hk'
    rw [lookup_linear_eq hfind, lookup_linear_eq hn, heast]
    cases hf : find_leaf_in (s.nodeAt n).east k' with
    | none =>
      have hne : ¬ (new_leaf s n k v v.length).key = k' := by
        rw [hkey]; exact fun e => hk' e.symm
      rw [find_leaf_in_append_new _ hf, if_neg hne]
      rfl
    | some i =>
      have hi := find_leaf_in_lt hf
      rw [find_leaf_in_append_left hf]
      simp [List.getElem?_append_left hi]

/-- Claim C18 on the store of `tree_test_main`: after the two `create_node` calls
the leaf `pushkar` is created and found with its value; in the store the test
ends with, both leaves are found. -/
theorem lookup_after_create_leaf_witness :
    (lookup_linear
        (create_leaf (create_node (create_node init_store 0 "/Users".toList).1 1
          "/Users/login".toList).1 2 "pushkar".toList "abs77301aa".toList
            "abs77301aa".toList.length).1
        ((create_node (create_node init_store 0 "/Users".toList).1 1
          "/Users/login".toList).1.nodeAt 2).path "pushkar".toList =
      some "abs77301aa".toList ∧
     ∀ k', k' ≠ "pushkar".toList →
      lookup_linear
        (create_leaf (create_node (create_node init_store 0 "/Users".toList).1 1
          "/Users/login".toList).1 2 "pushkar".toList "abs77301aa".toList
            "abs77301aa".toList.length).1
        ((create_node (create_node init_store 0 "/Users".toList).1 1
          "/Users/login".toList).1.nodeAt 2).path k' =
      lookup_linear (create_node (create_node init_store 0 "/Users".toList).1 1
          "/Users/login".toList).1
        ((create_node (create_node init_store 0 "/Users".toList).1 1
          "/Users/login".toList).1.nodeAt 2).path k') ∧
    lookup_linear tree_test_store "/Users/login".toList "pushkar".toList =
      some "abs77301aa".toList ∧
    lookup_linear tree_test_store "/Users/login".toList "manan".toList =
      some "aa098765467c".toList :=
  ⟨lookup_after_create_leaf
    (create_node (create_node init_store 0 "/Users".toList).1 1 "/Users/login".toList).1 2
    "pushkar".toList "abs77301aa".toList (by decide) (by decide) (by decide) (by decide)
    (by decide), by decide, by decide⟩

/-! ### The chain is a path list -/

theorem strchr_none_not_mem {s : List Char} {c : Char} (h : strchr s c = none) : c ∉ s := by
  induction s with
  | nil => simp
  | cons x xs ih =>
    by_cases hx : x = c
    · simp [strchr, hx] at h
    · simp [strchr, hx] at h
      simp only [List.mem_cons, not_or]
      exact ⟨fun e => hx e.symm, ih h⟩

theorem not_mem_take {α : Type} {a : α} {l : List α} (n : Nat) (h : a ∉ l) : a ∉ l.take n :=
  fun e => h (List.mem_of_mem_take e)

/-- Appending a separator and a segment to the accumulated path, as the two
`strncat` calls do: the path stays as it is (nothing fits, or an empty first
segment) or is extended by one segment. -/
theorem segment_step {sofar seg sofar2 : List Char} (hseg : '/' ∉ seg)
    (h2 : strncat
        (if sofar.length > 1 ∨ sofar.head? ≠ some '/' then
          strncat sofar "/".toList (256 - sofar.length - 1) else sofar) seg
        (256 - (if sofar.length > 1 ∨ sofar.head? ≠ some '/' then
          strncat sofar "/".toList (256 - sofar.length - 1) else sofar).length - 1) = sofar2)
    (hl : sofar.length ≤ 255) (hs : sofar = "/".toList ∨ 1 < sofar.length) :
    (sofar2 = sofar ∨ Ext sofar sofar2) ∧ (sofar2 = "/".toList ∨ 1 < sofar2.length) := by
  have h1 : ("/".toList).length = 1 := rfl
  rcases hs with rfl | hs
  · simp only [strncat] at h2
    have h3 : "/".toList ++ seg.take 254 = sofar2 := by simpa using h2
    by_cases he : seg.take 254 = []
    · rw [he] at h3
      exact ⟨Or.inl h3.symm, Or.inl h3.symm⟩
    · have hpos := List.length_pos.mpr he
      have hlen : 1 < sofar2.length := by
        rw [← h3, List.length_append, h1]; omega
      exact ⟨Or.inr ⟨seg.take 254, not_mem_take _ hseg, by rw [with_slash_root, h3], hlen⟩,
        Or.inr hlen⟩
  · simp only [strncat, hs, true_or, if_true] at h2
    by_cases h255 : sofar.length = 255
    · have h3 : sofar2 = sofar := by
        rw [← h2]
        simp [h255]
      exact ⟨Or.inl h3, Or.inr (h3 ▸ hs)⟩
    · have ht : List.take (256 - sofar.length - 1) "/".toList = "/".toList :=
        List.take_of_length_le (by rw [h1]; omega)
      rw [ht] at h2
      have hlen : 1 < sofar2.length := by
        rw [← h2]
        simp only [List.length_append, h1]
        omega
      refine ⟨Or.inr ⟨seg.take (256 - (sofar ++ "/".toList).length - 1),
        not_mem_take _ hseg, ?_, hlen⟩, Or.inr hlen⟩
      rw [with_slash_long hs, h2]

/-- What one round of the path walk makes of the accumulated path. -/
theorem next_segment_step {sofar walk sofar2 walk1 : List Char}
    (h : next_segment sofar walk = .ok (sofar2, walk1)) (hl : sofar.length ≤ 255)
    (hs : sofar = "/".toList ∨ 1 < sofar.length) :
    (sofar2 = sofar ∨ Ext sofar sofar2) ∧ (sofar2 = "/".toList ∨ 1 < sofar2.length) := by
  unfold next_segment at h
  cases hc : strchr walk '/' with
  | none =>
    simp only [hc] at h
    split at h
    · cases h
    · simp only [Except.ok.injEq, Prod.mk.injEq] at h
      exact segment_step (not_mem_take _ (strchr_none_not_mem hc)) h.1 hl hs
  | some i =>
    simp only [hc] at h
    split at h
    · cases h
    · simp only [Except.ok.injEq, Prod.mk.injEq] at h
      exact segment_step (strchr_split hc).2 h.1 hl hs

theorem put_trail_chain {fuel : Nat} {sofar walk : List Char} {t : List (List Char)}
    (h : put_trail fuel sofar walk = .ok t) (hl : sofar.length ≤ 255)
    (hs : sofar = "/".toList ∨ 1 < sofar.length) :
    List.Chain (fun a b => b = a ∨ Ext a b) sofar t := by
  induction fuel generalizing sofar walk t with
  | zero =>
    simp [put_trail] at h
    subst h
    exact List.Chain.nil
  | succ fuel ih =>
    rw [put_trail] at h
    split at h
    · cases h; exact List.Chain.nil
    · cases hseg : next_segment sofar walk with
      | error f => rw [hseg] at h; cases h
      | ok r =>
        obtain ⟨sofar2, walk1⟩ := r
        rw [hseg] at h
        simp only [] at h
        cases ht : put_trail fuel sofar2 walk1 with
        | error f => rw [ht] at h; cases h
        | ok t1 =>
          rw [ht] at h
          cases h
          obtain ⟨h1, h2⟩ := next_segment_step hseg hl hs
          exact List.Chain.cons h1 (ih ht (next_segment_length hseg hl) h2)

theorem chain_take {α : Type} {R : α → α → Prop} {a : α} {l : List α} (n : Nat)
    (h : List.Chain R a l) : List.Chain R a (l.take n) := by
  induction l generalizing a n with
  | nil => simp
  | cons b l ih =>
    cases n with
    | zero => exact List.Chain.nil
    | succ n =>
      cases h with
      | cons hab hl => exact List.Chain.cons hab (ih n hl)

theorem chain_take_snoc {α : Type} {R : α → α → Prop} {a x b : α} {l : List α} {n : Nat}
    (h : List.Chain R a l) (hx : (a :: l)[n]? = some x) (hr : R x b) :
    List.Chain R a (l.take n ++ [b]) := by
  induction l generalizing a n with
  | nil =>
    cases n with
    | zero =>
      simp at hx
      subst hx
      exact List.Chain.cons hr List.Chain.nil
    | succ n => simp at hx
  | cons c l ih =>
    cases n with
    | zero =>
      simp at hx
      subst hx
      exact List.Chain.cons hr List.Chain.nil
    | succ n =>
      cases h with
      | cons hac hl =>
        simp only [List.take_succ_cons, List.cons_append]
        exact List.Chain.cons hac (ih hl (by simpa using hx))

theorem ext_ne {a b : List Char} (h : Ext a b) : b ≠ a := by
  obtain ⟨seg, _, e, hlen⟩ := h
  intro hba
  subst hba
  have := congrArg List.length e
  simp only [with_slash, List.length_append] at this
  split at this
  · simp only [List.length_append] at this
    have h1 : ("/".toList).length = 1 := rfl
    omega
  · omega

theorem chain_paths (s : Store) : s.chain.map Node.path = "/".toList :: s.west.map Node.path :=
  rfl

/-- Visiting the next accumulated path keeps the chain a path list. -/
theorem visit_pathList {st : Store × Nat} {p0 p : List Char} (h : PathList st.1)
    (hfind : find_node_linear st.1 p0 = some st.2) (hstep : p = p0 ∨ Ext p0 p)
    (hp : p.length ≤ 255) : PathList (visit st p).1 := by
  unfold visit
  cases hf : find_node_linear st.1 p with
  | some found => exact h
  | none =>
    have hext : Ext p0 p := by
      rcases hstep with e | e
      · rw [e, hfind] at hf; cases hf
      · exact e
    obtain ⟨nd, hnd, hpath⟩ := find_node_in_some hfind
    have hx : ("/".toList :: st.1.west.map Node.path)[st.2]? = some p0 := by
      rw [← chain_paths, List.getElem?_map, hnd]
      simp [hpath]
    have hwest : (create_node st.1 st.2 p).1.west.map Node.path =
        (st.1.west.map Node.path).take st.2 ++ [p] := by
      simp [create_node, List.map_take, List.take_of_length_le hp]
    refine ⟨?_, ?_⟩
    · simp only []
      rw [hwest]
      exact chain_take_snoc h.1 hx hext
    · simp only []
      rw [hwest]
      intro q hq
      rw [List.mem_append, List.mem_singleton] at hq
      rcases hq with hq | rfl
      · exact h.2 q (List.mem_of_mem_take hq)
      · exact hp

theorem foldl_visit_pathList (t : List (List Char)) (st : Store × Nat) (p0 : List Char)
    (hchain : List.Chain (fun a b => b = a ∨ Ext a b) p0 t) (ht : ∀ p ∈ t, p.length ≤ 255)
    (h : PathList st.1) (hfind : find_node_linear st.1 p0 = some st.2) :
    PathList (t.foldl visit st).1 := by
  induction t generalizing st p0 with
  | nil => exact h
  | cons p t ih =>
    rw [List.foldl_cons]
    cases hchain with
    | cons hstep hrest =>
      have hp := ht p (List.mem_cons_self _ _)
      exact ih (visit st p) p hrest (fun q hq => ht q (List.mem_cons_of_mem _ hq))
        (visit_pathList h hfind hstep hp) (visit_find hp (find_node_linear_lt hfind))

theorem pathList_of_paths {s s' : Store} (h : s'.chain.map Node.path = s.chain.map Node.path)
    (hs : PathList s) : PathList s' := by
  rw [chain_paths, chain_paths] at h
  have e : s'.west.map Node.path = s.west.map Node.path := (List.cons.inj h).2
  unfold PathList
  rw [e]
  exact hs

theorem handle_put_pathList {s : Store} {cc : Bool} {p kv : List Char} {r : Result}
    (h : handle_put s cc p kv = .ok r) (hs : PathList s) : PathList r.store := by
  rcases handle_put_ok h with ⟨h1, _⟩ | ⟨t, k, v, c, ht, rfl⟩
  · rw [h1]; exact hs
  · apply pathList_of_paths (paths_put_leaf _ cc _ k v c)
    exact foldl_visit_pathList t (s, 0) "/".toList
      (put_trail_chain ht (by decide) (Or.inl rfl)) (put_trail_length ht (by decide)) hs
      (find_node_linear_root s)

/-- Every reachable store is a path list. -/
theorem reachable_pathList {s : Store} (h : Reachable s) : PathList s := by
  induction h with
  | init => exact ⟨List.Chain.nil, by simp [init_store]⟩
  | step s bytes r _ _ _ hstep ih =>
    rcases childloop_step_store hstep with e | ⟨p, kv, r', hput, e⟩
    · rw [e]; exact ih
    · rw [e]; exact handle_put_pathList hput ih

/-! ### The path walk along a path list -/

theorem ext_long {a b : List Char} (h : Ext a b) : 1 < b.length := by
  obtain ⟨_, _, _, hlen⟩ := h
  exact hlen

/-- The last path of a path list that hangs off `a` is `a`, a separator, and more. -/
theorem chain_last_extends {a : List Char} {l : List (List Char)} (h : List.Chain Ext a l)
    (hne : l ≠ []) : ∃ w, l.getLast? = some (with_slash a ++ w) := by
  induction l generalizing a with
  | nil => exact absurd rfl hne
  | cons b l ih =>
    cases h with
    | cons hab hl =>
      obtain ⟨seg, _, e, hlen⟩ := hab
      cases l with
      | nil => exact ⟨seg, by simp [e]⟩
      | cons c l =>
        obtain ⟨w, hw⟩ := ih hl (by simp)
        refine ⟨seg ++ "/".toList ++ w, ?_⟩
        rw [List.getLast?_cons_cons, hw, with_slash_long hlen, e]
        simp

/-- Walking a path that is the last of a path list hanging off the accumulated
path looks up exactly the paths of that list. -/
theorem put_trail_of_chain (l : List (List Char)) (fuel : Nat) (sofar walk : List Char)
    (h : List.Chain Ext sofar l) (hne : l ≠ [])
    (hs : sofar = "/".toList ∨ 1 < sofar.length)
    (hlast : l.getLast? = some (with_slash sofar ++ walk))
    (hlen : (with_slash sofar ++ walk).length ≤ 255)
    (hw : walk ≠ []) (hwl : walk.getLast? ≠ some '/') (hf : walk.length ≤ fuel) :
    put_trail fuel sofar walk = .ok l := by
  induction l generalizing fuel sofar walk with
  | nil => exact absurd rfl hne
  | cons b l ih =>
    cases fuel with
    | zero => exact absurd (List.length_eq_zero.mp (by omega)) hw
    | succ fuel =>
      have hwlen : walk.length ≤ 255 := by
        simp only [List.length_append] at hlen; omega
      cases h with
      | cons hab hl =>
        obtain ⟨seg, hseg, e, hblen⟩ := hab
        rw [put_trail, if_neg hw]
        cases l with
        | nil =>
          -- the walk is the last segment
          have hwalk : walk = seg := by
            simp only [List.getLast?_singleton, Option.some.injEq] at hlast
            rw [e] at hlast
            exact (List.append_cancel_left hlast).symm
          have hc : strchr walk '/' = none := strchr_eq_none (hwalk ▸ hseg)
          rw [next_segment_last (by omega) hs hlen hc]
          have : put_trail fuel (with_slash sofar ++ walk) [] = .ok [] := by
            cases fuel <;> simp [put_trail]
          simp only [this]
          rw [e, hwalk]
        | cons c l =>
          obtain ⟨w, hw'⟩ := chain_last_extends hl (by simp)
          have hwalk : walk = seg ++ '/' :: w := by
            rw [List.getLast?_cons_cons, hw', with_slash_long hblen, e] at hlast
            simp only [Option.some.injEq, List.append_assoc] at hlast
            have := List.append_cancel_left hlast
            rw [← this]
            rfl
          have hc : strchr walk '/' = some seg.length := by
            rw [hwalk]; exact strchr_append w hseg
          have e1 : walk.take seg.length = seg := by rw [hwalk]; simp
          have e2 : walk.drop (seg.length + 1) = w := by
            rw [hwalk, ← List.drop_drop]; simp
          rw [next_segment_slash hs hlen hc, e1, e2, ← e]
          have hwne : w ≠ [] := by
            intro hw0
            apply hwl
            rw [hwalk, hw0]
            simp
          have hwlast : w.getLast? ≠ some '/' := by
            intro hw0
            apply hwl
            rw [hwalk, List.getLast?_append, List.getLast?_cons]
            rw [List.getLast?_eq_getLast _ hwne] at hw0 ⊢
            simpa using hw0
          have hlen2 : (with_slash b ++ w).length ≤ 255 := by
            have : (with_slash sofar ++ walk).length = (with_slash b ++ w).length := by
              rw [with_slash_long hblen, e, hwalk]
              simp only [List.length_append, List.length_cons]
              have h1 : ("/".toList).length = 1 := rfl
              omega
            omega
          have hfw : w.length ≤ fuel := by
            have : walk.length = seg.length + (w.length + 1) := by
              rw [hwalk]; simp
            omega
          have hrec := ih fuel b w hl (by simp) (Or.inr hblen) hw' hlen2 hwne hwlast hfw
          simp only [hrec]

/-- In a path list, the walk of `handle_put` along a well-formed path that
resolves looks up exactly the stored paths of the nodes between root and the
node of the path. -/
theorem resolved_trail_eq {s : Store} {p : List Char} {j : Nat} (hs : PathList s)
    (hp : AbsPath p) (hj : find_node_linear s p = some j) :
    put_trail (walk_start p).length "/".toList (walk_start p) =
      .ok ((s.west.map Node.path).take j) ∧
    ((s.west.map Node.path).take j).getLast?.getD "/".toList = p := by
  obtain ⟨hhead, htail⟩ := hp
  cases p with
  | nil => simp at hhead
  | cons c rest =>
    simp only [List.head?_cons, Option.some.injEq] at hhead
    subst hhead
    simp only [List.tail_cons] at htail
    have hws : walk_start ('/' :: rest) = rest := by simp [walk_start]
    rw [hws]
    by_cases hrest : rest = []
    · subst hrest
      have h0 := find_node_linear_root s
      have e : "/".toList = ['/'] := rfl
      rw [e, hj] at h0
      cases h0
      exact ⟨rfl, rfl⟩
    · rcases htail with h0 | ⟨h1, h2⟩
      · exact absurd h0 hrest
      · -- position 0 is root, so the path sits at a position j = i + 1
        obtain ⟨nd, hnd, hpath⟩ := find_node_in_some hj
        cases j with
        | zero =>
          exfalso
          simp [Store.chain, Store.root] at hnd
          rw [← hnd] at hpath
          simp only at hpath
          have := congrArg List.length hpath
          simp at this
          exact hrest this
        | succ i =>
          have hi : (s.west.map Node.path)[i]? = some ('/' :: rest) := by
            have : s.west[i]? = some nd := by simpa [Store.chain] using hnd
            rw [List.getElem?_map, this]
            simp [hpath]
          have hilt : i < (s.west.map Node.path).length := by
            by_contra hc
            rw [List.getElem?_eq_none (by omega)] at hi
            cases hi
          have hlastl : ((s.west.map Node.path).take (i + 1)).getLast? = some ('/' :: rest) := by
            rw [List.getLast?_eq_getElem?]
            simp only [List.length_take]
            rw [List.getElem?_take]
            have : min (i + 1) (s.west.map Node.path).length - 1 = i := by omega
            rw [this, if_pos (by omega), hi]
          have hne : (s.west.map Node.path).take (i + 1) ≠ [] := by
            intro e
            rw [e] at hlastl
            cases hlastl
          have hlen : ('/' :: rest).length ≤ 255 :=
            hs.2 _ (List.mem_iff_getElem?.mpr ⟨i, hi⟩)
          have htr := put_trail_of_chain _ rest.length "/".toList rest
            (chain_take (i + 1) hs.1) hne (Or.inl rfl)
            (by rw [hlastl, with_slash_root]; rfl)
            (by rw [with_slash_root]; simpa using hlen) hrest h2 (le_refl _)
          exact ⟨htr, by rw [hlastl]; rfl⟩

/-- In a path list, a well-formed path that resolves is reached by the walk of
`handle_put` through nodes that all exist already. -/
theorem resolved_trail {s : Store} {p : List Char} {j : Nat} (hs : PathList s)
    (hp : AbsPath p) (hj : find_node_linear s p = some j) :
    ∃ t, put_trail (walk_start p).length "/".toList (walk_start p) = .ok t ∧
      (∀ q ∈ t, find_node_linear s q ≠ none) ∧ t.getLast?.getD "/".toList = p := by
  obtain ⟨h1, h2⟩ := resolved_trail_eq hs hp hj
  refine ⟨_, h1, ?_, h2⟩
  intro q hq hnone
  have hq' : q ∈ s.chain.map Node.path := by
    rw [chain_paths]
    exact List.mem_cons_of_mem _ (List.mem_of_mem_take hq)
  exact (find_node_in_none.mp hnone) hq'

/-! ### PUT of a new key and of an existing key -/

theorem nodeAt_mem {s : Store} {n : Nat} (h : n < s.chain.length) : s.nodeAt n ∈ s.chain := by
  have hn : s.chain[n]? = some (s.chain[n]) := List.getElem?_eq_getElem h
  rw [nodeAt_eq hn]
  exact List.getElem_mem h

/-- Nodes that the walk creates have no leaves. -/
theorem visit_fresh {s : Store} {st : Store × Nat} (p : List Char)
    (h : ∀ nd ∈ st.1.chain, find_node_linear s nd.path = none → nd.east = []) :
    ∀ nd ∈ (visit st p).1.chain, find_node_linear s nd.path = none → nd.east = [] := by
  unfold visit
  cases hf : find_node_linear st.1 p with
  | some found => exact h
  | none =>
    simp only []
    rw [chain_create_node]
    intro nd hnd hnone
    rw [List.mem_append, List.mem_singleton] at hnd
    rcases hnd with hnd | rfl
    · exact h nd (List.mem_of_mem_take hnd) hnone
    · rfl

theorem foldl_visit_fresh {s : Store} (t : List (List Char)) (st : Store × Nat)
    (h : ∀ nd ∈ st.1.chain, find_node_linear s nd.path = none → nd.east = []) :
    ∀ nd ∈ (t.foldl visit st).1.chain, find_node_linear s nd.path = none → nd.east = [] := by
  induction t generalizing st with
  | nil => exact h
  | cons p t ih =>
    rw [List.foldl_cons]
    exact ih _ (visit_fresh p h)

/-- The node that the walk of a well-formed path ends at holds the leaves
that were stored under the path before. -/
theorem put_resolve_abs {s : Store} (hs : PathList s) {p : List Char} (hp : AbsPath p)
    (hpl : p.length ≤ 255) :
    ∃ s1 n, put_resolve s p = .ok (s1, n) ∧ find_node_linear s1 p = some n ∧
      (s1.nodeAt n).east = leaves_under s p ∧ PathList s1 ∧
      (∀ n0, find_node_linear s p = some n0 → s1 = s ∧ n = n0) := by
  obtain ⟨t, s1, n, ht, hres, hfold, hfind⟩ := put_resolve_ok s hpl
  obtain ⟨t', ht', hlast⟩ := put_trail_abs hp hpl
  rw [ht] at ht'
  cases ht'
  rw [hlast] at hfind
  have hs1 : s1 = (t.foldl visit (s, 0)).1 := congrArg Prod.fst hfold
  have hpl1 : PathList s1 := by
    rw [hs1]
    exact foldl_visit_pathList t (s, 0) "/".toList
      (put_trail_chain ht (by decide) (Or.inl rfl)) (put_trail_length ht (by decide)) hs
      (find_node_linear_root s)
  have hsame : ∀ n0, find_node_linear s p = some n0 → s1 = s ∧ n = n0 := by
    intro n0 hf
    obtain ⟨t2, ht2, hall, _⟩ := resolved_trail hs hp hf
    rw [ht] at ht2
    cases ht2
    have e : s1 = s := by rw [hs1]; exact foldl_visit_found t s 0 hall
    subst e
    rw [hf] at hfind
    cases hfind
    exact ⟨rfl, rfl⟩
  refine ⟨s1, n, hres, hfind, ?_, hpl1, hsame⟩
  unfold leaves_under
  cases hf : find_node_linear s p with
  | some n0 =>
    obtain ⟨e1, e2⟩ := hsame n0 hf
    subst e1
    subst e2
    rfl
  | none =>
    simp only []
    have hfresh := @foldl_visit_fresh s t (s, 0) (by
      intro nd hnd hnone
      exact absurd (List.mem_map_of_mem Node.path hnd) (find_node_in_none.mp hnone))
    rw [← hs1] at hfresh
    apply hfresh _ (nodeAt_mem (find_node_linear_lt hfind))
    rw [find_node_linear_path hfind]
    exact hf

/-- A PUT of a key that the path has no leaf for appends one leaf behind the
leaves stored under the path. -/
theorem put_new_key {s : Store} (hs : PathList s) (cc : Bool) {p k v : List Char}
    (hp : AbsPath p) (hpl : p.length ≤ 255) (hk : k ≠ []) (hke : '=' ∉ k)
    (hv : v.length % 2 ^ 16 ≠ 0) (hnew : find_leaf_linear s p k = none) :
    ∃ r n l, handle_put s cc p (k ++ '=' :: v) = .ok r ∧
      find_node_linear r.store p = some n ∧
      (r.store.nodeAt n).east = leaves_under s p ++ [l] ∧
      l.key = k.take 127 ∧ l.value = strncpy v (v.length % 2 ^ 16) ∧
      l.size = v.length % 2 ^ 16 ∧ PathList r.store ∧ r.ccontinuation = cc ∧ r.status = 0 ∧
      r.out = "OK: Key '".toList ++ k ++ "' created in path '".toList ++ p ++ "'.\n".toList := by
  obtain ⟨s1, n, hres, hfind, heast, _, _⟩ := put_resolve_abs hs hp hpl
  have hacc := handle_put_accepted s cc p k v (abs_path_ne_nil hp) hk hke hv
  rw [hres] at hacc
  simp only [] at hacc
  have hnone : find_leaf_in (s1.nodeAt n).east k = none := by
    rw [heast]
    unfold leaves_under
    unfold find_leaf_linear at hnew
    cases hf : find_node_linear s p with
    | none => rfl
    | some n0 =>
      rw [hf] at hnew
      simp only [] at hnew ⊢
      cases hl : find_leaf_in (s.nodeAt n0).east k with
      | none => rfl
      | some i => rw [hl] at hnew; cases hnew
  obtain ⟨hst, hcc, hcase⟩ := put_leaf_writes cc k v (v.length % 2 ^ 16) hfind
  rcases hcase with ⟨i, l, hfi, _⟩ | ⟨_, hstore, hout⟩
  · rw [hnone] at hfi; cases hfi
  · refine ⟨_, n, new_leaf s1 n k v (v.length % 2 ^ 16), hacc, ?_, ?_, rfl, rfl, rfl,
      handle_put_pathList hacc hs, hcc, hst, hout⟩
    · rw [hstore, find_node_linear_setEast]
      exact hfind
    · rw [hstore, nodeAt_setEast_same _ (find_node_linear_lt hfind), heast]

/-- A PUT of a key that the path has a leaf for replaces the value of that
leaf where it stands. -/
theorem put_existing_key {s : Store} (hs : PathList s) (cc : Bool) {p k v : List Char}
    {n i : Nat} (hp : AbsPath p) (hpl : p.length ≤ 255) (hk : k ≠ []) (hke : '=' ∉ k)
    (hv : v.length % 2 ^ 16 ≠ 0) (hold : find_leaf_linear s p k = some (n, i)) :
    ∃ r l, handle_put s cc p (k ++ '=' :: v) = .ok r ∧
      find_node_linear s p = some n ∧ (s.nodeAt n).east[i]? = some l ∧ l.key = k ∧
      r.store = s.setEast n (fun e => e.set i
        { l with value := strncpy v (v.length % 2 ^ 16) ++ [NUL],
                 size := v.length % 2 ^ 16 }) ∧
      r.ccontinuation = cc ∧ r.status = 0 ∧
      r.out = "OK: Key '".toList ++ k ++ "' updated in path '".toList ++ p ++ "'.\n".toList := by
  have hn : find_node_linear s p = some n ∧ find_leaf_in (s.nodeAt n).east k = some i := by
    unfold find_leaf_linear at hold
    cases hf : find_node_linear s p with
    | none => rw [hf] at hold; cases hold
    | some n0 =>
      rw [hf] at hold
      simp only [] at hold
      cases hl : find_leaf_in (s.nodeAt n0).east k with
      | none => rw [hl] at hold; cases hold
      | some j =>
        rw [hl] at hold
        simp only [Option.map_some', Option.some.injEq, Prod.mk.injEq] at hold
        obtain ⟨e1, e2⟩ := hold
        subst e1
        subst e2
        exact ⟨rfl, hl⟩
  obtain ⟨s1, n1, hres, hfind, _, _, hsame⟩ := put_resolve_abs hs hp hpl
  obtain ⟨e1, e2⟩ := hsame n hn.1
  subst e1
  subst e2
  have hacc := handle_put_accepted s1 cc p k v (abs_path_ne_nil hp) hk hke hv
  rw [hres] at hacc
  simp only [] at hacc
  obtain ⟨hst, hcc, hcase⟩ := put_leaf_writes cc k v (v.length % 2 ^ 16) hfind
  rcases hcase with ⟨j, l, hfi, hget, hkey, hstore, hout⟩ | ⟨hnone, _⟩
  · rw [hn.2] at hfi
    cases hfi
    exact ⟨_, l, hacc, hn.1, hget, hkey, hstore, hcc, hst, hout⟩
  · rw [hn.2] at hnone; cases hnone

theorem map_key_set {e : List Leaf} {i : Nat} {l l' : Leaf} (h : e[i]? = some l)
    (hk : l'.key = l.key) : (e.set i l').map Leaf.key = e.map Leaf.key := by
  induction e generalizing i with
  | nil => rfl
  | cons a e ih =>
    cases i with
    | zero =>
      simp at h
      subst h
      simp [hk]
    | succ j =>
      simp only [List.set_cons_succ, List.map_cons, List.cons.injEq, true_and]
      exact ih (by simpa using h)

theorem handle_ls_found {s : Store} (cc : Bool) {p : List Char} (args : List Char) {n : Nat}
    (hp : p ≠ []) (hf : find_node_linear s p = some n) (he : (s.nodeAt n).east ≠ []) :
    handle_ls s cc p args =
      .ok { store := s, ccontinuation := cc,
            out := "Listing contents of '".toList ++ p ++ "':\n".toList ++
              ((s.nodeAt n).east.map ls_line).flatten,
            status := 0 } := by
  have h0 : ¬ p.length = 0 := by simpa using hp
  have hpath := find_node_linear_path hf
  simp [handle_ls, h0, hf, ls_leaves_eq, he, hpath]

/-! ### Append order of leaves -/

theorem find_leaf_linear_none {s : Store} {p k : List Char}
    (h : find_leaf_linear s p k = none) : find_leaf_in (leaves_under s p) k = none := by
  unfold leaves_under
  unfold find_leaf_linear at h
  cases hf : find_node_linear s p with
  | none => rfl
  | some n0 =>
    rw [hf] at h
    simp only [] at h ⊢
    cases hl : find_leaf_in (s.nodeAt n0).east k with
    | none => rfl
    | some i => rw [hl] at h; cases h

theorem find_leaf_linear_of {s : Store} {p k : List Char} {n : Nat} {o : Option Nat}
    (hf : find_node_linear s p = some n) (hl : find_leaf_in (s.nodeAt n).east k = o) :
    find_leaf_linear s p k = o.map (fun l => (n, l)) := by
  unfold find_leaf_linear
  rw [hf]
  simp only []
  rw [hl]

/-- Claim C11 (append order of leaves): take a reachable store, a well-formed
path `p` of at most 255 bytes, and two distinct keys of 1 to 127 bytes
without `=` that `p` has no leaf for, with values of 1 to 65535 bytes, none
of them NUL. After `PUT p k1=v1` and `PUT p k2=v2` the node of `p` holds the
leaves that were stored under `p` before, then a leaf for `k1`, then a leaf
for `k2`, and LS of `p` writes the heading, the lines of the earlier leaves
and then the lines of `k1` with `v1` and of `k2` with `v2`; a further PUT that
updates `k1` leaves the keys of the node in that order. In every reachable
store a PUT of a key that `p` has a leaf for replaces that leaf where it
stands, so that the keys of the node keep their order. -/
theorem leaves_keep_append_order (s : Store) (hs : Reachable s) (cc : Bool) (p : List Char)
    (hp : AbsPath p) (hpl : p.length ≤ 255) :
    (∀ k1 v1 k2 v2 args : List Char,
      k1 ≠ [] → '=' ∉ k1 → k1.length ≤ 127 → k2 ≠ [] → '=' ∉ k2 → k2.length ≤ 127 →
      k1 ≠ k2 → v1 ≠ [] → NUL ∉ v1 → v1.length < 2 ^ 16 →
      v2 ≠ [] → NUL ∉ v2 → v2.length < 2 ^ 16 →
      find_leaf_linear s p k1 = none → find_leaf_linear s p k2 = none →
      ∃ r1 r2 n l1 l2,
        handle_put s cc p (k1 ++ '=' :: v1) = .ok r1 ∧
        handle_put r1.store cc p (k2 ++ '=' :: v2) = .ok r2 ∧
        find_node_linear r2.store p = some n ∧
        (r2.store.nodeAt n).east = leaves_under s p ++ [l1, l2] ∧
        l1.key = k1 ∧ l1.value.take l1.size = v1 ∧
        l2.key = k2 ∧ l2.value.take l2.size = v2 ∧
        handle_ls r2.store cc p args =
          .ok { store := r2.store, ccontinuation := cc,
                out := "Listing contents of '".toList ++ p ++ "':\n".toList ++
                  ((leaves_under s p).map ls_line).flatten ++
                  ("  L: ".toList ++ k1 ++ " -> '".toList ++ v1 ++ "'\n".toList) ++
                  ("  L: ".toList ++ k2 ++ " -> '".toList ++ v2 ++ "'\n".toList),
                status := 0 } ∧
        (∀ v3 : List Char, v3.length % 2 ^ 16 ≠ 0 →
          ∃ r3, handle_put r2.store cc p (k1 ++ '=' :: v3) = .ok r3 ∧
            find_node_linear r3.store p = some n ∧
            (r3.store.nodeAt n).east.map Leaf.key =
              (leaves_under s p).map Leaf.key ++ [k1, k2])) ∧
    (∀ (k v : List Char) (n i : Nat),
      k ≠ [] → '=' ∉ k → v.length % 2 ^ 16 ≠ 0 → find_leaf_linear s p k = some (n, i) →
      ∃ r l,
        handle_put s cc p (k ++ '=' :: v) = .ok r ∧
        find_node_linear r.store p = some n ∧
        (s.nodeAt n).east[i]? = some l ∧
        (r.store.nodeAt n).east = (s.nodeAt n).east.set i
          { l with value := strncpy v (v.length % 2 ^ 16) ++ [NUL],
                   size := v.length % 2 ^ 16 } ∧
        (r.store.nodeAt n).east.map Leaf.key = (s.nodeAt n).east.map Leaf.key) := by
  have hpl0 := reachable_pathList hs
  have hupd : ∀ (s0 : Store), PathList s0 → ∀ (k v : List Char) (n i : Nat),
      k ≠ [] → '=' ∉ k → v.length % 2 ^ 16 ≠ 0 → find_leaf_linear s0 p k = some (n, i) →
      ∃ r l,
        handle_put s0 cc p (k ++ '=' :: v) = .ok r ∧
        find_node_linear r.store p = some n ∧
        (s0.nodeAt n).east[i]? = some l ∧
        (r.store.nodeAt n).east = (s0.nodeAt n).east.set i
          { l with value := strncpy v (v.length % 2 ^ 16) ++ [NUL],
                   size := v.length % 2 ^ 16 } ∧
        (r.store.nodeAt n).east.map Leaf.key = (s0.nodeAt n).east.map Leaf.key := by
    intro s0 hs0 k v n i hk hke hv hold
    obtain ⟨r, l, hput, hfind, hget, hkey, hstore, _, _, _⟩ :=
      put_existing_key hs0 cc hp hpl hk hke hv hold
    have hn := find_node_linear_lt hfind
    have heast : (r.store.nodeAt n).east = (s0.nodeAt n).east.set i
        { l with value := strncpy v (v.length % 2 ^ 16) ++ [NUL],
                 size := v.length % 2 ^ 16 } := by
      rw [hstore, nodeAt_setEast_same _ hn]
    refine ⟨r, l, hput, ?_, hget, heast, ?_⟩
    · rw [hstore, find_node_linear_setEast]
      exact hfind
    · rw [heast]
      exact map_key_set hget rfl
  refine ⟨?_, hupd s hpl0⟩
  intro k1 v1 k2 v2 args hk1 hke1 hkl1 hk2 hke2 hkl2 hne hv1 hn1 hvl1 hv2 hn2 hvl2 hnew1 hnew2
  have hm1 : v1.length % 2 ^ 16 = v1.length := Nat.mod_eq_of_lt hvl1
  have hm2 : v2.length % 2 ^ 16 = v2.length := Nat.mod_eq_of_lt hvl2
  have hv1' : v1.length % 2 ^ 16 ≠ 0 := by
    rw [hm1]
    exact fun e => hv1 (List.length_eq_zero.mp e)
  have hv2' : v2.length % 2 ^ 16 ≠ 0 := by
    rw [hm2]
    exact fun e => hv2 (List.length_eq_zero.mp e)
  obtain ⟨r1, n, l1, hput1, hfind1, heast1, hkey1, hval1, hsize1, hpl1, _, _, _⟩ :=
    put_new_key hpl0 cc hp hpl hk1 hke1 hv1' hnew1
  rw [List.take_of_length_le hkl1] at hkey1
  have hold1 := find_leaf_linear_none hnew1
  have hold2 := find_leaf_linear_none hnew2
  have hunder1 : leaves_under r1.store p = leaves_under s p ++ [l1] := by
    unfold leaves_under
    rw [hfind1]
    simp only []
    exact heast1
  have hnew2' : find_leaf_linear r1.store p k2 = none := by
    have := find_leaf_in_append_new l1 hold2
    rw [hkey1, if_neg hne] at this
    have h2 : find_leaf_in (r1.store.nodeAt n).east k2 = none := by rw [heast1]; exact this
    rw [find_leaf_linear_of hfind1 h2]
    rfl
  obtain ⟨r2, n', l2, hput2, hfind2, heast2, hkey2, hval2, hsize2, hpl2, _, _, _⟩ :=
    put_new_key hpl1 cc hp hpl hk2 hke2 hv2' hnew2'
  rw [List.take_of_length_le hkl2] at hkey2
  rw [hunder1, List.append_assoc] at heast2
  have heast2' : (r2.store.nodeAt n').east = leaves_under s p ++ [l1, l2] := heast2
  have ht1 : l1.value.take l1.size = v1 := by
    rw [hval1, hsize1, hm1, strncpy_exact hn1, List.take_of_length_le (le_refl _)]
  have ht2 : l2.value.take l2.size = v2 := by
    rw [hval2, hsize2, hm2, strncpy_exact hn2, List.take_of_length_le (le_refl _)]
  refine ⟨r1, r2, n', l1, l2, hput1, hput2, hfind2, heast2', hkey1, ht1, hkey2, ht2, ?_, ?_⟩
  · rw [handle_ls_found cc args (abs_path_ne_nil hp) hfind2 (by rw [heast2']; simp), heast2']
    simp [ls_line, hkey1, hkey2, ht1, ht2]
  · intro v3 hv3
    have hat : find_leaf_in (r2.store.nodeAt n').east k1 = some (leaves_under s p).length := by
      have h1 := find_leaf_in_append_new l1 hold1
      rw [hkey1, if_pos rfl] at h1
      have h2 := @find_leaf_in_append_left _ [l2] _ _ h1
      rw [heast2']
      simpa using h2
    have hold3 : find_leaf_linear r2.store p k1 = some (n', (leaves_under s p).length) := by
      rw [find_leaf_linear_of hfind2 hat]
      rfl
    obtain ⟨r3, l, hput3, hfind3, _, _, hkeys⟩ :=
      hupd r2.store hpl2 k1 v3 n' _ hk1 hke1 hv3 hold3
    refine ⟨r3, hput3, hfind3, ?_⟩
    rw [hkeys, heast2']
    simp [hkey1, hkey2]

theorem leaves_keep_append_order_witness :
    Reachable store_ab ∧ AbsPath "/a/b".toList ∧
    ∃ r1 r2,
      handle_put store_ab true "/a/b".toList "x=1".toList = .ok r1 ∧
      handle_put r1.store true "/a/b".toList "y=2".toList = .ok r2 ∧
      (handle_ls r2.store true "/a/b".toList []).map Result.out =
        .ok ("Listing contents of '/a/b':\n" ++
             "  L: k -> 'v'\n  L: x -> '1'\n  L: y -> '2'\n").toList := by
  obtain ⟨r1, r2, n, l1, l2, h1, h2, _, _, _, _, _, _, hls, _⟩ :=
    (leaves_keep_append_order store_ab reachable_store_ab true "/a/b".toList (by decide)
      (by decide)).1 "x".toList "1".toList "y".toList "2".toList []
      (by decide) (by decide) (by decide) (by decide) (by decide) (by decide) (by decide)
      (by decide) (by decide) (by decide) (by decide) (by decide) (by decide) (by decide)
      (by decide)
  refine ⟨reachable_store_ab, by decide, r1, r2, h1, h2, ?_⟩
  rw [hls]
  rfl

/-! ### Stored keys -/

theorem keysFit_setEast {s : Store} {n : Nat} {f : List Leaf → List Leaf} (h : KeysFit s)
    (hf : ∀ e : List Leaf, (∀ l ∈ e, l.key.length ≤ 127) →
      ∀ l ∈ f e, l.key.length ≤ 127) : KeysFit (s.setEast n f) := by
  intro nd hnd l hl
  rw [chain_setEast] at hnd
  rcases mem_modify hnd with hnd | ⟨b, hb, rfl⟩
  · exact h nd hnd l hl
  · exact hf b.east (h b hb) l hl

theorem keysFit_visit {st : Store × Nat} (p : List Char) (h : KeysFit st.1) :
    KeysFit (visit st p).1 := by
  unfold visit
  cases find_node_linear st.1 p with
  | some found => exact h
  | none =>
    intro nd hnd l hl
    simp only [] at hnd
    rw [chain_create_node, List.mem_append] at hnd
    rcases hnd with hnd | hnd
    · exact h nd (List.mem_of_mem_take hnd) l hl
    · rw [List.mem_singleton] at hnd
      subst hnd
      simp at hl

theorem keysFit_foldl (t : List (List Char)) (st : Store × Nat) (h : KeysFit st.1) :
    KeysFit (t.foldl visit st).1 := by
  induction t generalizing st with
  | nil => exact h
  | cons p t ih => exact ih _ (keysFit_visit p h)

theorem keysFit_handle_put {s : Store} {cc : Bool} {p kv : List Char} {r : Result}
    (hput : handle_put s cc p kv = .ok r) (h : KeysFit s) : KeysFit r.store := by
  rcases handle_put_ok hput with ⟨h1, _⟩ | ⟨t, k, v, c, ht, rfl⟩
  · rw [h1]; exact h
  · have hfind := foldl_visit_find t (s, 0) "/".toList (put_trail_length ht (by decide))
      (find_node_linear_root s)
    have hfit := keysFit_foldl t (s, 0) h
    have hn := find_node_linear_lt hfind
    obtain ⟨_, _, hw⟩ := put_leaf_writes cc k v c hfind
    rcases hw with ⟨i, l, _, hget, _, hstore, _⟩ | ⟨_, hstore, _⟩
    · rw [hstore]
      have hl : l.key.length ≤ 127 :=
        hfit _ (nodeAt_mem hn) l (List.mem_iff_getElem?.mpr ⟨i, hget⟩)
      apply keysFit_setEast hfit
      intro e he l' hl'
      rcases List.mem_or_eq_of_mem_set hl' with hl' | rfl
      · exact he l' hl'
      · exact hl
    · rw [hstore]
      apply keysFit_setEast hfit
      intro e he l' hl'
      rw [List.mem_append, List.mem_singleton] at hl'
      rcases hl' with hl' | rfl
      · exact he l' hl'
      · simp [new_leaf]

/-- In every reachable store a stored key has at most 127 bytes. -/
theorem reachable_keys_fit {s : Store} (h : Reachable s) : KeysFit s := by
  induction h with
  | init =>
    intro nd hnd l hl
    simp [init_store, Store.chain, Store.root] at hnd
    subst hnd
    simp at hl
  | step s bytes r _ _ _ hstep ih =>
    rcases childloop_step_store hstep with e | ⟨p, kv, r', hput, e⟩
    · rw [e]; exact ih
    · rw [e]; exact keysFit_handle_put hput ih

/-! ### The text of PRINT_TREE -/

theorem flatten_replicate_two (n : Nat) :
    (List.replicate n "  ".toList).flatten = List.replicate (2 * n) ' ' := by
  induction n with
  | zero => rfl
  | succ k ih =>
    rw [List.replicate_succ, List.flatten_cons, ih]
    have : 2 * (k + 1) = (2 * k + 1) + 1 := by ring
    rw [this, List.replicate_succ, List.replicate_succ]
    have e : "  ".toList = [' ', ' '] := rfl
    rw [e]
    simp only [List.cons_append, List.nil_append, List.cons.injEq, true_and]

theorem indent_ok {n : Nat} (h : n < 120) : indent n = .ok (List.replicate (2 * n) ' ') := by
  unfold indent
  by_cases h0 : n < 1
  · have : n = 0 := by omega
    subst this
    rfl
  · rw [if_neg h0, if_neg (by simpa using h), flatten_replicate_two]

theorem indent_fail {n : Nat} (h : 120 ≤ n) : indent n = .error Fault.assertion := by
  unfold indent
  rw [if_neg (by omega), if_pos (by omega)]

theorem Print_ok {x : List Char} (h : x.length < 256) : Print x = .ok x := by
  unfold Print
  rw [if_pos h]

theorem print_leaves_ok (i : Nat) (nd : Node) (e : List Leaf) (hi : i + 1 < 120)
    (hp : nd.path.length ≤ 255) (hk : ∀ l ∈ e, l.key.length ≤ 127) :
    print_leaves (i + 1) nd.path e = .ok (e.map (leaf_line i nd)).flatten := by
  induction e with
  | nil => rfl
  | cons l rest ih =>
    have h1 : (List.replicate (2 * (i + 1)) ' ').length < 256 := by
      rw [List.length_replicate]; omega
    have h2 : l.key.length < 256 := by
      have := hk l (List.mem_cons_self _ _); omega
    have h3 : nd.path.length < 256 := by omega
    rw [print_leaves, indent_ok hi]
    simp only [bind, Except.bind]
    rw [Print_ok h1, Print_ok h3, Print_ok h2, Print_ok (by decide : "/".toList.length < 256),
      Print_ok (by decide : " ->'".toList.length < 256),
      Print_ok (by decide : "'\n".toList.length < 256),
      ih (fun l hl => hk l (List.mem_cons_of_mem _ hl))]
    simp [leaf_line]

theorem print_leaves_fail (i : Nat) (path : List Char) (e : List Leaf) (hi : 120 ≤ i)
    (he : e ≠ []) : print_leaves i path e = .error Fault.assertion := by
  cases e with
  | nil => exact absurd rfl he
  | cons l rest =>
    rw [print_leaves, indent_fail hi]
    rfl

theorem print_nodes_ok (chain : List Node) (i : Nat)
    (hp : ∀ nd ∈ chain, nd.path.length ≤ 255)
    (hk : ∀ nd ∈ chain, ∀ l ∈ nd.east, l.key.length ≤ 127)
    (hfit : ∀ j nd, chain[j]? = some nd → i + j < 120 ∧ (nd.east ≠ [] → i + j + 1 < 120)) :
    print_nodes i chain = .ok (tree_text i chain) := by
  induction chain generalizing i with
  | nil => rfl
  | cons nd rest ih =>
    have h0 : i < 120 ∧ (nd.east ≠ [] → i + 1 < 120) := hfit 0 nd (by simp)
    have h1 : (List.replicate (2 * i) ' ').length < 256 := by
      rw [List.length_replicate]; omega
    have h3 : nd.path.length < 256 := by
      have := hp nd (List.mem_cons_self _ _); omega
    have hm : (i + 1) % 256 = i + 1 := Nat.mod_eq_of_lt (by omega)
    have hl : print_leaves (i + 1) nd.path nd.east = .ok (nd.east.map (leaf_line i nd)).flatten := by
      by_cases he : nd.east = []
      · rw [he]; rfl
      · exact print_leaves_ok i nd nd.east (h0.2 he) (hp nd (List.mem_cons_self _ _))
          (hk nd (List.mem_cons_self _ _))
    have hrest := ih (i + 1) (fun n hn => hp n (List.mem_cons_of_mem _ hn))
      (fun n hn => hk n (List.mem_cons_of_mem _ hn))
      (fun j n hj => by
        have := hfit (j + 1) n (by simpa using hj)
        constructor
        · omega
        · intro hne; have := this.2 hne; omega)
    rw [print_nodes, indent_ok h0.1]
    simp only [bind, Except.bind]
    rw [Print_ok h1, Print_ok h3, Print_ok (by decide : "\n".toList.length < 256), hm, hl, hrest]
    simp [tree_text, node_line]

theorem print_nodes_fail (chain : List Node) (i : Nat) (hi : i ≤ 120)
    (hp : ∀ nd ∈ chain, nd.path.length ≤ 255)
    (hk : ∀ nd ∈ chain, ∀ l ∈ nd.east, l.key.length ≤ 127)
    (hnot : ∃ j nd, chain[j]? = some nd ∧ (120 ≤ i + j ∨ (nd.east ≠ [] ∧ 120 ≤ i + j + 1))) :
    print_nodes i chain = .error Fault.assertion := by
  induction chain generalizing i with
  | nil =>
    obtain ⟨j, nd, hj, _⟩ := hnot
    simp at hj
  | cons nd rest ih =>
    by_cases h120 : i = 120
    · rw [print_nodes, indent_fail (by omega)]
      rfl
    · have hlt : i < 120 := by omega
      have h1 : (List.replicate (2 * i) ' ').length < 256 := by
        rw [List.length_replicate]; omega
      have h3 : nd.path.length < 256 := by
        have := hp nd (List.mem_cons_self _ _); omega
      have hm : (i + 1) % 256 = i + 1 := Nat.mod_eq_of_lt (by omega)
      rw [print_nodes, indent_ok hlt]
      simp only [bind, Except.bind]
      rw [Print_ok h1, Print_ok h3, Print_ok (by decide : "\n".toList.length < 256), hm]
      simp only []
      by_cases hbad : nd.east ≠ [] ∧ 120 ≤ i + 1
      · rw [print_leaves_fail (i + 1) nd.path nd.east hbad.2 hbad.1]
      · have hl : print_leaves (i + 1) nd.path nd.east =
            .ok (nd.east.map (leaf_line i nd)).flatten := by
          by_cases he : nd.east = []
          · rw [he]; rfl
          · exact print_leaves_ok i nd nd.east (by
              by_contra hc
              exact hbad ⟨he, by omega⟩) (hp nd (List.mem_cons_self _ _))
              (hk nd (List.mem_cons_self _ _))
        have hrest := ih (i + 1) (by omega) (fun n hn => hp n (List.mem_cons_of_mem _ hn))
          (fun n hn => hk n (List.mem_cons_of_mem _ hn)) (by
            obtain ⟨j, n, hj, hor⟩ := hnot
            cases j with
            | zero =>
              exfalso
              simp only [List.getElem?_cons_zero, Option.some.injEq] at hj
              subst hj
              rcases hor with h | h
              · omega
              · exact hbad ⟨h.1, by omega⟩
            | succ j' =>
              refine ⟨j', n, by simpa using hj, ?_⟩
              rcases hor with h | h
              · left; omega
              · right; exact ⟨h.1, by omega⟩)
        rw [hl, hrest]

theorem chain_paths_short {s : Store} (h : PathList s) : ∀ nd ∈ s.chain, nd.path.length ≤ 255 := by
  intro nd hnd
  have hm : nd.path ∈ s.chain.map Node.path := List.mem_map_of_mem Node.path hnd
  rw [chain_paths, List.mem_cons] at hm
  rcases hm with e | hm
  · rw [e]; decide
  · exact h.2 _ hm

/-- PRINT_TREE on a store with short paths and keys: the text when the chain stays
inside what `indent` accepts, the failed assertion when it does not. -/
theorem print_tree_cases {s : Store} (hp : PathList s) (hk : KeysFit s) :
    (PrintFits s → print_tree_forward_leaves s = .ok (tree_text 0 s.chain)) ∧
    (¬ PrintFits s → print_tree_forward_leaves s = .error Fault.assertion) := by
  constructor
  · intro hfit
    apply print_nodes_ok s.chain 0 (chain_paths_short hp) hk
    intro j nd hj
    have := hfit j nd hj
    constructor
    · omega
    · intro hne; have := this.2 hne; omega
  · intro hnot
    apply print_nodes_fail s.chain 0 (by omega) (chain_paths_short hp) hk
    unfold PrintFits at hnot
    push_neg at hnot
    obtain ⟨j, nd, hj, hor⟩ := hnot
    refine ⟨j, nd, hj, ?_⟩
    by_cases h : j < 120
    · obtain ⟨hne, hge⟩ := hor h
      right
      exact ⟨hne, by omega⟩
    · left; omega

/-- The output of PRINT_TREE inside the bound of `indent`: for every reachable store whose
chain stays inside what `indent` accepts (every node at a position below 120,
every node with leaves at a position below 119), `print_tree_forward_leaves`
completes and writes, for the node at position `i` of the chain, one line of
`2*i` spaces and the node's path, followed for each leaf of the node, in chain
order, by one line of `2*(i+1)` spaces, the node's path, `/`, the key, ` ->'`,
the `size` value bytes and `'`. For every other reachable store it stops at
the assertion of `indent` and does not complete. The value bytes written for
a leaf are `size` many. -/
theorem print_tree_within_indent (s : Store) (hs : Reachable s) :
    (PrintFits s → print_tree_forward_leaves s = .ok (tree_text 0 s.chain)) ∧
    (¬ PrintFits s → print_tree_forward_leaves s = .error Fault.assertion) ∧
    (∀ nd ∈ s.chain, ∀ l ∈ nd.east, (l.value.take l.size).length = l.size) := by
  obtain ⟨h1, h2⟩ := print_tree_cases (reachable_pathList hs) (reachable_keys_fit hs)
  refine ⟨h1, h2, ?_⟩
  intro nd hnd l hl
  rw [List.length_take]
  have := reachable_sizes_fit hs nd hnd l hl
  omega

theorem print_tree_within_indent_witness :
    Reachable store_ab ∧ PrintFits store_ab ∧
    print_tree_forward_leaves store_ab =
      .ok "/\n  /a\n    /a/b\n      /a/b/k ->'v'\n".toList := by
  have h := (print_tree_within_indent store_ab reachable_store_ab).1 (by decide)
  refine ⟨reachable_store_ab, by decide, ?_⟩
  rw [h]
  decide

/-! ### A chain of 121 nodes -/

set_option maxRecDepth 100000 in
theorem deep_request_fields :
    parse_request (cstr deep_request) = ("PUT".toList, deep_path, "k=v".toList) := by
  decide

set_option maxRecDepth 100000 in
set_option maxHeartbeats 2000000 in
theorem deep_trail_length :
    (put_trail (walk_start deep_path).length "/".toList (walk_start deep_path)).map List.length
      = .ok 120 := by
  decide

theorem pathList_init : PathList init_store :=
  ⟨List.Chain.nil, by simp [init_store]⟩

/-- A round of the loop for a PUT request that `handle_put` serves. -/
theorem step_put {s : Store} {bytes p kv : List Char} {r : Result}
    (hf : parse_request (cstr bytes) = ("PUT".toList, p, kv))
    (hput : handle_put s true p kv = .ok r) :
    childloop_step s bytes =
      .ok { store := r.store, ccontinuation := r.ccontinuation, out := r.out ++ "> ".toList } := by
  have hg : getcmd "PUT".toList = some handle_put := rfl
  unfold childloop_step
  simp only [hf]
  rw [if_neg (by decide), hg]
  simp only [hput]

set_option maxRecDepth 100000 in
theorem deep_put :
    ∃ r n, handle_put init_store true deep_path "k=v".toList = .ok r ∧
      find_node_linear r.store deep_path = some n ∧ PathList r.store := by
  obtain ⟨r, n, l, hput, hfind, _, _, _, _, hpl, _, _, _⟩ :=
    @put_new_key init_store pathList_init true deep_path "k".toList "v".toList
      (by decide) (by decide) (by decide) (by decide) (by decide) (by decide)
  exact ⟨r, n, hput, hfind, hpl⟩

/-- The request for the deep path is served, and the path resolves afterwards. -/
theorem deep_step :
    ∃ r n, childloop_step init_store deep_request = .ok r ∧
      find_node_linear r.store deep_path = some n ∧ PathList r.store := by
  obtain ⟨r, n, hput, hfind, hpl⟩ := deep_put
  exact ⟨_, n, step_put deep_request_fields hput, hfind, hpl⟩

theorem store_after_eq {s : Store} {bytes : List Char} {r : Round}
    (h : childloop_step s bytes = .ok r) : store_after s bytes = r.store := by
  unfold store_after
  rw [h]

theorem deep_store_eq :
    ∃ r n, childloop_step init_store deep_request = .ok r ∧ deep_store = r.store ∧
      find_node_linear deep_store deep_path = some n ∧ PathList deep_store := by
  obtain ⟨r, n, hstep, hfind, hpl⟩ := deep_step
  have e : deep_store = r.store := store_after_eq hstep
  exact ⟨r, n, hstep, e, e ▸ hfind, e ▸ hpl⟩

set_option maxRecDepth 100000 in
theorem reachable_deep_store : Reachable deep_store := by
  obtain ⟨r, n, hstep, e, _, _⟩ := deep_store_eq
  rw [e]
  exact Reachable.step init_store deep_request r Reachable.init (by decide) (by decide) hstep

/-- A path that resolves stands behind as many nodes as its walk has segments. -/
theorem chain_long_of_trail {s : Store} {p : List Char} {n k : Nat} (hpl : PathList s)
    (hp : AbsPath p) (hfind : find_node_linear s p = some n)
    (ht : (put_trail (walk_start p).length "/".toList (walk_start p)).map List.length = .ok k) :
    k + 1 ≤ s.chain.length := by
  obtain ⟨htrail, _⟩ := resolved_trail_eq hpl hp hfind
  rw [htrail] at ht
  simp only [Except.map, Except.ok.injEq, List.length_take, List.length_map] at ht
  simp only [Store.chain, List.length_cons]
  omega

theorem not_fits_of_long {s : Store} (hlen : 121 ≤ s.chain.length) : ¬ PrintFits s := by
  intro h
  cases hc : s.chain[120]? with
  | none =>
    have := List.getElem?_eq_none_iff.mp hc
    omega
  | some nd =>
    have := (h 120 nd hc).1
    omega

set_option maxRecDepth 100000 in
/-- The chain of the deep store has a node at position 120. -/
theorem deep_store_long : 121 ≤ deep_store.chain.length := by
  obtain ⟨r, n, _, _, hfind, hpl⟩ := deep_store_eq
  exact chain_long_of_trail hpl (by decide) hfind deep_trail_length

theorem deep_store_not_fits : ¬ PrintFits deep_store :=
  not_fits_of_long deep_store_long

theorem deep_store_print : print_tree_forward_leaves deep_store = .error Fault.assertion :=
  (print_tree_cases (reachable_pathList reachable_deep_store)
    (reachable_keys_fit reachable_deep_store)).2 deep_store_not_fits

set_option maxRecDepth 100000 in
/-- Claim C12 (PRINT_TREE output) fails in the code on a reachable store: after
the 249-byte request that stores a leaf under a path of 120 segments the chain
has 121 nodes, and `print_tree_forward_leaves` fails `assert(n<120)` in
`indent` instead of printing the whole tree. -/
theorem print_tree_aborts_on_deep_chain :
    Reachable deep_store ∧ deep_request.length = 249 ∧
      print_tree_forward_leaves deep_store = .error Fault.assertion ∧
      ¬ ∃ out, print_tree_forward_leaves deep_store = .ok out := by
  refine ⟨reachable_deep_store, by decide, deep_store_print, ?_⟩
  rintro ⟨out, h⟩
  rw [deep_store_print] at h
  cases h

/-! ### One round of the command loop -/

theorem scan_word_length {w : Nat} {input f rest : List Char}
    (h : scan_word w input = some (f, rest)) : f.length ≤ w ∧ f ≠ [] := by
  unfold scan_word at h
  simp only [] at h
  split at h
  · cases h
  · rename_i hne
    simp only [Option.some.injEq, Prod.mk.injEq] at h
    rw [← h.1]
    exact ⟨by rw [List.length_take]; omega, hne⟩

theorem parse_request_folder_short (buf : List Char) : (parse_request buf).2.1.length ≤ 255 := by
  unfold parse_request
  cases h1 : scan_word 255 buf with
  | none => simp
  | some x =>
    obtain ⟨cmd, rest1⟩ := x
    simp only []
    cases h2 : scan_word 255 (rest1.dropWhile isspace) with
    | none => simp
    | some y =>
      obtain ⟨folder, rest2⟩ := y
      have := (scan_word_length h2).1
      simp only []
      cases h3 : scan_line 255 (rest2.dropWhile isspace) with
      | none => simpa using this
      | some z => simpa using this

/-- The command field is empty exactly for a request of white space only. -/
theorem parse_request_blank (buf : List Char) :
    (parse_request buf).1 = [] ↔ ∀ c ∈ buf, isspace c = true := by
  have hkey : (parse_request buf).1 = [] ↔ scan_word 255 buf = none := by
    unfold parse_request
    cases h1 : scan_word 255 buf with
    | none => simp
    | some x =>
      obtain ⟨cmd, rest1⟩ := x
      have hne := (scan_word_length h1).2
      simp only []
      cases h2 : scan_word 255 (rest1.dropWhile isspace) with
      | none => simpa using hne
      | some y =>
        obtain ⟨folder, rest2⟩ := y
        simp only []
        cases h3 : scan_line 255 (rest2.dropWhile isspace) with
        | none => simpa using hne
        | some z => simpa using hne
  rw [hkey]
  unfold scan_word
  simp only []
  constructor
  · intro h
    split at h
    · rename_i hf
      have h1 : (buf.dropWhile isspace).takeWhile (fun c => !isspace c) = [] := by
        cases hx : (buf.dropWhile isspace).takeWhile (fun c => !isspace c) with
        | nil => rfl
        | cons a l => rw [hx] at hf; simp at hf
      have h2 := takeWhile_not_dropWhile_nil isspace buf h1
      intro c hc
      by_contra hcn
      have : buf.dropWhile isspace ≠ [] := by
        rw [Ne, List.dropWhile_eq_nil_iff]
        intro hall
        exact hcn (hall c hc)
      exact this h2
    · cases h
  · intro hall
    have h2 : buf.dropWhile isspace = [] := List.dropWhile_eq_nil_iff.mpr hall
    rw [h2]
    simp

theorem handle_put_total (s : Store) (cc : Bool) (p kv : List Char) (hp : p.length ≤ 255) :
    ∃ r, handle_put s cc p kv = .ok r := by
  obtain ⟨t, s1, n, _, hres, _, _⟩ := put_resolve_ok s hp
  unfold handle_put
  split
  · exact ⟨_, rfl⟩
  · split
    · exact ⟨_, rfl⟩
    · simp only []
      split
      · exact ⟨_, rfl⟩
      · rw [hres]
        exact ⟨_, rfl⟩

theorem handle_cd_total (s : Store) (cc : Bool) (a b : List Char) :
    ∃ r, handle_cd s cc a b = .ok r := by
  unfold handle_cd
  split
  · exact ⟨_, rfl⟩
  · split <;> exact ⟨_, rfl⟩

theorem handle_ls_total (s : Store) (cc : Bool) (a b : List Char) :
    ∃ r, handle_ls s cc a b = .ok r := by
  unfold handle_ls
  simp only []
  split <;> exact ⟨_, rfl⟩

/-- The handler that `getcmd` returns, by command name. -/
theorem getcmd_named {cmd : List Char} {h : Callback} (hc : getcmd cmd = some h) :
    (cmd = "hello".toList ∧ h = handle_hello) ∨ (cmd = "GET".toList ∧ h = handle_get) ∨
    (cmd = "PUT".toList ∧ h = handle_put) ∨ (cmd = "CD".toList ∧ h = handle_cd) ∨
    (cmd = "LS".toList ∧ h = handle_ls) ∨ (cmd = "QUIT".toList ∧ h = handle_quit) ∨
    (cmd = "PRINT_TREE".toList ∧ h = handle_print_tree) := by
  simp only [getcmd, handlers, getcmd_in] at hc
  repeat' split at hc
  all_goals (cases hc <;> simp_all)

/-- A round of the loop whose handler returns. -/
theorem step_ok {s : Store} {bytes : List Char} {h : Callback} {r : Result}
    (hne : (parse_request (cstr bytes)).1 ≠ [])
    (hc : getcmd (parse_request (cstr bytes)).1 = some h)
    (hr : h s true (parse_request (cstr bytes)).2.1 (parse_request (cstr bytes)).2.2 = .ok r) :
    childloop_step s bytes =
      .ok { store := r.store, ccontinuation := r.ccontinuation, out := r.out ++ "> ".toList } := by
  unfold childloop_step
  simp only []
  rw [if_neg (by simpa using hne), hc]
  simp only [hr]

/-- A round of the loop whose handler does not return. -/
theorem step_error {s : Store} {bytes : List Char} {h : Callback} {f : Fault}
    (hne : (parse_request (cstr bytes)).1 ≠ [])
    (hc : getcmd (parse_request (cstr bytes)).1 = some h)
    (hr : h s true (parse_request (cstr bytes)).2.1 (parse_request (cstr bytes)).2.2 =
      .error f) :
    childloop_step s bytes = .error f := by
  unfold childloop_step
  simp only []
  rw [if_neg (by simpa using hne), hc]
  simp only [hr]

theorem step_unknown {s : Store} {bytes : List Char}
    (hne : (parse_request (cstr bytes)).1 ≠ [])
    (hc : getcmd (parse_request (cstr bytes)).1 = none) :
    childloop_step s bytes =
      .ok { store := s, ccontinuation := true,
            out := "ERROR: Unknown command '".toList ++ (parse_request (cstr bytes)).1 ++
              "'. Type QUIT to exit.\n".toList ++ "> ".toList } := by
  unfold childloop_step
  simp only []
  rw [if_neg (by simpa using hne), hc]

theorem step_blank {s : Store} {bytes : List Char}
    (he : (parse_request (cstr bytes)).1 = []) :
    childloop_step s bytes =
      .ok { store := s, ccontinuation := true,
            out := "ERROR: Please enter a command.\n> ".toList } := by
  unfold childloop_step
  simp only []
  rw [if_pos (by simp [he])]

/-- A round of the loop that returns ends its output with the prompt. -/
theorem step_prompt {s : Store} {bytes : List Char} {r : Round}
    (h : childloop_step s bytes = .ok r) : ∃ body, r.out = body ++ "> ".toList := by
  unfold childloop_step at h
  simp only [] at h
  split at h
  · cases h
    exact ⟨"ERROR: Please enter a command.\n".toList, rfl⟩
  · split at h
    · split at h
      · cases h
      · cases h
        exact ⟨_, rfl⟩
    · cases h
      exact ⟨_, rfl⟩

/-- A round of the loop returns for every command but GET and PRINT_TREE. -/
theorem step_returns (s : Store) {bytes : List Char}
    (hg : (parse_request (cstr bytes)).1 ≠ "GET".toList)
    (hp : (parse_request (cstr bytes)).1 ≠ "PRINT_TREE".toList) :
    ∃ r, childloop_step s bytes = .ok r := by
  by_cases hne : (parse_request (cstr bytes)).1 = []
  · exact ⟨_, step_blank hne⟩
  · cases hc : getcmd (parse_request (cstr bytes)).1 with
    | none => exact ⟨_, step_unknown hne hc⟩
    | some h =>
      have hret : ∃ r, h s true (parse_request (cstr bytes)).2.1
          (parse_request (cstr bytes)).2.2 = .ok r := by
        rcases getcmd_named hc with ⟨_, e⟩ | ⟨e, _⟩ | ⟨_, e⟩ | ⟨_, e⟩ | ⟨_, e⟩ | ⟨_, e⟩ | ⟨e, _⟩
        · subst e; exact ⟨_, rfl⟩
        · exact absurd e hg
        · subst e; exact handle_put_total s true _ _ (parse_request_folder_short _)
        · subst e; exact handle_cd_total s true _ _
        · subst e; exact handle_ls_total s true _ _
        · subst e; exact ⟨_, rfl⟩
        · exact absurd e hp
      obtain ⟨r, hr⟩ := hret
      exact ⟨_, step_ok hne hc hr⟩

theorem step_print_tree_ok {s : Store} {bytes tree : List Char}
    (hp : (parse_request (cstr bytes)).1 = "PRINT_TREE".toList)
    (ht : print_tree_forward_leaves s = .ok tree) :
    childloop_step s bytes =
      .ok { store := s, ccontinuation := true,
            out := "Server: Printing entire tree to your client (debug output)...\n".toList ++
              tree ++ "Server: Tree print complete.\n".toList ++ "> ".toList } := by
  have hne : (parse_request (cstr bytes)).1 ≠ [] := by rw [hp]; decide
  have hc : getcmd (parse_request (cstr bytes)).1 = some handle_print_tree := by rw [hp]; rfl
  have hr : handle_print_tree s true (parse_request (cstr bytes)).2.1
      (parse_request (cstr bytes)).2.2 =
        .ok { store := s, ccontinuation := true,
              out := "Server: Printing entire tree to your client (debug output)...\n".toList ++
                tree ++ "Server: Tree print complete.\n".toList,
              status := 0 } := by
    unfold handle_print_tree
    rw [ht]
  exact step_ok hne hc hr

theorem step_print_tree_error {s : Store} {bytes : List Char} {f : Fault}
    (hp : (parse_request (cstr bytes)).1 = "PRINT_TREE".toList)
    (ht : print_tree_forward_leaves s = .error f) :
    childloop_step s bytes = .error f := by
  have hne : (parse_request (cstr bytes)).1 ≠ [] := by rw [hp]; decide
  have hc : getcmd (parse_request (cstr bytes)).1 = some handle_print_tree := by rw [hp]; rfl
  have hr : handle_print_tree s true (parse_request (cstr bytes)).2.1
      (parse_request (cstr bytes)).2.2 = .error f := by
    unfold handle_print_tree
    rw [ht]
  exact step_error hne hc hr

theorem step_get {s : Store} {bytes : List Char}
    (hp : (parse_request (cstr bytes)).1 = "GET".toList) :
    childloop_step s bytes = .error Fault.out_of_bounds ∨ ∃ r, childloop_step s bytes = .ok r := by
  have hne : (parse_request (cstr bytes)).1 ≠ [] := by rw [hp]; decide
  have hc : getcmd (parse_request (cstr bytes)).1 = some handle_get := by rw [hp]; rfl
  rcases handle_get_cases s true (parse_request (cstr bytes)).2.1
    (parse_request (cstr bytes)).2.2 with h | ⟨r, h⟩
  · exact Or.inl (step_error hne hc h)
  · exact Or.inr ⟨_, step_ok hne hc h⟩

/-! ### Prompt after dispatch -/

/-- Claim C15 (prompt after every dispatch) fails in the code for a request with
a non-empty command: on the reachable store with a chain of 121 nodes the
request `PRINT_TREE` fails the assertion of `indent` inside the handler, so
the round does not return and no prompt is written behind the handler's
output. -/
theorem print_tree_round_writes_no_prompt :
    Reachable deep_store ∧
      (parse_request (cstr "PRINT_TREE\n".toList)).1 = "PRINT_TREE".toList ∧
      childloop_step deep_store "PRINT_TREE\n".toList = .error Fault.assertion ∧
      ¬ ∃ r, childloop_step deep_store "PRINT_TREE\n".toList = .ok r := by
  have hstep : childloop_step deep_store "PRINT_TREE\n".toList = .error Fault.assertion :=
    step_print_tree_error (by decide) deep_store_print
  refine ⟨reachable_deep_store, by decide, hstep, ?_⟩
  rintro ⟨r, h⟩
  rw [hstep] at h
  cases h

/-- The prompt after a dispatch that returns: the command
field is empty exactly for a request of white space only, and then the round
of the loop calls no handler, leaves the store and writes exactly
`ERROR: Please enter a command.` and the prompt. For a non-empty command
field, every round that returns has written bytes that end with the prompt
`> `, whatever the status of the handler; an unknown command writes the
unknown-command line and the prompt. The round returns for every command
except `GET`, which returns unless it reads past a value buffer, and
`PRINT_TREE`, which on a reachable store returns exactly when the chain stays
inside what `indent` accepts. -/
theorem prompt_after_dispatch (s : Store) (bytes : List Char) :
    ((parse_request (cstr bytes)).1 = [] ↔ ∀ c ∈ cstr bytes, isspace c = true) ∧
    ((parse_request (cstr bytes)).1 = [] →
      childloop_step s bytes =
        .ok { store := s, ccontinuation := true,
              out := "ERROR: Please enter a command.\n> ".toList }) ∧
    (∀ r, childloop_step s bytes = .ok r → ∃ body, r.out = body ++ "> ".toList) ∧
    ((parse_request (cstr bytes)).1 ≠ [] → getcmd (parse_request (cstr bytes)).1 = none →
      childloop_step s bytes =
        .ok { store := s, ccontinuation := true,
              out := "ERROR: Unknown command '".toList ++ (parse_request (cstr bytes)).1 ++
                "'. Type QUIT to exit.\n".toList ++ "> ".toList }) ∧
    ((parse_request (cstr bytes)).1 ≠ "GET".toList →
      (parse_request (cstr bytes)).1 ≠ "PRINT_TREE".toList →
      ∃ r, childloop_step s bytes = .ok r) ∧
    ((parse_request (cstr bytes)).1 = "GET".toList →
      childloop_step s bytes = .error Fault.out_of_bounds ∨
        ∃ r, childloop_step s bytes = .ok r) ∧
    ((parse_request (cstr bytes)).1 = "PRINT_TREE".toList → Reachable s →
      ((PrintFits s → ∃ r, childloop_step s bytes = .ok r) ∧
       (¬ PrintFits s → childloop_step s bytes = .error Fault.assertion))) := by
  refine ⟨parse_request_blank _, fun he => step_blank he, fun r h => step_prompt h,
    fun hne hc => step_unknown hne hc, fun hg hp => step_returns s hg hp,
    fun hg => step_get hg, ?_⟩
  intro hp hs
  obtain ⟨h1, h2⟩ := print_tree_cases (reachable_pathList hs) (reachable_keys_fit hs)
  exact ⟨fun hfit => ⟨_, step_print_tree_ok hp (h1 hfit)⟩,
    fun hnot => step_print_tree_error hp (h2 hnot)⟩

/-! ### Termination of the connection loop -/

theorem handle_put_flag {s : Store} {cc : Bool} {p kv : List Char} {r : Result}
    (h : handle_put s cc p kv = .ok r) : r.ccontinuation = cc := by
  unfold handle_put at h
  split at h
  · cases h; rfl
  · split at h
    · cases h; rfl
    · simp only [] at h
      split at h
      · cases h; rfl
      · split at h
        · cases h
        · cases h
          unfold put_leaf
          simp only []
          split <;> rfl

theorem handle_cd_flag {s : Store} {cc : Bool} {a b : List Char} {r : Result}
    (h : handle_cd s cc a b = .ok r) : r.ccontinuation = cc := by
  unfold handle_cd at h
  split at h
  · cases h; rfl
  · split at h <;> (cases h; rfl)

theorem handle_ls_flag {s : Store} {cc : Bool} {a b : List Char} {r : Result}
    (h : handle_ls s cc a b = .ok r) : r.ccontinuation = cc := by
  unfold handle_ls at h
  simp only [] at h
  split at h <;> (cases h; rfl)

theorem handle_print_tree_flag {s : Store} {cc : Bool} {a b : List Char} {r : Result}
    (h : handle_print_tree s cc a b = .ok r) : r.ccontinuation = cc := by
  unfold handle_print_tree at h
  split at h
  · cases h
  · cases h; rfl

/-- Only QUIT clears the flag of the loop. -/
theorem step_flag {s : Store} {bytes : List Char} {r : Round}
    (hq : (parse_request (cstr bytes)).1 ≠ "QUIT".toList)
    (h : childloop_step s bytes = .ok r) : r.ccontinuation = true := by
  unfold childloop_step at h
  simp only [] at h
  split at h
  · cases h; rfl
  · split at h
    · rename_i hf hc
      split at h
      · cases h
      · rename_i r' hr
        cases h
        simp only []
        rcases getcmd_named hc with ⟨_, e⟩ | ⟨_, e⟩ | ⟨_, e⟩ | ⟨_, e⟩ | ⟨_, e⟩ | ⟨e, _⟩ | ⟨_, e⟩
        · subst e; cases hr; rfl
        · subst e; exact (handle_get_store hr).2
        · subst e; exact handle_put_flag hr
        · subst e; exact handle_cd_flag hr
        · subst e; exact handle_ls_flag hr
        · exact absurd e hq
        · subst e; exact handle_print_tree_flag hr
    · cases h; rfl

theorem step_quit {s : Store} {bytes : List Char}
    (hq : (parse_request (cstr bytes)).1 = "QUIT".toList) :
    childloop_step s bytes =
      .ok { store := s, ccontinuation := false,
            out := "Server: Goodbye!\n".toList ++ "> ".toList } := by
  have hne : (parse_request (cstr bytes)).1 ≠ [] := by rw [hq]; decide
  have hc : getcmd (parse_request (cstr bytes)).1 = some handle_quit := by rw [hq]; rfl
  exact step_ok hne hc rfl

theorem run_stop {s : Store} {rd : ReadResult} {r : Round} (rest : List ReadResult)
    (h : childloop_round s rd = .ok r) (hf : r.ccontinuation = false) :
    childloop_run s (rd :: rest) = .ok r := by
  rw [childloop_run, h]
  simp only [hf]
  rfl

theorem run_go {s : Store} {rd : ReadResult} {r r2 : Round} {rest : List ReadResult}
    (h : childloop_round s rd = .ok r) (hf : r.ccontinuation = true)
    (h2 : childloop_run r.store rest = .ok r2) :
    childloop_run s (rd :: rest) =
      .ok { store := r2.store, ccontinuation := r2.ccontinuation, out := r.out ++ r2.out } := by
  rw [childloop_run, h]
  simp only [hf, h2]
  rfl

theorem round_data (s : Store) (bytes : List Char) :
    childloop_round s (.data bytes) = childloop_step s bytes := rfl

theorem run_error {s : Store} {rd : ReadResult} {f : Fault} (rest : List ReadResult)
    (h : childloop_round s rd = .error f) : childloop_run s (rd :: rest) = .error f := by
  rw [childloop_run, h]

theorem run_eintr (s : Store) (rest : List ReadResult) :
    childloop_run s (.eintr :: rest) = childloop_run s rest := by
  rw [childloop_run]
  simp only [childloop_round, if_true, List.nil_append]
  cases childloop_run s rest with
  | error f => rfl
  | ok r2 => rfl

/-- Claim C16 (termination of the connection loop) fails in the code for a
request other than QUIT: on the reachable store with a chain of 121 nodes a
round for the request `PRINT_TREE` fails the assertion of `indent`; the loop
is not left running, whatever is read afterwards. -/
theorem print_tree_round_ends_loop :
    Reachable deep_store ∧
      (parse_request (cstr "PRINT_TREE\n".toList)).1 ≠ "QUIT".toList ∧
      childloop_round deep_store (.data "PRINT_TREE\n".toList) = .error Fault.assertion ∧
      ∀ rest, childloop_run deep_store (.data "PRINT_TREE\n".toList :: rest) =
        .error Fault.assertion := by
  have hstep : childloop_round deep_store (.data "PRINT_TREE\n".toList) =
      .error Fault.assertion :=
    (round_data _ _).trans (step_print_tree_error (by decide) deep_store_print)
  exact ⟨reachable_deep_store, by decide, hstep, fun rest => run_error rest hstep⟩

/-- The rounds of the connection loop: a read that
returns 0 bytes or fails with an error other than EINTR ends the loop with no
byte written and the store untouched, and nothing read later is served; a read
that fails with EINTR writes nothing, changes nothing, and the loop goes on
with the next read; a request whose command is `QUIT` writes
`Server: Goodbye!` and the prompt and ends the loop; every round for another
request that returns leaves the flag set, and the loop goes on with the next
read on the store of that round. The round returns for every command except
`GET` (which may read past a value buffer) and `PRINT_TREE` (which may stop at
the assertion of `indent`). -/
theorem loop_ends_on_eof_error_quit (s : Store) :
    (∀ rest,
      childloop_round s .eof = .ok { store := s, ccontinuation := false, out := [] } ∧
      childloop_run s (.eof :: rest) = .ok { store := s, ccontinuation := false, out := [] }) ∧
    (∀ rest,
      childloop_round s .failed = .ok { store := s, ccontinuation := false, out := [] } ∧
      childloop_run s (.failed :: rest) =
        .ok { store := s, ccontinuation := false, out := [] }) ∧
    (∀ rest,
      childloop_round s .eintr = .ok { store := s, ccontinuation := true, out := [] } ∧
      childloop_run s (.eintr :: rest) = childloop_run s rest) ∧
    (∀ bytes rest, (parse_request (cstr bytes)).1 = "QUIT".toList →
      childloop_round s (.data bytes) =
        .ok { store := s, ccontinuation := false,
              out := "Server: Goodbye!\n".toList ++ "> ".toList } ∧
      childloop_run s (.data bytes :: rest) =
        .ok { store := s, ccontinuation := false,
              out := "Server: Goodbye!\n".toList ++ "> ".toList }) ∧
    (∀ bytes r, (parse_request (cstr bytes)).1 ≠ "QUIT".toList →
      childloop_round s (.data bytes) = .ok r →
      r.ccontinuation = true ∧
      ∀ rest r2, childloop_run r.store rest = .ok r2 →
        childloop_run s (.data bytes :: rest) =
          .ok { store := r2.store, ccontinuation := r2.ccontinuation,
                out := r.out ++ r2.out }) ∧
    (∀ bytes, (parse_request (cstr bytes)).1 ≠ "QUIT".toList →
      (parse_request (cstr bytes)).1 ≠ "GET".toList →
      (parse_request (cstr bytes)).1 ≠ "PRINT_TREE".toList →
      ∃ r, childloop_round s (.data bytes) = .ok r ∧ r.ccontinuation = true) := by
  refine ⟨fun rest => ⟨rfl, run_stop rest rfl rfl⟩, fun rest => ⟨rfl, run_stop rest rfl rfl⟩,
    fun rest => ⟨rfl, run_eintr s rest⟩, ?_, ?_, ?_⟩
  · intro bytes rest hq
    have h : childloop_round s (.data bytes) =
        .ok { store := s, ccontinuation := false,
              out := "Server: Goodbye!\n".toList ++ "> ".toList } :=
      (round_data s bytes).trans (step_quit hq)
    exact ⟨h, run_stop rest h rfl⟩
  · intro bytes r hq h
    have hf : r.ccontinuation = true := step_flag hq ((round_data s bytes).symm.trans h)
    exact ⟨hf, fun rest r2 h2 => run_go h hf h2⟩
  · intro bytes hq hg hp
    obtain ⟨r, hr⟩ := step_returns s hg hp
    exact ⟨r, (round_data s bytes).trans hr, step_flag hq hr⟩

/-! ### Isolation by connection -/

theorem step_acceptor (sv : Server) (e : Event) : (sv.step e).acceptor = sv.acceptor := by
  cases e <;> rfl

theorem foldl_step_acceptor (evs : List Event) (sv : Server) :
    (evs.foldl Server.step sv).acceptor = sv.acceptor := by
  induction evs generalizing sv with
  | nil => rfl
  | cons e evs ih => rw [List.foldl_cons, ih, step_acceptor]

theorem run_acceptor (evs : List Event) : (Server.run evs).acceptor = init_store :=
  foldl_step_acceptor evs server_start

theorem lookup_linear_init (p k : List Char) : lookup_linear init_store p k = none := by
  unfold lookup_linear find_leaf_linear
  cases h : find_node_linear init_store p with
  | none => rfl
  | some n =>
    have hn := find_node_linear_lt h
    have h0 : n = 0 := by
      simp [Store.chain, init_store] at hn
      exact hn
    subst h0
    rfl

theorem handle_get_init {p k : List Char} (hp : p ≠ []) (hk : k ≠ []) :
    handle_get init_store true p k =
      .ok { store := init_store, ccontinuation := true,
            out := "ERROR: Key '".toList ++ k ++ "' not found in path '".toList ++ p ++
              "'.\n".toList,
            status := 0 } := by
  unfold handle_get
  rw [if_neg (by simp [hp, hk]), lookup_linear_init]

/-- Claim C19 (isolation by connection): whatever has happened on the server,
the store of the accepting process is the initial store; a `read` served on
one connection changes neither that store nor any other connection; a
connection accepted now starts on a copy of the initial store; and a GET with
a path and a key on such a fresh connection writes the not-found line and the
prompt, whatever was PUT on other connections before. -/
theorem connections_are_isolated (evs : List Event) :
    (Server.run evs).acceptor = init_store ∧
    (∀ i rd, ((Server.run evs).step (.read i rd)).acceptor = init_store ∧
      ∀ j, j ≠ i →
        ((Server.run evs).step (.read i rd)).connections[j]? =
          (Server.run evs).connections[j]?) ∧
    (Server.run (evs ++ [Event.accept])).connections =
      (Server.run evs).connections ++ [Connection.fresh init_store] ∧
    (∀ bytes p k, parse_request (cstr bytes) = ("GET".toList, p, k) → p ≠ [] → k ≠ [] →
      (Connection.fresh init_store).serve (.data bytes) =
        { store := init_store, running := true,
          out := greeting ++ ("ERROR: Key '".toList ++ k ++ "' not found in path '".toList ++
            p ++ "'.\n".toList ++ "> ".toList) }) := by
  refine ⟨run_acceptor evs, ?_, ?_, ?_⟩
  · intro i rd
    refine ⟨by rw [step_acceptor, run_acceptor], ?_⟩
    intro j hj
    have hij : ¬ i = j := fun e => hj e.symm
    simp only [Server.step, List.getElem?_modify, hij, if_false]
    cases (Server.run evs).connections[j]? <;> rfl
  · simp only [Server.run, List.foldl_append, List.foldl_cons, List.foldl_nil, Server.step,
      mainloop]
    rw [foldl_step_acceptor]
    rfl
  · intro bytes p k hf hp hk
    have hne : (parse_request (cstr bytes)).1 ≠ [] := by
      rw [hf]; exact List.cons_ne_nil _ _
    have hc : getcmd (parse_request (cstr bytes)).1 = some handle_get := by rw [hf]; rfl
    have hr : handle_get init_store true (parse_request (cstr bytes)).2.1
        (parse_request (cstr bytes)).2.2 =
          .ok { store := init_store, ccontinuation := true,
                out := "ERROR: Key '".toList ++ k ++ "' not found in path '".toList ++ p ++
                  "'.\n".toList,
                status := 0 } := by
      rw [hf]
      exact handle_get_init hp hk
    have hstep := step_ok hne hc hr
    unfold Connection.serve Connection.fresh
    simp only [if_true, round_data, hstep]

set_option maxRecDepth 100000 in
/-- The session of the specification: `PUT /a/b k=v1` on connection A, then a
connection B is accepted and asks `GET /a/b k`. A holds the leaf, B is told
that the key is not found, the accepting process holds the initial store. -/
theorem isolation_session :
    Server.run [Event.accept, Event.read 0 (.data "PUT /a/b k=v1\n".toList), Event.accept,
        Event.read 1 (.data "GET /a/b k\n".toList)] =
      { acceptor := init_store,
        connections :=
          [ { store := (store_after init_store "PUT /a/b k=v1\n".toList), running := true,
              out := greeting ++ "OK: Key 'k' created in path '/a/b'.\n> ".toList },
            { store := init_store, running := true,
              out := greeting ++ "ERROR: Key 'k' not found in path '/a/b'.\n> ".toList } ] } ∧
    lookup_linear (store_after init_store "PUT /a/b k=v1\n".toList) "/a/b".toList "k".toList =
      some "v1".toList := by
  decide

/-! ### `create_node` -/

theorem create_node_get_le {s : Store} {parent i : Nat} (path : List Char)
    (hparent : parent < s.chain.length) (hi : i ≤ parent) :
    (create_node s parent path).1.chain[i]? = s.chain[i]? := by
  rw [chain_create_node, List.getElem?_append_left (by rw [List.length_take]; omega),
    List.getElem?_take]
  rw [if_pos (by omega)]

theorem create_node_get_new {s : Store} {parent : Nat} (path : List Char)
    (hparent : parent < s.chain.length) :
    (create_node s parent path).1.chain[parent + 1]? =
      some { tag := TagNode, north := parent, east := [], path := path.take 255 } := by
  rw [chain_create_node, List.getElem?_append_right (by rw [List.length_take]; omega)]
  have : parent + 1 - (List.take (parent + 1) s.chain).length = 0 := by
    rw [List.length_take]; omega
  rw [this]
  rfl

set_option maxRecDepth 100000 in
/-- Claim C21 as stated fails for a path of more than 255 bytes: the new node
stores the first 255 bytes of a 256-byte path, not the given path. -/
theorem create_node_cuts_long_path :
    ((create_node init_store 0 (List.replicate 256 'a')).1.nodeAt 1).path =
        List.replicate 255 'a' ∧
      ¬ ((create_node init_store 0 (List.replicate 256 'a')).1.nodeAt 1).path =
        List.replicate 256 'a' := by
  decide

/-- Claim C21, amended (`create_node` overwrites the forward link): for every
store, every node `parent` of its chain and every path, after
`create_node(parent, path)` the node behind `parent` is the new node, which is
returned, has `parent` as north, the first 255 bytes of the path (the path
itself when it has at most 255 bytes) as stored path, no leaves and no node
behind it; `parent` and the nodes before it are as they were, leaves
included; and `find_node_linear` returns only these nodes or the new one, so a
path that only nodes formerly behind `parent` held is not found, unless it is
the stored path of the new node. -/
theorem create_node_overwrites_forward_link (s : Store) (parent : Nat) (path : List Char)
    (hparent : parent < s.chain.length) :
    (create_node s parent path).2 = parent + 1 ∧
    (create_node s parent path).1.chain[parent + 1]? =
      some { tag := TagNode, north := parent, east := [], path := path.take 255 } ∧
    (path.length ≤ 255 → ((create_node s parent path).1.nodeAt (parent + 1)).path = path) ∧
    (create_node s parent path).1.chain.length = parent + 2 ∧
    (∀ i, i ≤ parent → (create_node s parent path).1.chain[i]? = s.chain[i]?) ∧
    (∀ q i, find_node_linear (create_node s parent path).1 q = some i → i ≤ parent + 1) ∧
    (∀ q, q ≠ path.take 255 → q ∉ (s.chain.take (parent + 1)).map Node.path →
      find_node_linear (create_node s parent path).1 q = none) := by
  have hnew := create_node_get_new path hparent
  have hlen := chain_length_create_node path hparent
  refine ⟨rfl, hnew, ?_, hlen, fun i hi => create_node_get_le path hparent hi, ?_, ?_⟩
  · intro hp
    rw [nodeAt_eq hnew]
    exact List.take_of_length_le hp
  · intro q i hq
    have := find_node_linear_lt hq
    omega
  · intro q hq hnot
    unfold find_node_linear
    rw [find_node_in_none, chain_create_node]
    simp only [List.map_append, List.map_cons, List.map_nil, List.mem_append,
      List.mem_singleton, not_or]
    exact ⟨hnot, hq⟩

/-- Claim C21 on the store with `/a`, `/a/b`, `/a/b/c`: a node `/a/c` created
under `/a` takes the place of `/a/b`, and `/a/b` and `/a/b/c` are not found
any more. -/
theorem create_node_overwrites_forward_link_witness :
    1 < store_abc.chain.length ∧
    find_node_linear store_abc "/a/b/c".toList = some 3 ∧
    find_node_linear (create_node store_abc 1 "/a/c".toList).1 "/a/b/c".toList = none ∧
    find_node_linear (create_node store_abc 1 "/a/c".toList).1 "/a/b".toList = none :=
  ⟨by decide, by decide,
    (create_node_overwrites_forward_link store_abc 1 "/a/c".toList (by decide)).2.2.2.2.2.2
      "/a/b/c".toList (by decide) (by decide),
    by decide⟩

/-! ### `create_leaf` -/

/-- The pointer that `create_leaf` returns is the position behind the leaves
that were there. -/
theorem create_leaf_ptr (s : Store) (n : Nat) (k v : List Char) (c : Nat) :
    (create_leaf s n k v c).2 = (n, (s.nodeAt n).east.length) := by
  unfold create_leaf
  simp only []
  cases hl : find_last_linear s n with
  | none =>
    have he : (s.nodeAt n).east = [] := find_last_in_none hl
    simp [he]
  | some i =>
    have he : i + 1 = (s.nodeAt n).east.length := find_last_in_some hl
    simp [he]

/-- After `create_leaf` the node holds its earlier leaves and then the new one. -/
theorem create_leaf_east (s : Store) (n : Nat) (k v : List Char) (c : Nat)
    (hn : n < s.chain.length) :
    ((create_leaf s n k v c).1.nodeAt n).east = (s.nodeAt n).east ++ [new_leaf s n k v c] := by
  rw [create_leaf_eq s n k v c hn, nodeAt_setEast_same _ hn]

/-- `strncpy` of `c` bytes that hold no NUL copies them as they are. -/
theorem strncpy_take {v : List Char} {c : Nat} (hc : c ≤ v.length) (hnul : NUL ∉ v.take c) :
    strncpy v c = v.take c := by
  have key : ∀ (v : List Char) (c : Nat), c ≤ v.length → NUL ∉ v.take c →
      (cstr v).take c = v.take c ∧ c ≤ (cstr v).length := by
    intro v
    induction v with
    | nil =>
      intro c hc _
      have : c = 0 := by simpa using hc
      subst this
      exact ⟨rfl, Nat.le_refl _⟩
    | cons a v ih =>
      intro c hc hnul
      cases c with
      | zero => exact ⟨rfl, Nat.zero_le _⟩
      | succ c =>
        have ha : a ≠ NUL := fun e => hnul (by simp [e])
        have hrest : NUL ∉ v.take c := fun e => hnul (by simp [e])
        obtain ⟨h1, h2⟩ := ih c (by simpa using hc) hrest
        have hcs : cstr (a :: v) = a :: cstr v := by simp [cstr, ha]
        rw [hcs]
        exact ⟨by simp [h1], by simpa using h2⟩
  obtain ⟨h1, h2⟩ := key v c hc hnul
  unfold strncpy
  rw [h1, Nat.sub_eq_zero_of_le h2]
  simp

/-- What `create_leaf` does to the leaf chain of the node: the new leaf stands
behind the leaves that were there, refers back to the last of them or to the
node, has `size = count`, and holds the bytes that `strncpy` copies, which
are the `count` bytes given when none of them is NUL. -/
theorem create_leaf_appends (s : Store) (n : Nat) (k v : List Char) (c : Nat)
    (hn : n < s.chain.length) :
    ((create_leaf s n k v c).1.nodeAt n).east = (s.nodeAt n).east ++ [new_leaf s n k v c] ∧
    (new_leaf s n k v c).west =
      (if (s.nodeAt n).east = [] then TreePtr.node n
       else TreePtr.leaf n ((s.nodeAt n).east.length - 1)) ∧
    (new_leaf s n k v c).key = k.take 127 ∧
    (new_leaf s n k v c).size = c ∧
    (new_leaf s n k v c).value = strncpy v c ∧
    (c ≤ v.length → NUL ∉ v.take c → (new_leaf s n k v c).value = v.take c) := by
  refine ⟨create_leaf_east s n k v c hn, ?_, rfl, rfl, rfl, fun hc hnul => strncpy_take hc hnul⟩
  unfold new_leaf
  simp only []
  cases hl : find_last_linear s n with
  | none =>
    have he : (s.nodeAt n).east = [] := find_last_in_none hl
    simp [he]
  | some i =>
    have he : i + 1 = (s.nodeAt n).east.length := find_last_in_some hl
    have hne : (s.nodeAt n).east ≠ [] := by
      intro e
      rw [e] at he
      simp at he
    simp only [if_neg hne]
    congr 1
    omega

theorem create_leaf_at (s : Store) (n : Nat) (k v : List Char) (c : Nat)
    (hn : n < s.chain.length) :
    (create_leaf s n k v c).1.leafAt (create_leaf s n k v c).2 = some (new_leaf s n k v c) := by
  rw [create_leaf_ptr]
  unfold Store.leafAt
  simp only []
  rw [create_leaf_east s n k v c hn]
  simp

theorem keysFit_create_leaf {s : Store} (n : Nat) (k v : List Char) (c : Nat)
    (hn : n < s.chain.length) (h : KeysFit s) : KeysFit (create_leaf s n k v c).1 := by
  rw [create_leaf_eq s n k v c hn]
  apply keysFit_setEast h
  intro e he l hl
  rw [List.mem_append, List.mem_singleton] at hl
  rcases hl with hl | rfl
  · exact he l hl
  · simp [new_leaf]

theorem keysFit_init : KeysFit init_store := by
  intro nd hnd l hl
  simp [init_store, Store.chain, Store.root] at hnd
  subst hnd
  simp at hl

theorem find_leaf_linear_some {s : Store} {p k : List Char} {n i : Nat}
    (h : find_leaf_linear s p k = some (n, i)) :
    find_node_linear s p = some n ∧ find_leaf_in (s.nodeAt n).east k = some i := by
  unfold find_leaf_linear at h
  cases hf : find_node_linear s p with
  | none => rw [hf] at h; cases h
  | some n0 =>
    rw [hf] at h
    simp only [] at h
    cases hl : find_leaf_in (s.nodeAt n0).east k with
    | none => rw [hl] at h; cases h
    | some j =>
      rw [hl] at h
      simp only [Option.map_some', Option.some.injEq, Prod.mk.injEq] at h
      obtain ⟨e1, e2⟩ := h
      subst e1
      subst e2
      exact ⟨rfl, hl⟩

/-- Claim C24 (bounded-length truncation): the leaf that `create_leaf` makes
and returns stores the first `min(length(key), 127)` bytes of the key, and
the node that `create_node` makes and returns stores the first
`min(length(path), 255)` bytes of the path; so for a key of more than 127
bytes `find_leaf_linear` with the full key, under whatever path, does not
return the new leaf right after `create_leaf`, and returns no leaf at all in
a store whose stored keys have at most 127 bytes. -/
theorem stored_key_and_path_are_cut (s : Store) (n : Nat) (key value path : List Char)
    (count : Nat) (hn : n < s.chain.length) :
    (∃ l, (create_leaf s n key value count).1.leafAt (create_leaf s n key value count).2 =
        some l ∧ l.key = key.take 127 ∧ l.key.length = min key.length 127) ∧
    (∃ nd, (create_node s n path).1.chain[(create_node s n path).2]? = some nd ∧
        nd.path = path.take 255 ∧ nd.path.length = min path.length 255) ∧
    (127 < key.length → ∀ p,
      find_leaf_linear (create_leaf s n key value count).1 p key ≠
        some (create_leaf s n key value count).2) ∧
    (127 < key.length → KeysFit s → ∀ p,
      find_leaf_linear (create_leaf s n key value count).1 p key = none) := by
  refine ⟨⟨new_leaf s n key value count, create_leaf_at s n key value count hn, rfl, ?_⟩,
    ⟨_, create_node_get_new path hn, rfl, ?_⟩, ?_, ?_⟩
  · simp only [new_leaf, List.length_take]
    exact Nat.min_comm _ _
  · simp only [List.length_take]
    exact Nat.min_comm _ _
  · intro hlong p hfound
    rw [create_leaf_ptr] at hfound
    obtain ⟨_, hl⟩ := find_leaf_linear_some hfound
    obtain ⟨l, hget, hkey⟩ := find_leaf_in_some hl
    rw [create_leaf_east s n key value count hn] at hget
    simp only [List.getElem?_concat_length, Option.some.injEq] at hget
    subst hget
    have := congrArg List.length hkey
    simp only [new_leaf, List.length_take] at this
    omega
  · intro hlong hfit p
    cases hf : find_leaf_linear (create_leaf s n key value count).1 p key with
    | none => rfl
    | some ptr =>
      exfalso
      obtain ⟨m, i⟩ := ptr
      obtain ⟨hnode, hl⟩ := find_leaf_linear_some hf
      obtain ⟨l, hget, hkey⟩ := find_leaf_in_some hl
      have hfit' := keysFit_create_leaf n key value count hn hfit
      have := hfit' _ (nodeAt_mem (find_node_linear_lt hnode)) l
        (List.mem_iff_getElem?.mpr ⟨i, hget⟩)
      rw [hkey] at this
      omega

set_option maxRecDepth 100000 in
/-- Claim C24 at a key of 128 bytes on the initial store: 127 bytes are
stored, and the full key finds nothing under `/`. -/
theorem stored_key_and_path_are_cut_witness :
    0 < init_store.chain.length ∧
    ((create_leaf init_store 0 long_key "x".toList 1).1.nodeAt 0).east.map Leaf.key =
      [cut_key] ∧
    find_leaf_linear (create_leaf init_store 0 long_key "x".toList 1).1 "/".toList long_key =
      none :=
  ⟨by decide, by decide,
    (stored_key_and_path_are_cut init_store 0 long_key "x".toList [] 1 (by decide)).2.2.2
      (by decide) keysFit_init "/".toList⟩

set_option maxRecDepth 100000 in
/-- Claim C23 as stated fails for a value buffer with a zero byte among its
`count` bytes: of the three bytes `a`, NUL, `b` the new leaf holds `a`, NUL,
NUL with `size` 3, because the copy is made with `strncpy`, as for a C
string; the chain, the back-reference and the size are as the claim says. -/
theorem create_leaf_stops_at_nul :
    ((create_leaf init_store 0 "k".toList ['a', NUL, 'b'] 3).1.nodeAt 0).east =
      [{ tag := TagLeaf, west := TreePtr.node 0, key := "k".toList,
         value := ['a', NUL, NUL], size := 3 }] ∧
    ¬ ((create_leaf init_store 0 "k".toList ['a', NUL, 'b'] 3).1.nodeAt 0).east.map
        (fun l => l.value.take l.size) = [['a', NUL, 'b']] :=
  ⟨by decide, by decide⟩

/-! ### The assertion of `indent` -/

theorem indent_calls_bound (chain : List Node) (i : Nat) (h : i + chain.length ≤ 119) :
    ∀ n ∈ indent_calls i chain, n < 120 := by
  induction chain generalizing i with
  | nil => intro n hn; simp [indent_calls] at hn
  | cons nd rest ih =>
    simp only [List.length_cons] at h
    have hm : (i + 1) % 256 = i + 1 := Nat.mod_eq_of_lt (by omega)
    intro n hn
    simp only [indent_calls, hm, List.mem_cons, List.mem_append, List.mem_map] at hn
    rcases hn with (rfl | ⟨l, _, rfl⟩) | hn
    · omega
    · omega
    · exact ih (i + 1) (by omega) n hn

theorem Print_cases (x : List Char) :
    Print x = .ok x ∨ Print x = .error Fault.out_of_bounds := by
  unfold Print
  split
  · exact Or.inl rfl
  · exact Or.inr rfl

theorem print_leaves_no_assert (i : Nat) (path : List Char) (e : List Leaf) (hi : i < 120) :
    print_leaves i path e ≠ .error Fault.assertion := by
  induction e with
  | nil => intro h; cases h
  | cons l rest ih =>
    rw [print_leaves, indent_ok hi]
    simp only [bind, Except.bind]
    rcases Print_cases (List.replicate (2 * i) ' ') with h | h <;> rw [h] <;> simp only []
    · rcases Print_cases path with h | h <;> rw [h] <;> simp only []
      · rcases Print_cases "/".toList with h | h <;> rw [h] <;> simp only []
        · rcases Print_cases l.key with h | h <;> rw [h] <;> simp only []
          · rcases Print_cases " ->'".toList with h | h <;> rw [h] <;> simp only []
            · rcases Print_cases "'\n".toList with h | h <;> rw [h] <;> simp only []
              · cases hr : print_leaves i path rest with
                | error f =>
                  simp only []
                  intro hf
                  cases hf
                  exact ih hr
                | ok more => simp
              · simp
            · simp
          · simp
        · simp
      · simp
    · simp

theorem print_nodes_no_assert (chain : List Node) (i : Nat) (h : i + chain.length ≤ 119) :
    print_nodes i chain ≠ .error Fault.assertion := by
  induction chain generalizing i with
  | nil => intro h; cases h
  | cons nd rest ih =>
    simp only [List.length_cons] at h
    have hm : (i + 1) % 256 = i + 1 := Nat.mod_eq_of_lt (by omega)
    rw [print_nodes, indent_ok (by omega), hm]
    simp only [bind, Except.bind]
    rcases Print_cases (List.replicate (2 * i) ' ') with h | h <;> rw [h] <;> simp only []
    · rcases Print_cases nd.path with h | h <;> rw [h] <;> simp only []
      · rcases Print_cases "\n".toList with h | h <;> rw [h] <;> simp only []
        · cases hl : print_leaves (i + 1) nd.path nd.east with
          | error f =>
            simp only []
            intro hf
            cases hf
            exact print_leaves_no_assert (i + 1) nd.path nd.east (by omega) hl
          | ok leaves =>
            simp only []
            cases hr : print_nodes (i + 1) rest with
            | error f =>
              simp only []
              intro hf
              cases hf
              exact ih (i + 1) (by omega) hr
            | ok more => simp
        · simp
      · simp
    · simp

/-- Claim C26 (validity of the assertion in `indent`): for every store whose
chain from root has at most 119 nodes, every argument that
`print_tree_forward_leaves` calls `indent` with is below 120, and `indent`
returns exactly twice that many spaces for it; the function does not stop at
the assertion, and when stored paths have at most 255 bytes and stored keys at
most 127, as the fields of the node and leaf records with their terminator
allow, it completes with the text of the tree. -/
theorem print_tree_assertion_holds (s : Store) (h : s.chain.length ≤ 119) :
    (∀ n ∈ indent_calls 0 s.chain, n < 120 ∧ indent n = .ok (List.replicate (2 * n) ' ')) ∧
    print_tree_forward_leaves s ≠ .error Fault.assertion ∧
    ((∀ nd ∈ s.chain, nd.path.length ≤ 255) → KeysFit s →
      print_tree_forward_leaves s = .ok (tree_text 0 s.chain)) := by
  refine ⟨?_, print_nodes_no_assert s.chain 0 (by omega), ?_⟩
  · intro n hn
    have := indent_calls_bound s.chain 0 (by omega) n hn
    exact ⟨this, indent_ok this⟩
  · intro hp hk
    apply print_nodes_ok s.chain 0 hp hk
    intro j nd hj
    have hlt : j < s.chain.length := by
      by_contra hc
      rw [List.getElem?_eq_none (by omega)] at hj
      cases hj
    constructor
    · omega
    · intro _; omega

/-- Claim C26 on the store with `/a` and `/a/b` and one leaf: `indent` is called
with 0, 1, 2 and, for the leaf, 3. -/
theorem print_tree_assertion_holds_witness :
    store_ab.chain.length ≤ 119 ∧ indent_calls 0 store_ab.chain = [0, 1, 2, 3] ∧
    print_tree_forward_leaves store_ab ≠ .error Fault.assertion :=
  ⟨by decide, by decide, (print_tree_assertion_holds store_ab (by decide)).2.1⟩

/-! ### The chain of a reachable store -/

theorem northChain_setEast {s : Store} (n : Nat) (f : List Leaf → List Leaf)
    (h : NorthChain s) : NorthChain (s.setEast n f) := by
  intro i nd hnd
  rw [chain_setEast, List.getElem?_modify] at hnd
  cases hc : s.chain[i + 1]? with
  | none => rw [hc] at hnd; cases hnd
  | some nd0 =>
    rw [hc] at hnd
    simp only [Option.map_eq_map, Option.map_some', Option.some.injEq] at hnd
    have := h i nd0 hc
    rw [← hnd]
    split <;> exact this

theorem northChain_visit {st : Store × Nat} (p : List Char) (h : NorthChain st.1)
    (hcur : st.2 < st.1.chain.length) : NorthChain (visit st p).1 := by
  unfold visit
  cases hf : find_node_linear st.1 p with
  | some found => exact h
  | none =>
    intro i nd hnd
    simp only [] at hnd
    by_cases hi : i + 1 ≤ st.2
    · rw [create_node_get_le p hcur hi] at hnd
      exact h i nd hnd
    · have hlen := chain_length_create_node p hcur
      have hlt : i + 1 < (create_node st.1 st.2 p).1.chain.length := by
        by_contra hc
        rw [List.getElem?_eq_none (by omega)] at hnd
        cases hnd
      have hi2 : i = st.2 := by omega
      subst hi2
      rw [create_node_get_new p hcur] at hnd
      cases hnd
      rfl

theorem northChain_foldl (t : List (List Char)) (st : Store × Nat) (p0 : List Char)
    (ht : ∀ p ∈ t, p.length ≤ 255) (h : NorthChain st.1)
    (hfind : find_node_linear st.1 p0 = some st.2) : NorthChain (t.foldl visit st).1 := by
  induction t generalizing st p0 with
  | nil => exact h
  | cons p t ih =>
    rw [List.foldl_cons]
    have hcur := find_node_linear_lt hfind
    exact ih (visit st p) p (fun q hq => ht q (List.mem_cons_of_mem _ hq))
      (northChain_visit p h hcur) (visit_find (ht p (List.mem_cons_self _ _)) hcur)

theorem northChain_handle_put {s : Store} {cc : Bool} {p kv : List Char} {r : Result}
    (hput : handle_put s cc p kv = .ok r) (h : NorthChain s) : NorthChain r.store := by
  rcases handle_put_ok hput with ⟨h1, _⟩ | ⟨t, k, v, c, ht, rfl⟩
  · rw [h1]; exact h
  · have hfind := foldl_visit_find t (s, 0) "/".toList (put_trail_length ht (by decide))
      (find_node_linear_root s)
    have hn := northChain_foldl t (s, 0) "/".toList (put_trail_length ht (by decide)) h
      (find_node_linear_root s)
    obtain ⟨_, _, hw⟩ := put_leaf_writes cc k v c hfind
    rcases hw with ⟨i, l, _, _, _, hstore, _⟩ | ⟨_, hstore, _⟩
    · rw [hstore]; exact northChain_setEast _ _ hn
    · rw [hstore]; exact northChain_setEast _ _ hn

theorem reachable_northChain {s : Store} (h : Reachable s) : NorthChain s := by
  induction h with
  | init =>
    intro i nd hnd
    simp [init_store, Store.chain] at hnd
  | step s bytes r _ _ _ hstep ih =>
    rcases childloop_step_store hstep with e | ⟨p, kv, r', hput, e⟩
    · rw [e]; exact ih
    · rw [e]; exact northChain_handle_put hput ih

/-- An element of a chain stands in the relation to the element before it. -/
theorem chain_get_rel {α : Type} {R : α → α → Prop} {a y : α} {l : List α} {i : Nat}
    (h : List.Chain R a l) (hy : l[i]? = some y) : ∃ x, (a :: l)[i]? = some x ∧ R x y := by
  induction l generalizing a i with
  | nil => simp at hy
  | cons b l ih =>
    cases h with
    | cons hab hl =>
      cases i with
      | zero =>
        simp only [List.getElem?_cons_zero, Option.some.injEq] at hy
        subst hy
        exact ⟨a, rfl, hab⟩
      | succ j =>
        obtain ⟨x, hx, hr⟩ := ih hl (by simpa using hy)
        exact ⟨x, by simpa using hx, hr⟩

/-- Every path behind a path of more than one byte in a path list continues it
with a separator. -/
theorem chain_below {a : List Char} {l : List (List Char)} (h : List.Chain Ext a l)
    (ha : 1 < a.length) : ∀ y ∈ l, ∃ rest, y = a ++ '/' :: rest := by
  induction l generalizing a with
  | nil => intro y hy; simp at hy
  | cons b l ih =>
    cases h with
    | cons hab hl =>
      obtain ⟨seg, _, e, hlen⟩ := hab
      rw [with_slash_long ha] at e
      intro y hy
      rcases List.mem_cons.mp hy with rfl | hy
      · exact ⟨seg, by rw [e]; simp⟩
      · obtain ⟨rest, hr⟩ := ih hl hlen y hy
        exact ⟨seg ++ '/' :: rest, by rw [hr, e]; simp⟩

theorem chain_descends {a x y : List Char} {l : List (List Char)} {i j : Nat}
    (h : List.Chain Ext a l) (hx : l[i]? = some x) (hy : l[j]? = some y) (hij : i < j) :
    ∃ rest, y = x ++ '/' :: rest := by
  induction l generalizing a i j with
  | nil => simp at hx
  | cons b l ih =>
    cases h with
    | cons hab hl =>
      cases j with
      | zero => omega
      | succ j' =>
        cases i with
        | zero =>
          simp only [List.getElem?_cons_zero, Option.some.injEq] at hx
          subst hx
          exact chain_below hl (ext_long hab) y
            (List.mem_iff_getElem?.mpr ⟨j', by simpa using hy⟩)
        | succ i' =>
          exact ih hl (by simpa using hx) (by simpa using hy) (by omega)

/-- A path list holds no two paths that continue the same path by different segments. -/
theorem no_siblings {a0 : List Char} {l : List (List Char)} (h : List.Chain Ext a0 l)
    {a s1 s2 : List Char} (h1 : '/' ∉ s1) (h2 : '/' ∉ s2)
    (hx : a ++ "/".toList ++ s1 ∈ l) (hy : a ++ "/".toList ++ s2 ∈ l) : s1 = s2 := by
  obtain ⟨i, hi⟩ := List.mem_iff_getElem?.mp hx
  obtain ⟨j, hj⟩ := List.mem_iff_getElem?.mp hy
  rcases Nat.lt_trichotomy i j with hij | hij | hij
  · exfalso
    obtain ⟨rest, hr⟩ := chain_descends h hi hj hij
    rw [List.append_assoc, List.append_assoc, List.append_assoc] at hr
    have := List.append_cancel_left (List.append_cancel_left hr)
    exact h2 (by rw [this]; simp)
  · subst hij
    rw [hi] at hj
    exact List.append_cancel_left (Option.some.inj hj)
  · exfalso
    obtain ⟨rest, hr⟩ := chain_descends h hj hi hij
    rw [List.append_assoc, List.append_assoc, List.append_assoc] at hr
    have := List.append_cancel_left (List.append_cancel_left hr)
    exact h1 (by rw [this]; simp)

/-- Claim C22 (path-list invariant): in every reachable store, the node at
position `i + 1` of the chain from root has the node at position `i` as its
north, and its stored path is that node's stored path extended by one
segment, a run of bytes without `/` that may be empty: `/` and the segment
behind root, the path, `/` and the segment behind any other node. No two
nodes behind root hold sibling paths, that is, paths that continue the same
text with `/` and different segments. -/
theorem reachable_chain_is_path_list (s : Store) (h : Reachable s) :
    (∀ i nd, s.chain[i + 1]? = some nd →
      nd.north = i ∧
      ∃ seg, '/' ∉ seg ∧
        nd.path = if i = 0 then "/".toList ++ seg
                  else (s.nodeAt i).path ++ "/".toList ++ seg) ∧
    (∀ a s1 s2 : List Char, '/' ∉ s1 → '/' ∉ s2 →
      a ++ "/".toList ++ s1 ∈ s.west.map Node.path →
      a ++ "/".toList ++ s2 ∈ s.west.map Node.path → s1 = s2) := by
  have hpl := reachable_pathList h
  refine ⟨?_, fun a s1 s2 h1 h2 hx hy => no_siblings hpl.1 h1 h2 hx hy⟩
  intro i nd hnd
  refine ⟨reachable_northChain h i nd hnd, ?_⟩
  have hw : (s.west.map Node.path)[i]? = some nd.path := by
    have : s.west[i]? = some nd := by simpa [Store.chain] using hnd
    rw [List.getElem?_map, this]
    rfl
  obtain ⟨x, hx, seg, hseg, e, _⟩ := chain_get_rel hpl.1 hw
  refine ⟨seg, hseg, ?_⟩
  cases i with
  | zero =>
    simp only [List.getElem?_cons_zero, Option.some.injEq] at hx
    subst hx
    rw [e, with_slash_root]
    rfl
  | succ j =>
    have hxw : (s.west.map Node.path)[j]? = some x := by simpa using hx
    obtain ⟨_, _, hprev⟩ := chain_get_rel hpl.1 hxw
    have hxlen : 1 < x.length := ext_long hprev
    have hnode : (s.nodeAt (j + 1)).path = x := by
      rw [List.getElem?_map] at hxw
      cases hc : s.west[j]? with
      | none => rw [hc] at hxw; cases hxw
      | some nd0 =>
        rw [hc] at hxw
        have hch : s.chain[j + 1]? = some nd0 := by simpa [Store.chain] using hc
        rw [nodeAt_eq hch]
        simpa using hxw
    rw [if_neg (by omega), hnode, e, with_slash_long hxlen]

/-- Claim C22 on the store with `/a` and `/a/b`: the node at position 2 has the
node at position 1 as north and its path, `/` and a segment as path. -/
theorem reachable_chain_is_path_list_witness :
    Reachable store_ab ∧ (store_ab.nodeAt 2).north = 1 ∧
    ∃ seg, '/' ∉ seg ∧
      (store_ab.nodeAt 2).path =
        if 1 = 0 then "/".toList ++ seg else (store_ab.nodeAt 1).path ++ "/".toList ++ seg :=
  ⟨reachable_store_ab,
    (reachable_chain_is_path_list store_ab reachable_store_ab).1 1 (store_ab.nodeAt 2)
      (by decide)⟩

/-! ### The node a PUT ends at, for every path -/

theorem slash_split_unique {x x' s s' : List Char} (hs : '/' ∉ s) (hs' : '/' ∉ s')
    (h : x ++ '/' :: s = x' ++ '/' :: s') : x = x' := by
  rcases List.append_eq_append_iff.mp h with ⟨a, e1, e2⟩ | ⟨c, e1, e2⟩
  · cases a with
    | nil => simpa using e1.symm
    | cons b a =>
      exfalso
      simp only [List.cons_append, List.cons.injEq] at e2
      exact hs (by rw [e2.2]; simp)
  · cases c with
    | nil => simpa using e1
    | cons b c =>
      exfalso
      simp only [List.cons_append, List.cons.injEq] at e2
      exact hs' (by rw [e2.2]; simp)

/-- The path that a path extends by one segment is determined by it. -/
theorem ext_parent_unique {a a' b : List Char}
    (ha : a = "/".toList ∨ 1 < a.length) (ha' : a' = "/".toList ∨ 1 < a'.length)
    (h : Ext a b) (h' : Ext a' b) : a = a' := by
  obtain ⟨seg, hseg, e, _⟩ := h
  obtain ⟨seg', hseg', e', _⟩ := h'
  have hform : ∀ c : List Char, (c = "/".toList ∨ 1 < c.length) →
      ∃ x, with_slash c = x ++ ['/'] ∧ (c = "/".toList ∧ x = [] ∨ 1 < c.length ∧ x = c) := by
    intro c hc
    rcases hc with rfl | hc
    · exact ⟨[], rfl, Or.inl ⟨rfl, rfl⟩⟩
    · exact ⟨c, with_slash_long hc, Or.inr ⟨hc, rfl⟩⟩
  obtain ⟨x, hx, hxc⟩ := hform a ha
  obtain ⟨x', hx', hxc'⟩ := hform a' ha'
  rw [hx] at e
  rw [hx', e] at e'
  simp only [List.append_assoc, List.singleton_append] at e'
  have hxx := slash_split_unique hseg hseg' e'
  rcases hxc with ⟨h1, h2⟩ | ⟨h1, h2⟩ <;> rcases hxc' with ⟨h1', h2'⟩ | ⟨h1', h2'⟩
  · rw [h1, h1']
  · exfalso
    rw [h2, h2'] at hxx
    rw [← hxx] at h1'
    simp at h1'
  · exfalso
    rw [h2, h2'] at hxx
    rw [hxx] at h1
    simp at h1
  · rw [← h2, ← h2', hxx]

/-- In a path list, the path that a stored path extends is stored as well. -/
theorem parent_resolves {s : Store} (hs : PathList s) {a b : List Char}
    (ha : a = "/".toList ∨ 1 < a.length) (hext : Ext a b)
    (hb : find_node_linear s b ≠ none) : find_node_linear s a ≠ none := by
  intro hnone
  have hmem : b ∈ s.chain.map Node.path := by
    by_contra hc
    exact hb (find_node_in_none.mpr hc)
  rw [chain_paths, List.mem_cons] at hmem
  have hblen := ext_long hext
  rcases hmem with e | hmem
  · rw [e] at hblen
    simp at hblen
  · obtain ⟨i, hi⟩ := List.mem_iff_getElem?.mp hmem
    obtain ⟨x, hx, hxb⟩ := chain_get_rel hs.1 hi
    have hxv : x = "/".toList ∨ 1 < x.length := by
      cases i with
      | zero =>
        simp only [List.getElem?_cons_zero, Option.some.injEq] at hx
        exact Or.inl hx.symm
      | succ j =>
        have hxw : (s.west.map Node.path)[j]? = some x := by simpa using hx
        obtain ⟨_, _, hprev⟩ := chain_get_rel hs.1 hxw
        exact Or.inr (ext_long hprev)
    have e := ext_parent_unique ha hxv hext hxb
    have hx' : a ∈ s.chain.map Node.path := by
      rw [chain_paths, e]
      exact List.mem_iff_getElem?.mpr ⟨i, hx⟩
    exact (find_node_in_none.mp hnone) hx'

/-- When the last accumulated path of a walk is stored in a path list, all of
them are. -/
theorem trail_resolves {s : Store} (hs : PathList s) (t : List (List Char)) (a : List Char)
    (hchain : List.Chain (fun a b => b = a ∨ Ext a b) a t)
    (ha : a = "/".toList ∨ 1 < a.length)
    (hlast : find_node_linear s (t.getLast?.getD a) ≠ none) :
    find_node_linear s a ≠ none ∧ ∀ x ∈ t, find_node_linear s x ≠ none := by
  induction t generalizing a with
  | nil => exact ⟨hlast, fun x hx => by simp at hx⟩
  | cons b t ih =>
    cases hchain with
    | cons hab hrest =>
      have hb : b = "/".toList ∨ 1 < b.length := by
        rcases hab with e | e
        · rw [e]; exact ha
        · exact Or.inr (ext_long e)
      have hlast' : find_node_linear s (t.getLast?.getD b) ≠ none := by
        rw [List.getLast?_cons] at hlast
        simpa using hlast
      obtain ⟨h1, h2⟩ := ih b hrest hb hlast'
      constructor
      · rcases hab with e | e
        · rw [← e]; exact h1
        · exact parent_resolves hs ha e h1
      · intro x hx
        rcases List.mem_cons.mp hx with rfl | hx
        · exact h1
        · exact h2 x hx

/-- The node that the walk of a PUT ends at, for every path of at most 255
bytes: its stored path resolves to it, and it holds the leaves that were
stored under that path before; when that path was stored before, the walk
creates nothing. -/
theorem put_resolve_leaves {s : Store} (hs : PathList s) {p : List Char}
    (hpl : p.length ≤ 255) :
    ∃ s1 n, put_resolve s p = .ok (s1, n) ∧
      find_node_linear s1 (s1.nodeAt n).path = some n ∧
      (s1.nodeAt n).east = leaves_under s (s1.nodeAt n).path ∧
      (∀ n0, find_node_linear s (s1.nodeAt n).path = some n0 → s1 = s ∧ n = n0) := by
  obtain ⟨t, s1, n, ht, hres, hfold, hfind⟩ := put_resolve_ok s hpl
  have hq : (s1.nodeAt n).path = t.getLast?.getD "/".toList := find_node_linear_path hfind
  have hs1 : s1 = (t.foldl visit (s, 0)).1 := congrArg Prod.fst hfold
  have hsame : ∀ n0, find_node_linear s (s1.nodeAt n).path = some n0 → s1 = s ∧ n = n0 := by
    intro n0 hf
    rw [hq] at hf
    obtain ⟨_, hall⟩ := trail_resolves hs t "/".toList
      (put_trail_chain ht (by decide) (Or.inl rfl)) (Or.inl rfl) (by rw [hf]; simp)
    have e : s1 = s := by rw [hs1]; exact foldl_visit_found t s 0 hall
    subst e
    rw [hf] at hfind
    cases hfind
    exact ⟨rfl, rfl⟩
  refine ⟨s1, n, hres, by rw [hq]; exact hfind, ?_, hsame⟩
  unfold leaves_under
  cases hf : find_node_linear s (s1.nodeAt n).path with
  | some n0 =>
    obtain ⟨e1, e2⟩ := hsame n0 hf
    subst e1
    subst e2
    rfl
  | none =>
    simp only []
    have hfresh := @foldl_visit_fresh s t (s, 0) (by
      intro nd hnd hnone
      exact absurd (List.mem_map_of_mem Node.path hnd) (find_node_in_none.mp hnone))
    rw [← hs1] at hfresh
    exact hfresh _ (nodeAt_mem (find_node_linear_lt hfind)) hf

/-! ### Created or updated -/

theorem find_leaf_linear_found {s : Store} {p k : List Char} {lf : Nat × Nat}
    (h : find_leaf_linear s p k = some lf) :
    find_leaf_in (leaves_under s p) k = some lf.2 := by
  obtain ⟨n, i⟩ := lf
  obtain ⟨h1, h2⟩ := find_leaf_linear_some h
  unfold leaves_under
  rw [h1]
  exact h2

/-- Claim C27 (created or updated): for a reachable store and a PUT that
passes validation, with a path of at most 255 bytes, let `n` be the node the
walk of the path ends at. `handle_put` returns status 0. When
`find_leaf_linear` finds a leaf for the stored path of `n` and the key before
the call, it writes `OK: Key '<key>' updated in path '<path of n>'.` and `n`
has as many leaves as were stored under that path before; when it finds none,
it writes `OK: Key '<key>' created in path '<path of n>'.` and `n` has one
leaf more than were stored under that path before (none, when `n` is new). -/
theorem put_reports_created_or_updated (s : Store) (hs : Reachable s) (cc : Bool)
    (p k v : List Char) (hp : p ≠ []) (hpl : p.length ≤ 255) (hk : k ≠ []) (hke : '=' ∉ k)
    (hv : v.length % 2 ^ 16 ≠ 0) :
    ∃ s1 n r, put_resolve s p = .ok (s1, n) ∧ handle_put s cc p (k ++ '=' :: v) = .ok r ∧
      r.status = 0 ∧
      find_node_linear r.store (s1.nodeAt n).path = some n ∧
      (r.store.nodeAt n).path = (s1.nodeAt n).path ∧
      ((∃ lf, find_leaf_linear s (s1.nodeAt n).path k = some lf) →
        r.out = "OK: Key '".toList ++ k ++ "' updated in path '".toList ++
          (s1.nodeAt n).path ++ "'.\n".toList ∧
        (r.store.nodeAt n).east.length = (leaves_under s (s1.nodeAt n).path).length) ∧
      (find_leaf_linear s (s1.nodeAt n).path k = none →
        r.out = "OK: Key '".toList ++ k ++ "' created in path '".toList ++
          (s1.nodeAt n).path ++ "'.\n".toList ∧
        (r.store.nodeAt n).east.length =
          (leaves_under s (s1.nodeAt n).path).length + 1) := by
  obtain ⟨s1, n, hres, hfind, heast, _⟩ := put_resolve_leaves (reachable_pathList hs) hpl
  have hacc := handle_put_accepted s cc p k v hp hk hke hv
  rw [hres] at hacc
  simp only [] at hacc
  have hn := find_node_linear_lt hfind
  obtain ⟨hst, _, hcase⟩ := put_leaf_writes cc k v (v.length % 2 ^ 16) hfind
  have hfind' : ∀ f, find_node_linear (s1.setEast n f) (s1.nodeAt n).path = some n := by
    intro f
    rw [find_node_linear_setEast]
    exact hfind
  refine ⟨s1, n, _, hres, hacc, hst, ?_, ?_, ?_, ?_⟩
  · rcases hcase with ⟨i, l, _, _, _, hstore, _⟩ | ⟨_, hstore, _⟩ <;> rw [hstore] <;>
      exact hfind' _
  · rcases hcase with ⟨i, l, _, _, _, hstore, _⟩ | ⟨_, hstore, _⟩ <;> rw [hstore] <;>
      exact find_node_linear_path (hfind' _)
  · rintro ⟨lf, hlf⟩
    have hin := find_leaf_linear_found hlf
    rw [← heast] at hin
    rcases hcase with ⟨i, l, _, _, _, hstore, hout⟩ | ⟨hnone, _, _⟩
    · refine ⟨hout, ?_⟩
      rw [hstore, nodeAt_setEast_same _ hn, ← heast]
      simp
    · rw [hnone] at hin
      cases hin
  · intro hnone
    have hin := find_leaf_linear_none hnone
    rw [← heast] at hin
    rcases hcase with ⟨i, l, hfi, _, _, _, _⟩ | ⟨_, hstore, hout⟩
    · rw [hin] at hfi
      cases hfi
    · refine ⟨hout, ?_⟩
      rw [hstore, nodeAt_setEast_same _ hn, ← heast]
      simp

/-- Claim C27 on the store with the leaf `k` under `/a/b`: `PUT /a/b k=w` is
served with status 0 and reported as an update, `PUT /a/b j=w` as a creation. -/
theorem put_reports_created_or_updated_witness :
    Reachable store_ab ∧
    ∃ s1 n r, put_resolve store_ab "/a/b".toList = .ok (s1, n) ∧
      handle_put store_ab true "/a/b".toList ("k".toList ++ '=' :: "w".toList) = .ok r ∧
      r.status = 0 ∧
      (handle_put store_ab true "/a/b".toList "k=w".toList).map Result.out =
        .ok "OK: Key 'k' updated in path '/a/b'.\n".toList ∧
      (handle_put store_ab true "/a/b".toList "j=w".toList).map Result.out =
        .ok "OK: Key 'j' created in path '/a/b'.\n".toList := by
  obtain ⟨s1, n, r, h1, h2, h3, _⟩ :=
    put_reports_created_or_updated store_ab reachable_store_ab true "/a/b".toList "k".toList
      "w".toList (by decide) (by decide) (by decide) (by decide) (by decide)
  exact ⟨reachable_store_ab, s1, n, r, h1, h2, h3, by decide, by decide⟩

/-! ### PUT on a path that resolves -/

theorem reachable_store_after {s : Store} {bytes : List Char} (hs : Reachable s)
    (hne : bytes ≠ []) (hlen : bytes.length ≤ 255) (h : ∃ r, childloop_step s bytes = .ok r) :
    Reachable (store_after s bytes) := by
  obtain ⟨r, hr⟩ := h
  rw [store_after_eq hr]
  exact Reachable.step s bytes r hs hne hlen hr

theorem reachable_store_gap : Reachable store_gap :=
  reachable_store_after Reachable.init (by decide) (by decide)
    (step_returns init_store (by decide) (by decide))

theorem lookup_append_other {e : List Leaf} {l : Leaf} {k' : List Char} (h : l.key ≠ k') :
    (find_leaf_in (e ++ [l]) k').bind
        (fun i => ((e ++ [l]).get? i).map (fun l => l.value)) =
      (find_leaf_in e k').bind (fun i => (e.get? i).map (fun l => l.value)) := by
  cases hf : find_leaf_in e k' with
  | none =>
    rw [find_leaf_in_append_new _ hf, if_neg h]
    rfl
  | some i =>
    have hi := find_leaf_in_lt hf
    rw [find_leaf_in_append_left hf]
    simp [List.getElem?_append_left hi]

theorem find_leaf_in_set {e : List Leaf} {i : Nat} {l l' : Leaf} (hget : e[i]? = some l)
    (hk : l'.key = l.key) (k' : List Char) :
    find_leaf_in (e.set i l') k' = find_leaf_in e k' := by
  induction e generalizing i with
  | nil => rfl
  | cons a e ih =>
    cases i with
    | zero =>
      simp only [List.getElem?_cons_zero, Option.some.injEq] at hget
      subst hget
      simp [find_leaf_in, hk]
    | succ j =>
      simp only [List.set_cons_succ, find_leaf_in]
      rw [ih (by simpa using hget)]

theorem lookup_set_other {e : List Leaf} {i : Nat} {l l' : Leaf} {k' : List Char}
    (hget : e[i]? = some l) (hk : l'.key = l.key) (hne : l.key ≠ k') :
    (find_leaf_in (e.set i l') k').bind
        (fun j => ((e.set i l').get? j).map (fun l => l.value)) =
      (find_leaf_in e k').bind (fun j => (e.get? j).map (fun l => l.value)) := by
  rw [find_leaf_in_set hget hk]
  cases hf : find_leaf_in e k' with
  | none => rfl
  | some j =>
    obtain ⟨lj, hj, hkey⟩ := find_leaf_in_some hf
    have hij : i ≠ j := by
      intro e'
      subst e'
      rw [hget] at hj
      cases hj
      exact hne hkey
    simp [List.getElem?_set_ne hij]

/-- The store after an accepted PUT on a well-formed path that resolves: the
leaf chain of the node of the path gets a leaf appended or one leaf replaced
by a leaf with the same key, and nothing else changes. -/
theorem put_resolved_store {s : Store} (hs : PathList s) (cc : Bool) {p k v : List Char}
    {n : Nat} (hp : AbsPath p) (hpl : p.length ≤ 255) (hres : find_node_linear s p = some n)
    (hk : k ≠ []) (hke : '=' ∉ k) (hv : v.length % 2 ^ 16 ≠ 0) :
    put_resolve s p = .ok (s, n) ∧
    ∃ r, handle_put s cc p (k ++ '=' :: v) = .ok r ∧ r.status = 0 ∧
      ((∃ i l, (s.nodeAt n).east[i]? = some l ∧ l.key = k ∧
          r.store = s.setEast n (fun e => e.set i
            { l with value := strncpy v (v.length % 2 ^ 16) ++ [NUL],
                     size := v.length % 2 ^ 16 })) ∨
       r.store = s.setEast n (fun e => e ++ [new_leaf s n k v (v.length % 2 ^ 16)])) := by
  obtain ⟨s1, n1, hput, hfind, _, _, hsame⟩ := put_resolve_abs hs hp hpl
  obtain ⟨e1, e2⟩ := hsame n hres
  subst e1
  subst e2
  have hacc := handle_put_accepted s1 cc p k v (abs_path_ne_nil hp) hk hke hv
  rw [hput] at hacc
  simp only [] at hacc
  obtain ⟨hst, _, hcase⟩ := put_leaf_writes cc k v (v.length % 2 ^ 16) hfind
  refine ⟨hput, _, hacc, hst, ?_⟩
  rcases hcase with ⟨i, l, _, hget, hkey, hstore, _⟩ | ⟨_, hstore, _⟩
  · exact Or.inl ⟨i, l, hget, hkey, hstore⟩
  · exact Or.inr hstore

theorem lookup_setEast_other {s : Store} {n : Nat} {p : List Char} (f : List Leaf → List Leaf)
    (hn : find_node_linear s p = some n) (p' k' : List Char)
    (hf : p' = p → (find_leaf_in (f (s.nodeAt n).east) k').bind
        (fun j => ((f (s.nodeAt n).east).get? j).map (fun l => l.value)) =
      (find_leaf_in (s.nodeAt n).east k').bind
        (fun j => ((s.nodeAt n).east.get? j).map (fun l => l.value))) :
    lookup_linear (s.setEast n f) p' k' = lookup_linear s p' k' := by
  have hnlt := find_node_linear_lt hn
  cases hm : find_node_linear s p' with
  | none =>
    unfold lookup_linear find_leaf_linear
    rw [find_node_linear_setEast, hm]
  | some m =>
    have hm' : find_node_linear (s.setEast n f) p' = some m := by
      rw [find_node_linear_setEast]; exact hm
    rw [lookup_linear_eq hm', lookup_linear_eq hm]
    by_cases hmn : m = n
    · subst hmn
      have hpp : p' = p := by
        rw [← find_node_linear_path hm, find_node_linear_path hn]
      rw [nodeAt_setEast_same _ hnlt]
      exact hf hpp
    · rw [nodeAt_setEast_other _ (fun e => hmn e.symm) (find_node_linear_lt hm)]

set_option maxRecDepth 100000 in
/-- Claim C25 as stated fails on a reachable store: after `PUT /a//b k=v` the
path `/a/` resolves, to the node between `/a` and `/a//b`; the accepted
`PUT /a/ x=y` walks the segment `a` only and stores its leaf under `/a`, so
the lookup of the pair (`/a`, `x`), which differs from (`/a/`, `x`), changes
from not found to `y`. -/
theorem put_on_unnormalized_path_changes_other_pair :
    Reachable store_gap ∧
    find_node_linear store_gap "/a/".toList = some 2 ∧
    ("/a".toList, "x".toList) ≠ ("/a/".toList, "x".toList) ∧
    lookup_linear store_gap "/a".toList "x".toList = none ∧
    (handle_put store_gap true "/a/".toList "x=y".toList).map
        (fun r => (r.status, lookup_linear r.store "/a".toList "x".toList)) =
      .ok (0, some "y".toList) :=
  ⟨reachable_store_gap, by decide, by decide, by decide, by decide⟩

/-- Claim C25, amended (PUT on an existing path touches one leaf only): for a
reachable store, a well-formed path `p` of at most 255 bytes that
`find_node_linear` resolves to the node `n`, and a key of at most 127 bytes,
an accepted `PUT p k=v` walks to `n` without creating a node, is served with
status 0, leaves the chain with the same nodes in the same places, every node
but `n` as it was and `n` with the same tag, north and path, and for every
pair (`p'`, `k'`) other than (`p`, `k`) `lookup_linear` returns after the PUT
what it returned before. -/
theorem put_on_existing_path_touches_one_leaf (s : Store) (hs : Reachable s) (cc : Bool)
    (p k v : List Char) (n : Nat) (hp : AbsPath p) (hpl : p.length ≤ 255)
    (hres : find_node_linear s p = some n) (hk : k ≠ []) (hke : '=' ∉ k)
    (hkl : k.length ≤ 127) (hv : v.length % 2 ^ 16 ≠ 0) :
    put_resolve s p = .ok (s, n) ∧
    ∃ r, handle_put s cc p (k ++ '=' :: v) = .ok r ∧ r.status = 0 ∧
      r.store.chain.length = s.chain.length ∧
      (∀ m, m < s.chain.length → m ≠ n → r.store.nodeAt m = s.nodeAt m) ∧
      (r.store.nodeAt n).tag = (s.nodeAt n).tag ∧
      (r.store.nodeAt n).north = (s.nodeAt n).north ∧
      (r.store.nodeAt n).path = (s.nodeAt n).path ∧
      (∀ p' k', (p', k') ≠ (p, k) →
        lookup_linear r.store p' k' = lookup_linear s p' k') := by
  have hnlt := find_node_linear_lt hres
  obtain ⟨hput, r, hacc, hst, hcase⟩ :=
    put_resolved_store (reachable_pathList hs) cc hp hpl hres hk hke hv
  have hframe : ∀ f : List Leaf → List Leaf,
      (s.setEast n f).chain.length = s.chain.length ∧
      (∀ m, m < s.chain.length → m ≠ n → (s.setEast n f).nodeAt m = s.nodeAt m) ∧
      ((s.setEast n f).nodeAt n).tag = (s.nodeAt n).tag ∧
      ((s.setEast n f).nodeAt n).north = (s.nodeAt n).north ∧
      ((s.setEast n f).nodeAt n).path = (s.nodeAt n).path := by
    intro f
    refine ⟨?_, ?_, ?_, ?_, ?_⟩
    · rw [chain_setEast]; simp
    · intro m hm hmn
      exact nodeAt_setEast_other f (fun e => hmn e.symm) hm
    · rw [nodeAt_setEast_same f hnlt]
    · rw [nodeAt_setEast_same f hnlt]
    · rw [nodeAt_setEast_same f hnlt]
  refine ⟨hput, r, hacc, hst, ?_⟩
  rcases hcase with ⟨i, l, hget, hkey, hstore⟩ | hstore
  · rw [hstore]
    obtain ⟨h1, h2, h3, h4, h5⟩ := hframe (fun e => e.set i
      { l with value := strncpy v (v.length % 2 ^ 16) ++ [NUL], size := v.length % 2 ^ 16 })
    refine ⟨h1, h2, h3, h4, h5, ?_⟩
    intro p' k' hne
    apply lookup_setEast_other _ hres
    intro hpp
    have hkk : l.key ≠ k' := by
      intro e
      apply hne
      rw [hpp, ← e, hkey]
    exact lookup_set_other hget rfl hkk
  · rw [hstore]
    obtain ⟨h1, h2, h3, h4, h5⟩ := hframe (fun e => e ++ [new_leaf s n k v (v.length % 2 ^ 16)])
    refine ⟨h1, h2, h3, h4, h5, ?_⟩
    intro p' k' hne
    apply lookup_setEast_other _ hres
    intro hpp
    have hkk : (new_leaf s n k v (v.length % 2 ^ 16)).key ≠ k' := by
      intro e
      apply hne
      rw [hpp, ← e]
      simp [new_leaf, List.take_of_length_le hkl]
    exact lookup_append_other hkk

/-- Claim C25 on the store with `/a`, `/a/b` and the leaf `k`: after
`PUT /a/b j=w` the lookup of (`/a/b`, `k`) still returns `v`. -/
theorem put_on_existing_path_touches_one_leaf_witness :
    Reachable store_ab ∧ find_node_linear store_ab "/a/b".toList = some 2 ∧
    ∃ r, handle_put store_ab true "/a/b".toList ("j".toList ++ '=' :: "w".toList) = .ok r ∧
      lookup_linear r.store "/a/b".toList "k".toList = some "v".toList ∧
      lookup_linear r.store "/a/b".toList "j".toList = some "w".toList := by
  obtain ⟨_, r, h1, _, _, _, _, _, _, h2⟩ :=
    put_on_existing_path_touches_one_leaf store_ab reachable_store_ab true "/a/b".toList
      "j".toList "w".toList 2 (by decide) (by decide) (by decide) (by decide) (by decide)
      (by decide) (by decide)
  refine ⟨reachable_store_ab, by decide, r, h1, ?_, ?_⟩
  · rw [h2 "/a/b".toList "k".toList (by decide)]
    decide
  · have e : "j".toList ++ '=' :: "w".toList = "j=w".toList := rfl
    rw [e] at h1
    have hd : (handle_put store_ab true "/a/b".toList "j=w".toList).map
        (fun r => lookup_linear r.store "/a/b".toList "j".toList) = .ok (some "w".toList) := by
      decide
    rw [h1] at hd
    exact Except.ok.inj hd

/-! ### Repeated GET -/

/-- Claim C23, amended (`create_leaf` appends and copies): for every store,
every node `n` of its chain with leaf chain `L`, every key and every value,
`create_leaf(n, key, value, count)` makes the leaf chain of `n` the list `L`
followed by one new leaf, which is the leaf it returns, and leaves every other
node as it was; the new leaf refers back to `n` when `L` is empty and to the
last leaf of `L` otherwise, has `size = count`, stores the first 127 bytes of
the key (the key itself when it has at most 127 bytes), and holds the `count`
bytes that `strncpy` copies, which are exactly the first `count` bytes of the
value when none of them is NUL. -/
theorem create_leaf_appends_and_copies (s : Store) (n : Nat) (k v : List Char) (c : Nat)
    (hn : n < s.chain.length) :
    ((create_leaf s n k v c).1.nodeAt n).east = (s.nodeAt n).east ++ [new_leaf s n k v c] ∧
    (create_leaf s n k v c).1.leafAt (create_leaf s n k v c).2 = some (new_leaf s n k v c) ∧
    (create_leaf s n k v c).1.chain.length = s.chain.length ∧
    (∀ m, m < s.chain.length → m ≠ n → (create_leaf s n k v c).1.nodeAt m = s.nodeAt m) ∧
    (new_leaf s n k v c).west =
      (if (s.nodeAt n).east = [] then TreePtr.node n
       else TreePtr.leaf n ((s.nodeAt n).east.length - 1)) ∧
    (new_leaf s n k v c).key = k.take 127 ∧
    (k.length ≤ 127 → (new_leaf s n k v c).key = k) ∧
    (new_leaf s n k v c).size = c ∧
    (new_leaf s n k v c).value = strncpy v c ∧
    (c ≤ v.length → NUL ∉ v.take c →
      (new_leaf s n k v c).value = v.take c ∧
      (new_leaf s n k v c).value.take (new_leaf s n k v c).size = v.take c) := by
  obtain ⟨h1, h2, h3, h4, h5, h6⟩ := create_leaf_appends s n k v c hn
  refine ⟨h1, create_leaf_at s n k v c hn, ?_, ?_, h2, h3, ?_, h4, h5, ?_⟩
  · rw [create_leaf_eq s n k v c hn, chain_setEast]
    simp
  · intro m hm hmn
    rw [create_leaf_eq s n k v c hn]
    exact nodeAt_setEast_other _ (fun e => hmn e.symm) hm
  · intro hk
    rw [h3]
    exact List.take_of_length_le hk
  · intro hc hnul
    have hv := h6 hc hnul
    refine ⟨hv, ?_⟩
    rw [hv, h4]
    simp

/-- Claim C23 on the node `/a/b` of the store with the leaf `k`: the leaf for
`x` with the two bytes `yz` is appended behind `k`, refers back to it, and
holds `yz`. -/
theorem create_leaf_appends_and_copies_witness :
    2 < store_ab.chain.length ∧
    ((create_leaf store_ab 2 "x".toList "yz".toList 2).1.nodeAt 2).east =
      (store_ab.nodeAt 2).east ++ [new_leaf store_ab 2 "x".toList "yz".toList 2] ∧
    new_leaf store_ab 2 "x".toList "yz".toList 2 =
      { tag := TagLeaf, west := TreePtr.leaf 2 0, key := "x".toList, value := "yz".toList,
        size := 2 } :=
  ⟨by decide,
    (create_leaf_appends_and_copies store_ab 2 "x".toList "yz".toList 2 (by decide)).1,
    by decide⟩

end Cache22
